import Mathlib

/-!
# Phone-number forwarding trie (`phone_forward.c`)

A shallow embedding of the forwarding base of `src/src/phone_forward.c` and the
properties of its operations `phfwdAdd`, `phfwdRemove`, `phfwdGet`,
`phfwdReverse` and `phfwdNonTrivialCount`.

Modelling conventions.

* A C string is the list of its bytes before the terminating NUL (`Str`); a
  nullable `char const *` argument of the public interface is an `Option Str`.
* `struct PhoneForward *` is the inductive type `PhoneForward`: `null` is the
  NULL pointer, `node children fwdTo fwdFrom` is a live node owning its twelve
  child slots, its optional target string and its list of sources.
* A pointer into the tree that is used while the root is also being mutated
  (`tmp` in `phfwdAddHelper`, `pf` in `addForward`,
  `removeForwardsFromSubtree` and `phfwdRemoveRecTo`) is the string spelled by
  the path from the root to the node; reading through it is `sub`, writing
  through it is `modifyAt`.
  A node designated by such a pointer still exists whenever the code uses the
  pointer again (`addForward_spec`, the `keep` fields of `RfsPost`, `LoopPost`
  and `RecToPost`), so no read or write of the model goes through a freed node.
* `malloc` never fails, so the lists returned by `phfwdGet` and `phfwdReverse`
  are never NULL; a `struct PhoneNumbers *` is the list of its strings.
  What `phfwdAdd` leaves when one of its allocations fails is the subject of
  the definitions named `...Alloc`, which take the outcomes of the successive
  calls of `malloc`; without a failure they are the functions studied
  everywhere else (`phfwdAddAlloc_of_success`).
* Reads of a child slot outside `0..11` yield `null` and writes there are
  dropped; on validated numbers every index is inside the array
  (`phfwdAddSlots_spec`, `phfwdRemoveSlots_spec`).
* The recursions of `removeForwardsFromSubtree` and `phfwdRemoveRecTo` and the
  loop of `myPow` carry a bound on their depth; `phfwdRemove_spec` and
  `myPowLoop_spec` show that the bounds used are never exhausted.
* `size_t` arithmetic that can wrap (`myPow`, the counter of
  `countNonTrivialRec`) is taken modulo `2 ^ SIZE_BITS`; lengths, depths and
  the `int` indices of the string loops are natural numbers, since they are
  bounded by the length of a string held in memory.
-/

namespace Phfwd

/-- A C string: its bytes up to the terminating NUL. -/
abbrev Str := List Nat

/-- Number of characters that count as digits (`NUMBER_OF_DIGITS`). -/
abbrev NUMBER_OF_DIGITS : Nat := 12

/-- Version tag of `phfwdAddHelper`: set the forward of a node. -/
def TO : Int := 0
/-- Version tag of `phfwdAddHelper`: add to the inverse list of a node. -/
def FROM : Int := 1
/-- Version tag of `phfwdRemoveRecFrom`: delete one exact number. -/
def NUMBER : Int := 0
/-- Version tag of `phfwdRemoveRecFrom`: delete everything with a given beginning. -/
def PREFIX : Int := 1

/-- Bit width of `size_t`; the proofs below only use that it is positive. -/
def SIZE_BITS : Nat := 64

/-- The node of the trie, `struct PhoneForward`; `null` is the NULL pointer. -/
inductive PhoneForward where
  | null : PhoneForward
  | node (children : Fin 12 → PhoneForward) (fwdTo : Option Str) (fwdFrom : List Str) :
      PhoneForward

open PhoneForward

/-- The bytes of a string literal, to write numbers such as `"123"` readably. -/
def ofString (s : String) : Str := s.toList.map Char.toNat

/-! ## Strings -/

/-- The function `strlen`. -/
def strlen (s : Str) : Nat := s.length

/-- The function `strcmp`, up to the sign of its result (all that C guarantees). -/
def strcmp : Str → Str → Int
  | [], [] => 0
  | [], _ :: _ => -1
  | _ :: _, [] => 1
  | a :: s, b :: t => if a = b then strcmp s t else if a < b then -1 else 1

/-- The function `strncmp`, up to the sign of its result. -/
def strncmp : Str → Str → Nat → Int
  | _, _, 0 => 0
  | [], [], _ + 1 => 0
  | [], _ :: _, _ + 1 => -1
  | _ :: _, [], _ + 1 => 1
  | a :: s, b :: t, n + 1 => if a = b then strncmp s t n else if a < b then -1 else 1

/-! ## Digits and numbers -/

/-- The function `isDigit`: `ch >= '0' && ch <= ';'`. -/
def isDigit (ch : Nat) : Bool := decide (48 ≤ ch) && decide (ch ≤ 59)

/-- The `while` loop of `checkIfNumber`. -/
def checkIfNumberLoop : Str → Bool
  | [] => true
  | c :: rest => if isDigit c == false then false else checkIfNumberLoop rest

/-- The function `checkIfNumber`. -/
def checkIfNumber : Option Str → Bool
  | none => false
  | some [] => false
  | some (c :: rest) => checkIfNumberLoop (c :: rest)

/-- The function `charDigitToInt`: `ch - '0'`. -/
def charDigitToInt (ch : Nat) : Int := (ch : Int) - 48

/-! ## Lists of numbers (`struct PhoneNumbers`) -/

/-- First loop of `deletePrefixFromList`: drop matching elements at the head. -/
def deletePrefixFromListHead (pre : Str) (preLen : Nat) : List Str → List Str
  | [] => []
  | x :: rest =>
    if strncmp x pre preLen = 0 then deletePrefixFromListHead pre preLen rest else x :: rest

/-- Second loop of `deletePrefixFromList`: unlink matching elements after `prev`. -/
def deletePrefixFromListRest (pre : Str) (preLen : Nat) : List Str → List Str
  | [] => []
  | x :: rest =>
    if strncmp x pre preLen ≠ 0 then x :: deletePrefixFromListRest pre preLen rest
    else deletePrefixFromListRest pre preLen rest

/-- The function `deletePrefixFromList`. -/
def deletePrefixFromList (pnum : List Str) (pre : Str) : List Str :=
  match pnum with
  | [] => []
  | _ :: _ =>
    let preLen := strlen pre
    match deletePrefixFromListHead pre preLen pnum with
    | [] => []
    | x :: rest => x :: deletePrefixFromListRest pre preLen rest

/-- The `while` loop of `deleteNumFromList`: unlink the first element equal to `num`. -/
def deleteNumFromListRest (num : Str) : List Str → List Str
  | [] => []
  | x :: rest => if strcmp x num ≠ 0 then x :: deleteNumFromListRest num rest else rest

/-- The function `deleteNumFromList`. -/
def deleteNumFromList (pnum : List Str) (num : Str) : List Str :=
  match pnum with
  | [] => []
  | x :: rest => if strcmp x num = 0 then rest else x :: deleteNumFromListRest num rest

/-- The function `emptyPhnum`: the list holding the empty string. -/
def emptyPhnum : List Str := [[]]

/-! ## Nodes -/

/-- The function `phfwdNew`. -/
def phfwdNew : PhoneForward := node (fun _ => null) none []

/-- Field `fwdTo` of a node. -/
def fwdToOf : PhoneForward → Option Str
  | null => none
  | node _ t _ => t

/-- Field `fwdFrom` of a node. -/
def fwdFromOf : PhoneForward → List Str
  | null => []
  | node _ _ f => f

/-- Read `pf->children[d]`. -/
def getChild (pf : PhoneForward) (d : Int) : PhoneForward :=
  match pf with
  | null => null
  | node cs _ _ => if h : 0 ≤ d ∧ d < 12 then cs ⟨d.toNat, by omega⟩ else null

/-- Write `pf->children[d] = c`. -/
def setChild (pf : PhoneForward) (d : Int) (c : PhoneForward) : PhoneForward :=
  match pf with
  | null => null
  | node cs t f =>
    if h : 0 ≤ d ∧ d < 12 then node (Function.update cs ⟨d.toNat, by omega⟩ c) t f
    else node cs t f

/-- Write `pf->fwdTo = t`. -/
def setFwdTo (t : Option Str) : PhoneForward → PhoneForward
  | null => null
  | node cs _ f => node cs t f

/-- Write `pf->fwdFrom = f`. -/
def setFwdFrom (f : List Str) : PhoneForward → PhoneForward
  | null => null
  | node cs t _ => node cs t f

/-- Whether a pointer is NULL. -/
def isNull : PhoneForward → Bool
  | null => true
  | node _ _ _ => false

/-- The function `isNodeEmpty`; C never calls it on NULL, where the model answers `false`. -/
def isNodeEmpty : PhoneForward → Bool
  | null => false
  | node cs t f =>
    if t.isSome then false
    else if !f.isEmpty then false
    else (List.finRange 12).all (fun i => isNull (cs i))

/-- The node a pointer designates: follow the path spelled by `path` from `pf`. -/
def sub : PhoneForward → Str → PhoneForward
  | pf, [] => pf
  | pf, c :: rest => sub (getChild pf (charDigitToInt c)) rest

/-- Write through a pointer: replace the node at `path` by `f` of it. -/
def modifyAt : PhoneForward → Str → (PhoneForward → PhoneForward) → PhoneForward
  | pf, [], f => f pf
  | pf, c :: rest, f =>
    setChild pf (charDigitToInt c) (modifyAt (getChild pf (charDigitToInt c)) rest f)

/-- The statements `phfwdDelete(pf->children[d]); pf->children[d] = NULL;` on the node at `pf`. -/
def deleteChild (rootPf : PhoneForward) (pf : Str) (d : Int) : PhoneForward :=
  modifyAt rootPf pf (fun n => setChild n d null)

/-- Height of a tree: the number of nodes on its longest branch. -/
def height : PhoneForward → Nat
  | null => 0
  | node cs _ _ => 1 + (List.finRange 12).foldr (fun i acc => max (height (cs i)) acc) 0

/-! ## Adding a forward -/

/-- The function `phfwdRemoveRecFrom`. The node is updated in place; the result is the
updated node together with the returned flag. -/
def phfwdRemoveRecFrom :
    PhoneForward → Str → Str → Nat → Nat → Int → PhoneForward × Bool
  | null, _, _, _, _, _ => (null, false)
  | node cs t f, num, numDel, currentDepth, length, version =>
    if currentDepth = length then
      let f1 := if version = PREFIX then deletePrefixFromList f numDel else f
      let f2 := if version = NUMBER then deleteNumFromList f1 numDel else f1
      (node cs t f2, isNodeEmpty (node cs t f2))
    else
      let digit := charDigitToInt (num.getD currentDepth 0)
      if h : 0 ≤ digit ∧ digit < 12 then
        let r := phfwdRemoveRecFrom (cs ⟨digit.toNat, by omega⟩) num numDel
          (currentDepth + 1) length version
        let pf1 := node (Function.update cs ⟨digit.toNat, by omega⟩
          (if r.2 = true then null else r.1)) t f
        (pf1, isNodeEmpty pf1)
      else (node cs t f, isNodeEmpty (node cs t f))

/-- The function `addToFromList`, on the node at `pf`. -/
def addToFromList (rootPf : PhoneForward) (pf : Str) (num : Str) : PhoneForward × Bool :=
  (modifyAt rootPf pf (fun n => setFwdFrom (num :: fwdFromOf n) n), true)

/-- The function `addForward`, on the node at `pf`. -/
def addForward (pfRoot : PhoneForward) (pf : Str) (num1 num2 : Str) : PhoneForward × Bool :=
  let root1 := match fwdToOf (sub pfRoot pf) with
    | some old => (phfwdRemoveRecFrom pfRoot old num1 0 (strlen old) NUMBER).1
    | none => pfRoot
  (modifyAt root1 pf (setFwdTo (some num2)), true)

/-- The `for` loop of `phfwdAddHelper`: walk down `num1`, creating the missing nodes. -/
def phfwdAddHelperWalk : PhoneForward → Str → PhoneForward
  | pf, [] => pf
  | pf, c :: rest =>
    let digit := charDigitToInt c
    let child := match getChild pf digit with
      | null => phfwdNew
      | n => n
    setChild pf digit (phfwdAddHelperWalk child rest)

/-- The function `phfwdAddHelper`; after the loop `tmp` is the node at path `num1`. -/
def phfwdAddHelper (pf : PhoneForward) (num1 num2 : Str) (version : Int) :
    PhoneForward × Bool :=
  let pf1 := phfwdAddHelperWalk pf num1
  if version = 1 then addToFromList pf1 num1 num2
  else addForward pf1 num1 num1 num2

/-- The function `phfwdAdd`: the updated base and the returned flag. -/
def phfwdAdd (pf : PhoneForward) : Option Str → Option Str → PhoneForward × Bool
  | some num1, some num2 =>
    if (!checkIfNumber (some num1) || !checkIfNumber (some num2)) = true then (pf, false)
    else if strcmp num1 num2 = 0 then (pf, false)
    else
      let r := phfwdAddHelper pf num1 num2 TO
      if (!r.2) = true then (r.1, false)
      else phfwdAddHelper r.1 num2 num1 FROM
  | _, _ => (pf, false)

/-! ## Removing forwards -/

/-- The `for` loop of `removeForwardsFromSubtree` over the child slots `is` of the node at
`pf`; `call` is the recursive call. -/
def removeForwardsLoop (call : PhoneForward → Str → Option (PhoneForward × Bool)) (pf : Str) :
    List Nat → PhoneForward → Option PhoneForward
  | [], rootPf => some rootPf
  | i :: rest, rootPf =>
    match call rootPf (pf ++ [i + 48]) with
    | none => none
    | some (root1, b) =>
      removeForwardsLoop call pf rest (if b = true then deleteChild root1 pf i else root1)

/-- The function `removeForwardsFromSubtree`, on the node at `pf`. The first argument bounds
the recursion depth; `none` means the bound was too small. -/
def removeForwardsFromSubtree : Nat → PhoneForward → Str → Str → Option (PhoneForward × Bool)
  | 0, rootPf, pf, _ =>
    match sub rootPf pf with
    | null => some (rootPf, false)
    | node _ _ _ => none
  | fuel + 1, rootPf, pf, num =>
    match sub rootPf pf with
    | null => some (rootPf, false)
    | node _ fwdTo _ =>
      let root1 := match fwdTo with
        | some t => (phfwdRemoveRecFrom rootPf t num 0 (strlen t) PREFIX).1
        | none => rootPf
      match removeForwardsLoop (fun r p => removeForwardsFromSubtree fuel r p num) pf
          (List.range 12) root1 with
      | none => none
      | some root2 =>
        let root3 := if (fwdToOf (sub root2 pf)).isSome then modifyAt root2 pf (setFwdTo none)
          else root2
        some (root3, isNodeEmpty (sub root3 pf))

/-- The function `phfwdRemoveRecTo`, on the node at `pf`, with the same recursion bound. -/
def phfwdRemoveRecTo :
    Nat → PhoneForward → Str → Str → Nat → Nat → Option (PhoneForward × Bool)
  | 0, rootPf, pf, num, currentDepth, length =>
    match sub rootPf pf with
    | null => some (rootPf, false)
    | node _ _ _ =>
      if currentDepth = length then removeForwardsFromSubtree 0 rootPf pf num else none
  | fuel + 1, rootPf, pf, num, currentDepth, length =>
    match sub rootPf pf with
    | null => some (rootPf, false)
    | node _ _ _ =>
      if currentDepth = length then removeForwardsFromSubtree (fuel + 1) rootPf pf num
      else
        let c := num.getD currentDepth 0
        let digit := charDigitToInt c
        match phfwdRemoveRecTo fuel rootPf (pf ++ [c]) num (currentDepth + 1) length with
        | none => none
        | some (root1, true) =>
          let root2 := deleteChild root1 pf digit
          some (root2, isNodeEmpty (sub root2 pf))
        | some (root1, false) => some (root1, false)

/-- The function `phfwdRemove`; the recursion bound is the height of the tree, which
`phfwdRemove_spec` shows to be enough. -/
def phfwdRemove (pf : PhoneForward) (num : Option Str) : PhoneForward :=
  if checkIfNumber num = true then
    match num with
    | some n =>
      match phfwdRemoveRecTo (height pf) pf [] n 0 (strlen n) with
      | some r => r.1
      | none => pf
    | none => pf
  else pf

/-! ## Queries -/

/-- The `for` loop of `phfwdGet`: `(bestMatch, bestMatchLength)` after walking `rest` from
index `i`. -/
def phfwdGetLoop : Str → Nat → PhoneForward → Option Str → Nat → Option Str × Nat
  | [], _, _, bestMatch, bestMatchLength => (bestMatch, bestMatchLength)
  | c :: rest, i, pf, bestMatch, bestMatchLength =>
    let digit := charDigitToInt c
    match getChild pf digit with
    | null => (bestMatch, bestMatchLength)
    | node cs fwdTo fwdFrom =>
      match fwdTo with
      | some t => phfwdGetLoop rest (i + 1) (node cs fwdTo fwdFrom) (some t) (i + 1)
      | none => phfwdGetLoop rest (i + 1) (node cs fwdTo fwdFrom) bestMatch bestMatchLength

/-- The function `phfwdGet`. -/
def phfwdGet (pf : PhoneForward) (num : Option Str) : List Str :=
  if checkIfNumber num = false then emptyPhnum
  else
    match num with
    | none => emptyPhnum
    | some n =>
      match phfwdGetLoop n 0 pf none 0 with
      | (none, _) => [n]
      | (some bestMatch, bestMatchLength) => [bestMatch ++ n.drop bestMatchLength]

/-- The `while` loop of `addToListLex`, on the list after `tmp`. -/
def addToListLexRest (element : Str) : List Str → List Str
  | [] => [element]
  | x :: rest =>
    if strcmp x element < 0 then x :: addToListLexRest element rest
    else if strcmp x element = 0 then x :: rest
    else element :: x :: rest

/-- The function `addToListLex`. -/
def addToListLex (list : List Str) (element : Str) : List Str :=
  match list with
  | [] => [element]
  | x :: rest =>
    let difference := strcmp x element
    if difference > 0 then element :: x :: rest
    else if difference = 0 then x :: rest
    else if strcmp x element < 0 then x :: addToListLexRest element rest
    else x :: rest

/-- The inner `while` loop of `phfwdReverse` over the inverse list of a node. -/
def phfwdReverseNode (suffix : Str) : List Str → List Str → List Str
  | [], list => list
  | x :: nodeList, list => phfwdReverseNode suffix nodeList (addToListLex list (x ++ suffix))

/-- The `for` loop of `phfwdReverse`: `rest` is `num + i`. -/
def phfwdReverseLoop : Str → PhoneForward → List Str → List Str
  | [], _, list => list
  | c :: rest, tmp, list =>
    let index := charDigitToInt c
    match getChild tmp index with
    | null => list
    | node cs fwdTo fwdFrom =>
      phfwdReverseLoop rest (node cs fwdTo fwdFrom) (phfwdReverseNode rest fwdFrom list)

/-- The function `phfwdReverse`. -/
def phfwdReverse (pf : PhoneForward) (num : Option Str) : List Str :=
  if checkIfNumber num = false then emptyPhnum
  else
    match num with
    | none => emptyPhnum
    | some n => phfwdReverseLoop n pf [n]

/-- The `for` loop of `phnumGet`: follow `next` at most `idx` times. -/
def phnumGetLoop : List Str → Nat → List Str
  | list, 0 => list
  | [], _ + 1 => []
  | _ :: rest, i + 1 => phnumGetLoop rest i

/-- The function `phnumGet`; the empty list is the NULL list, `none` is the NULL string. -/
def phnumGet (pnum : List Str) (idx : Nat) : Option Str :=
  match pnum with
  | [] :: _ => none
  | _ =>
    match phnumGetLoop pnum idx with
    | [] => none
    | number :: _ => some number

/-! ## Counting -/

/-- The `while` loop of `getSimplifiedSet`. -/
def getSimplifiedSetLoop : Str → Nat → (Fin 12 → Bool) → (Fin 12 → Bool)
  | [], _, simplifiedSet => simplifiedSet
  | c :: rest, numberOfUniqueDigits, simplifiedSet =>
    if numberOfUniqueDigits < NUMBER_OF_DIGITS then
      if h : isDigit c = true then
        let k : Fin 12 := ⟨(charDigitToInt c).toNat, by
          simp only [isDigit, Bool.and_eq_true, decide_eq_true_eq] at h
          unfold charDigitToInt; omega⟩
        if simplifiedSet k = false then
          getSimplifiedSetLoop rest (numberOfUniqueDigits + 1) (Function.update simplifiedSet k true)
        else getSimplifiedSetLoop rest numberOfUniqueDigits simplifiedSet
      else getSimplifiedSetLoop rest numberOfUniqueDigits simplifiedSet
    else simplifiedSet

/-- The function `getSimplifiedSet`. -/
def getSimplifiedSet (set : Str) (simplifiedSet : Fin 12 → Bool) : Fin 12 → Bool :=
  getSimplifiedSetLoop set 0 simplifiedSet

/-- The `while` loop of `myPow` on `size_t` values; the first argument bounds the number of
iterations. -/
def myPowLoop : Nat → Nat → Nat → Nat → Option Nat
  | fuel, result, base, exponent =>
    if exponent = 0 then some result
    else match fuel with
      | 0 => none
      | fuel + 1 =>
        if exponent % 2 = 1 then
          myPowLoop fuel ((result * base) % 2 ^ SIZE_BITS) base (exponent - 1)
        else myPowLoop fuel result ((base * base) % 2 ^ SIZE_BITS) (exponent / 2)

/-- The function `myPow`; `exponent` iterations are enough (`myPowLoop_spec`). -/
def myPow (base exponent : Nat) : Nat :=
  (myPowLoop exponent 1 base exponent).getD 0

/-- The function `countNonTrivialRec`: the value of `*counter` after the call. -/
def countNonTrivialRec :
    PhoneForward → Nat → Nat → Nat → (Fin 12 → Bool) → Nat → Nat
  | null, _, _, _, _, counter => counter
  | node cs _ fwdFrom, depth, len, setSize, simplifiedSet, counter =>
    if depth ≤ len then
      if !fwdFrom.isEmpty then (counter + myPow setSize (len - depth)) % 2 ^ SIZE_BITS
      else
        (List.finRange 12).foldl (fun cnt i =>
          if simplifiedSet i = true then
            countNonTrivialRec (cs i) (depth + 1) len setSize simplifiedSet cnt
          else cnt) counter
    else counter

/-- The function `phfwdNonTrivialCount`; a NULL base is `null`, a NULL `set` is `none`. -/
def phfwdNonTrivialCount (pf : PhoneForward) (set : Option Str) (len : Nat) : Nat :=
  match pf, set with
  | null, _ => 0
  | _, none => 0
  | node cs t f, some s =>
    if len = 0 ∨ s = [] then 0
    else
      let simplifiedSet := getSimplifiedSet s (fun _ => false)
      let setSize := (List.finRange 12).foldl
        (fun n i => if simplifiedSet i = true then n + 1 else n) 0
      if setSize = 0 then 0
      else countNonTrivialRec (node cs t f) 0 len setSize simplifiedSet 0

/-- Bases reachable from a new base by calls of `phfwdAdd` and `phfwdRemove`. -/
inductive Reachable : PhoneForward → Prop
  | new : Reachable phfwdNew
  | add (pf : PhoneForward) (num1 num2 : Option Str) :
      Reachable pf → Reachable (phfwdAdd pf num1 num2).1
  | remove (pf : PhoneForward) (num : Option Str) :
      Reachable pf → Reachable (phfwdRemove pf num)

/-! ## Notions used to state the properties -/

/-- A number in the sense of the specification: non-empty, all characters among the twelve
digits `'0'..'9'`, `':'`, `';'` (bytes 48..59). -/
def ValidNumber (n : Str) : Prop := n ≠ [] ∧ ∀ c ∈ n, 48 ≤ c ∧ c ≤ 59

instance (n : Str) : Decidable (ValidNumber n) := by unfold ValidNumber; infer_instance

/-- The character is one of the twelve digits. -/
def InRange (c : Nat) : Prop := 48 ≤ c ∧ c ≤ 59

instance (c : Nat) : Decidable (InRange c) := by unfold InRange; infer_instance

/-- Forward target stored at the node with path `p` (`none` when there is no such node). -/
def fwdToAt (pf : PhoneForward) (p : Str) : Option Str := fwdToOf (sub pf p)

/-- Inverse list stored at the node with path `p` (empty when there is no such node). -/
def fwdFromAt (pf : PhoneForward) (p : Str) : List Str := fwdFromOf (sub pf p)

/-- Whether there is no node with path `p`. -/
def nullAt (pf : PhoneForward) (p : Str) : Bool := isNull (sub pf p)

/-- An active rule `a → b` of a base: `a` is a non-empty string and the node with path `a`
holds the forward target `b`. -/
def ActiveRule (pf : PhoneForward) (a b : Str) : Prop := a ≠ [] ∧ fwdToAt pf a = some b

/-- A nullable string that is a number: not NULL, and valid. -/
def IsNumber (s : Option Str) : Prop := ∃ n, s = some n ∧ ValidNumber n

/-- Agreement of two nodes on everything but their child slots. -/
def Shallow (a b : PhoneForward) : Prop :=
  isNull a = isNull b ∧ fwdToOf a = fwdToOf b ∧ fwdFromOf a = fwdFromOf b

/-- No node other than the root is empty (I3). -/
def NoEmpty (pf : PhoneForward) : Prop := ∀ q, q ≠ [] → isNodeEmpty (sub pf q) = false

/-- No node other than the root and the node with path `p` is empty. -/
def NoEmptyExcept (p : Str) (pf : PhoneForward) : Prop :=
  ∀ q, q ≠ [] → q ≠ p → isNodeEmpty (sub pf q) = false

/-- The node the walk continues from: the existing child, or a new node. -/
def walkChild (pf : PhoneForward) (c : Nat) : PhoneForward :=
  match getChild pf (charDigitToInt c) with
  | null => phfwdNew
  | n => n

/-- The change `phfwdRemoveRecFrom` makes to the inverse list it reaches. -/
def delFrom (version : Int) (numDel : Str) (l : List Str) : List Str :=
  let f1 := if version = PREFIX then deletePrefixFromList l numDel else l
  if version = NUMBER then deleteNumFromList f1 numDel else f1

/-- The invariant of a base: the root is a live node without target and inverse list (I1),
every stored target is a valid number different from its source and is matched by an entry of
the inverse list at the target (I2, I4), every entry of an inverse list is matched by a
target, inverse lists have no repetition, and no node but the root is empty (I3). -/
structure Inv (pf : PhoneForward) : Prop where
  root : isNull pf = false
  rootTo : fwdToOf pf = none
  rootFrom : fwdFromOf pf = []
  toFrom : ∀ a b, fwdToAt pf a = some b → ValidNumber b ∧ b ≠ a ∧ a ∈ fwdFromAt pf b
  fromTo : ∀ a b, a ∈ fwdFromAt pf b → fwdToAt pf a = some b
  nodup : ∀ b, (fwdFromAt pf b).Nodup
  noEmpty : NoEmpty pf

/-- An inverse list after some deletions of `deletePrefixFromList p`: unchanged, or without
its entries that begin with `p`. -/
def Pruned (p : Str) (l1 l : List Str) : Prop :=
  l1 = l ∨ l1 = l.filter (fun y => decide (¬ p <+: y))

/-- What a call of `removeForwardsFromSubtree` on the node at `π`, for the argument `p` of
`phfwdRemove`, guarantees about the base `root1` it leaves, given the base `root` it
started from. -/
structure RfsPost (p π : Str) (root root1 : PhoneForward) (flag : Bool) : Prop where
  tgt : ∀ q, fwdToAt root1 q = if π <+: q then none else fwdToAt root q
  lst : ∀ q, Pruned p (fwdFromAt root1 q) (fwdFromAt root q)
  clean : ∀ q t, π <+: q → fwdToAt root q = some t → ∀ x ∈ fwdFromAt root1 t, ¬ p <+: x
  mono : ∀ q, nullAt root q = true → nullAt root1 q = true
  flagEq : flag = isNodeEmpty (sub root1 π)
  ne : NoEmptyExcept π root → NoEmptyExcept π root1
  nullCase : nullAt root π = true → root1 = root ∧ flag = false
  top : isNull root1 = isNull root
  keep : nullAt root π = false → nullAt root1 π = false

/-- What the loop of `removeForwardsFromSubtree` over the child slots `is` of the node at `π`
guarantees about the base `root1` it leaves, given the base `root` it started from. -/
structure LoopPost (p π : Str) (is : List Nat) (root root1 : PhoneForward) : Prop where
  tgt1 : ∀ q, (∃ i ∈ is, π ++ [i + 48] <+: q) → fwdToAt root1 q = none
  tgt2 : ∀ q, (¬ ∃ i ∈ is, π ++ [i + 48] <+: q) → fwdToAt root1 q = fwdToAt root q
  lst : ∀ q, Pruned p (fwdFromAt root1 q) (fwdFromAt root q)
  clean : ∀ i ∈ is, ∀ q t, π ++ [i + 48] <+: q → fwdToAt root q = some t →
    ∀ x ∈ fwdFromAt root1 t, ¬ p <+: x
  mono : ∀ q, nullAt root q = true → nullAt root1 q = true
  ne : NoEmptyExcept π root → NoEmptyExcept π root1
  top : isNull root1 = isNull root
  keep : nullAt root π = false → nullAt root1 π = false

/-- The base after the first statement of `removeForwardsFromSubtree`, which prunes the
inverse list at the target `t` of the node (when it has one). -/
def rfsStart (root : PhoneForward) (t : Option Str) (p : Str) : PhoneForward :=
  match t with
  | some tt => (phfwdRemoveRecFrom root tt p 0 (strlen tt) PREFIX).1
  | none => root

/-- The base after the last statement of `removeForwardsFromSubtree`, which clears the target
of the node at `π`. -/
def rfsFinish (root2 : PhoneForward) (π : Str) : PhoneForward :=
  if (fwdToOf (sub root2 π)).isSome then modifyAt root2 π (setFwdTo none) else root2

/-- What a call of `phfwdRemoveRecTo` on the node at `π`, a beginning of the argument `p` of
`phfwdRemove`, guarantees about the base `root1` it leaves, given the base `root` it started
from. -/
structure RecToPost (p π : Str) (root root1 : PhoneForward) (flag : Bool) : Prop where
  tgt : ∀ q, fwdToAt root1 q = if p <+: q then none else fwdToAt root q
  lst : ∀ q, Pruned p (fwdFromAt root1 q) (fwdFromAt root q)
  clean : ∀ q t, p <+: q → fwdToAt root q = some t → ∀ x ∈ fwdFromAt root1 t, ¬ p <+: x
  mono : ∀ q, nullAt root q = true → nullAt root1 q = true
  flagTrue : flag = true → isNodeEmpty (sub root1 π) = true
  ne : NoEmpty root → NoEmptyExcept π root1 ∧ (flag = false → NoEmpty root1)
  top : isNull root1 = isNull root
  nullCase : nullAt root π = true → root1 = root ∧ flag = false
  keep : nullAt root π = false → nullAt root1 π = false

/-- The digit characters marked in a bitmap, in increasing order. -/
def alphabet (ss : Fin 12 → Bool) : List Nat :=
  ((List.finRange 12).filter (fun i => ss i)).map (fun i => i.val + 48)

/-- The strings `c :: w` with `c` in `A` and `w` in `W`. -/
def consAll : List Nat → List Str → List Str
  | [], _ => []
  | c :: rest, W => W.map (fun w => c :: w) ++ consAll rest W

/-- All strings of a given length over the characters of `A`. -/
def wordsOver (A : List Nat) : Nat → List Str
  | 0 => [[]]
  | k + 1 => consAll A (wordsOver A k)

/-- Whether some node on the path of `w` from `t`, `t` included, has a non-empty inverse
list. -/
def hasSource : PhoneForward → Str → Bool
  | t, [] => !(fwdFromOf t).isEmpty
  | t, c :: w => !(fwdFromOf t).isEmpty || hasSource (getChild t (charDigitToInt c)) w

/-! ## The array indices the operations compute from characters -/

/-- The indices of the expressions `tmp->children[digit]` in the loop of `phfwdAddHelper`,
one for each character of `num1`. -/
def phfwdAddHelperLoopSlots : Str → List Int
  | [] => []
  | c :: rest => charDigitToInt c :: phfwdAddHelperLoopSlots rest

/-- The indices of the expressions `pf->children[digit]` that a call of `phfwdRemoveRecFrom`
evaluates, in order; an index outside the array ends the list. -/
def phfwdRemoveRecFromSlots : PhoneForward → Str → Nat → Nat → List Int
  | null, _, _, _ => []
  | node cs _ _, num, currentDepth, length =>
    if currentDepth = length then []
    else
      let digit := charDigitToInt (num.getD currentDepth 0)
      if h : 0 ≤ digit ∧ digit < 12 then
        digit :: phfwdRemoveRecFromSlots (cs ⟨digit.toNat, by omega⟩) num (currentDepth + 1)
          length
      else [digit]

/-- The child indices computed from characters in a call of `addForward` on the node at
`pf`: those of its call of `phfwdRemoveRecFrom` along the old target. -/
def addForwardSlots (pfRoot : PhoneForward) (pf : Str) : List Int :=
  match fwdToOf (sub pfRoot pf) with
  | some old => phfwdRemoveRecFromSlots pfRoot old 0 (strlen old)
  | none => []

/-- The child indices computed from characters in a call of `phfwdAddHelper`. -/
def phfwdAddHelperSlots (pf : PhoneForward) (num1 : Str) (version : Int) : List Int :=
  let pf1 := phfwdAddHelperWalk pf num1
  phfwdAddHelperLoopSlots num1 ++ (if version = 1 then [] else addForwardSlots pf1 num1)

/-- The child indices computed from characters in a call of `phfwdAdd`. -/
def phfwdAddSlots (pf : PhoneForward) : Option Str → Option Str → List Int
  | some num1, some num2 =>
    if (!checkIfNumber (some num1) || !checkIfNumber (some num2)) = true then []
    else if strcmp num1 num2 = 0 then []
    else
      let r := phfwdAddHelper pf num1 num2 TO
      phfwdAddHelperSlots pf num1 TO ++
        (if (!r.2) = true then [] else phfwdAddHelperSlots r.1 num2 FROM)
  | _, _ => []

/-- The child indices of the `for` loop of `removeForwardsFromSubtree` over the slots `is`
of the node at `pf`: the counter `i`, then the indices of the recursive call; `none` when a
recursion bound was too small. -/
def removeForwardsLoopSlots (callSlots : PhoneForward → Str → Option (List Int))
    (call : PhoneForward → Str → Option (PhoneForward × Bool)) (pf : Str) :
    List Nat → PhoneForward → Option (List Int)
  | [], _ => some []
  | i :: rest, rootPf =>
    match callSlots rootPf (pf ++ [i + 48]), call rootPf (pf ++ [i + 48]) with
    | some s, some (root1, b) =>
      match removeForwardsLoopSlots callSlots call pf rest
          (if b = true then deleteChild root1 pf i else root1) with
      | some s2 => some ((i : Int) :: (s ++ s2))
      | none => none
    | _, _ => none

/-- The child indices of a call of `removeForwardsFromSubtree` on the node at `pf`: those of
`phfwdRemoveRecFrom` along the target of the node, then those of the loop. -/
def removeForwardsFromSubtreeSlots : Nat → PhoneForward → Str → Str → Option (List Int)
  | 0, rootPf, pf, _ =>
    match sub rootPf pf with
    | null => some []
    | node _ _ _ => none
  | fuel + 1, rootPf, pf, num =>
    match sub rootPf pf with
    | null => some []
    | node _ fwdTo _ =>
      let s1 := match fwdTo with
        | some t => phfwdRemoveRecFromSlots rootPf t 0 (strlen t)
        | none => []
      let root1 := match fwdTo with
        | some t => (phfwdRemoveRecFrom rootPf t num 0 (strlen t) PREFIX).1
        | none => rootPf
      match removeForwardsLoopSlots (fun r p => removeForwardsFromSubtreeSlots fuel r p num)
          (fun r p => removeForwardsFromSubtree fuel r p num) pf (List.range 12) root1 with
      | none => none
      | some s2 => some (s1 ++ s2)

/-- The child indices of a call of `phfwdRemoveRecTo` on the node at `pf`. -/
def phfwdRemoveRecToSlots :
    Nat → PhoneForward → Str → Str → Nat → Nat → Option (List Int)
  | 0, rootPf, pf, num, currentDepth, length =>
    match sub rootPf pf with
    | null => some []
    | node _ _ _ =>
      if currentDepth = length then removeForwardsFromSubtreeSlots 0 rootPf pf num else none
  | fuel + 1, rootPf, pf, num, currentDepth, length =>
    match sub rootPf pf with
    | null => some []
    | node _ _ _ =>
      if currentDepth = length then removeForwardsFromSubtreeSlots (fuel + 1) rootPf pf num
      else
        let c := num.getD currentDepth 0
        let digit := charDigitToInt c
        match phfwdRemoveRecToSlots fuel rootPf (pf ++ [c]) num (currentDepth + 1) length with
        | none => none
        | some s => some (digit :: s)

/-- The child indices of a call of `phfwdRemove`, with the recursion bound of `phfwdRemove`. -/
def phfwdRemoveSlots (pf : PhoneForward) (num : Option Str) : Option (List Int) :=
  if checkIfNumber num = true then
    match num with
    | some n => phfwdRemoveRecToSlots (height pf) pf [] n 0 (strlen n)
    | none => some []
  else some []

/-- The indices of the expressions `pf->children[digit]` in the loop of `phfwdGet`. -/
def phfwdGetLoopSlots : Str → PhoneForward → List Int
  | [], _ => []
  | c :: rest, pf =>
    let digit := charDigitToInt c
    digit :: match getChild pf digit with
      | null => []
      | node cs fwdTo fwdFrom => phfwdGetLoopSlots rest (node cs fwdTo fwdFrom)

/-- The child indices of a call of `phfwdGet`. -/
def phfwdGetSlots (pf : PhoneForward) (num : Option Str) : List Int :=
  if checkIfNumber num = false then []
  else
    match num with
    | none => []
    | some n => phfwdGetLoopSlots n pf

/-- The indices of the expressions `tmp->children[index]` in the loop of `phfwdReverse`. -/
def phfwdReverseLoopSlots : Str → PhoneForward → List Int
  | [], _ => []
  | c :: rest, tmp =>
    let index := charDigitToInt c
    index :: match getChild tmp index with
      | null => []
      | node cs fwdTo fwdFrom => phfwdReverseLoopSlots rest (node cs fwdTo fwdFrom)

/-- The child indices of a call of `phfwdReverse`. -/
def phfwdReverseSlots (pf : PhoneForward) (num : Option Str) : List Int :=
  if checkIfNumber num = false then []
  else
    match num with
    | none => []
    | some n => phfwdReverseLoopSlots n pf

/-- The indices of the expressions `simplifiedSet[charDigitToInt(set[i])]` in the loop of
`getSimplifiedSet`, one for each iteration that passes the test `isDigit(set[i])`. -/
def getSimplifiedSetLoopSlots : Str → Nat → (Fin 12 → Bool) → List Int
  | [], _, _ => []
  | c :: rest, numberOfUniqueDigits, simplifiedSet =>
    if numberOfUniqueDigits < NUMBER_OF_DIGITS then
      if h : isDigit c = true then
        let k : Fin 12 := ⟨(charDigitToInt c).toNat, by
          simp only [isDigit, Bool.and_eq_true, decide_eq_true_eq] at h
          unfold charDigitToInt; omega⟩
        if simplifiedSet k = false then
          charDigitToInt c ::
            getSimplifiedSetLoopSlots rest (numberOfUniqueDigits + 1)
              (Function.update simplifiedSet k true)
        else charDigitToInt c :: getSimplifiedSetLoopSlots rest numberOfUniqueDigits simplifiedSet
      else getSimplifiedSetLoopSlots rest numberOfUniqueDigits simplifiedSet
    else []

/-- The bitmap indices of a call of `getSimplifiedSet`. -/
def getSimplifiedSetSlots (set : Str) (simplifiedSet : Fin 12 → Bool) : List Int :=
  getSimplifiedSetLoopSlots set 0 simplifiedSet

/-- Every target stored in the base consists of digit characters. -/
def TargetsValid (pf : PhoneForward) : Prop :=
  ∀ q t, fwdToAt pf q = some t → ∀ c ∈ t, InRange c

/-- An index of one of the twelve slots of `children` or of the bitmap. -/
def InSlots (d : Int) : Prop := 0 ≤ d ∧ d < 12

/-! ## `phfwdAdd` when an allocation may fail -/

/-- One call of `malloc`: whether it succeeds, and the outcomes left for the later calls.
The list holds the outcomes of the successive calls; past its end every call succeeds. -/
def malloc : List Bool → Bool × List Bool
  | [] => (true, [])
  | b :: rest => (b, rest)

/-- The function `phnumNew` when `malloc` may fail: whether it returns an element, and the
outcomes left. It calls `malloc` for the element and, if that succeeds, for the string. -/
def phnumNewAlloc (m : List Bool) : Bool × List Bool :=
  match malloc m with
  | (false, m1) => (false, m1)
  | (true, m1) => malloc m1

/-- The function `addToFromList` when `malloc` may fail: the base, the returned flag and the
outcomes left. When `phnumNew` fails nothing is changed. -/
def addToFromListAlloc (rootPf : PhoneForward) (pf : Str) (num : Str) (m : List Bool) :
    PhoneForward × Bool × List Bool :=
  match phnumNewAlloc m with
  | (false, m1) => (rootPf, false, m1)
  | (true, m1) => (modifyAt rootPf pf (fun n => setFwdFrom (num :: fwdFromOf n) n), true, m1)

/-- The function `addForward` when `malloc` may fail. The old target is removed first; the
field `fwdTo` then receives the result of `malloc`, which is NULL when it fails. -/
def addForwardAlloc (pfRoot : PhoneForward) (pf : Str) (num1 num2 : Str) (m : List Bool) :
    PhoneForward × Bool × List Bool :=
  let root1 := match fwdToOf (sub pfRoot pf) with
    | some old => (phfwdRemoveRecFrom pfRoot old num1 0 (strlen old) NUMBER).1
    | none => pfRoot
  match malloc m with
  | (false, m1) => (modifyAt root1 pf (setFwdTo none), false, m1)
  | (true, m1) => (modifyAt root1 pf (setFwdTo (some num2)), true, m1)

/-- The `for` loop of `phfwdAddHelper` when `malloc` may fail: the base, whether the loop
came to its end, and the outcomes left. Each missing node costs the call of `malloc` in
`phfwdNew`; when it fails the loop returns at once and the nodes made so far stay. -/
def phfwdAddHelperWalkAlloc : PhoneForward → Str → List Bool → PhoneForward × Bool × List Bool
  | pf, [], m => (pf, true, m)
  | pf, c :: rest, m =>
    let digit := charDigitToInt c
    match getChild pf digit with
    | null =>
      match malloc m with
      | (false, m1) => (pf, false, m1)
      | (true, m1) =>
        let r := phfwdAddHelperWalkAlloc phfwdNew rest m1
        (setChild pf digit r.1, r.2.1, r.2.2)
    | node cs fwdTo fwdFrom =>
      let r := phfwdAddHelperWalkAlloc (node cs fwdTo fwdFrom) rest m
      (setChild pf digit r.1, r.2.1, r.2.2)

/-- The function `phfwdAddHelper` when `malloc` may fail. -/
def phfwdAddHelperAlloc (pf : PhoneForward) (num1 num2 : Str) (version : Int) (m : List Bool) :
    PhoneForward × Bool × List Bool :=
  let w := phfwdAddHelperWalkAlloc pf num1 m
  if w.2.1 = false then (w.1, false, w.2.2)
  else if version = 1 then addToFromListAlloc w.1 num1 num2 w.2.2
  else addForwardAlloc w.1 num1 num1 num2 w.2.2

/-- The function `phfwdAdd` when `malloc` may fail: the base it leaves and the returned
flag, for the outcomes `m` of its calls of `malloc`. -/
def phfwdAddAlloc (pf : PhoneForward) : Option Str → Option Str → List Bool →
    PhoneForward × Bool
  | some num1, some num2, m =>
    if (!checkIfNumber (some num1) || !checkIfNumber (some num2)) = true then (pf, false)
    else if strcmp num1 num2 = 0 then (pf, false)
    else
      let r := phfwdAddHelperAlloc pf num1 num2 TO m
      if (!r.2.1) = true then (r.1, false)
      else
        let r2 := phfwdAddHelperAlloc r.1 num2 num1 FROM r.2.2
        (r2.1, r2.2.1)
  | _, _, _ => (pf, false)

/-- Bases reachable from a new base by calls of `phfwdAdd` and `phfwdRemove`, when the
calls of `malloc` in `phfwdAdd` may fail. -/
inductive ReachableAlloc : PhoneForward → Prop
  | new : ReachableAlloc phfwdNew
  | add (pf : PhoneForward) (num1 num2 : Option Str) (m : List Bool) :
      ReachableAlloc pf → ReachableAlloc (phfwdAddAlloc pf num1 num2 m).1
  | remove (pf : PhoneForward) (num : Option Str) :
      ReachableAlloc pf → ReachableAlloc (phfwdRemove pf num)

/-! # Properties -/

/-! ## Facts about strings -/

theorem strcmp_self (a : Str) : strcmp a a = 0 := by
  induction a with
  | nil => rfl
  | cons x s ih => simp [strcmp, ih]

theorem strcmp_eq_zero_iff (a b : Str) : strcmp a b = 0 ↔ a = b := by
  induction a generalizing b with
  | nil => cases b <;> simp [strcmp]
  | cons x s ih =>
    cases b with
    | nil => simp [strcmp]
    | cons y t =>
      simp only [strcmp]
      by_cases h : x = y
      · simp [h, ih]
      · by_cases h2 : x < y <;> simp [h, h2]

theorem strcmp_lt_iff_lex (a b : Str) : strcmp a b < 0 ↔ List.Lex (· < ·) a b := by
  induction a generalizing b with
  | nil => cases b <;> simp [strcmp, List.Lex.nil]
  | cons x s ih =>
    cases b with
    | nil => simp [strcmp]
    | cons y t =>
      simp only [strcmp]
      by_cases h : x = y
      · subst h
        simp only [if_true, ih]
        constructor
        · intro hl; exact List.Lex.cons hl
        · intro hl
          cases hl with
          | cons hl => exact hl
          | rel hr => exact absurd hr (lt_irrefl _)
      · by_cases h2 : x < y
        · simp only [h, h2, if_true, if_false]
          constructor
          · intro _; exact List.Lex.rel h2
          · intro _; decide
        · simp only [h, h2, if_false]
          constructor
          · intro hl; exact absurd hl (by decide)
          · intro hl
            cases hl with
            | cons hl => exact absurd rfl h
            | rel hr => exact absurd hr h2

theorem strcmp_gt_iff (a b : Str) : strcmp a b > 0 ↔ strcmp b a < 0 := by
  induction a generalizing b with
  | nil => cases b <;> simp [strcmp]
  | cons x s ih =>
    cases b with
    | nil => simp [strcmp]
    | cons y t =>
      simp only [strcmp]
      by_cases h : x = y
      · subst h; simp [ih]
      · have h' : ¬ y = x := fun e => h e.symm
        by_cases h2 : x < y
        · have h3 : ¬ y < x := by omega
          simp [h, h', h2, h3]
        · have h3 : y < x := by omega
          simp [h, h', h2, h3]

theorem strcmp_lt_trans {a b c : Str} (h1 : strcmp a b < 0) (h2 : strcmp b c < 0) :
    strcmp a c < 0 := by
  induction a generalizing b c with
  | nil =>
    cases c with
    | nil => cases b <;> simp [strcmp] at h1 h2
    | cons z u => simp [strcmp]
  | cons x s ih =>
    cases b with
    | nil => simp [strcmp] at h1
    | cons y t =>
      cases c with
      | nil => simp [strcmp] at h2
      | cons z u =>
        simp only [strcmp] at h1 h2 ⊢
        by_cases hxy : x = y
        · subst hxy
          simp only [if_true] at h1
          by_cases hxz : x = z
          · subst hxz
            simp only [if_true] at h2 ⊢
            exact ih h1 h2
          · simp only [hxz, if_false] at h2 ⊢
            exact h2
        · simp only [hxy, if_false] at h1
          have hlt : x < y := by
            by_cases hh : x < y
            · exact hh
            · simp [hh] at h1
          by_cases hyz : y = z
          · subst hyz
            simp [hxy, hlt]
          · simp only [hyz, if_false] at h2
            have hlt2 : y < z := by
              by_cases hh : y < z
              · exact hh
              · simp [hh] at h2
            have hxz : x ≠ z := by omega
            have hlt3 : x < z := by omega
            simp [hxz, hlt3]

theorem strcmp_lt_irrefl (a : Str) : ¬ strcmp a a < 0 := by
  rw [strcmp_self]; decide

theorem strcmp_trichotomy (a b : Str) : strcmp a b < 0 ∨ a = b ∨ strcmp b a < 0 := by
  rcases lt_trichotomy (strcmp a b) 0 with h | h | h
  · exact Or.inl h
  · exact Or.inr (Or.inl ((strcmp_eq_zero_iff a b).1 h))
  · exact Or.inr (Or.inr ((strcmp_gt_iff a b).1 h))

theorem strncmp_eq_zero_iff (x p : Str) : strncmp x p p.length = 0 ↔ p <+: x := by
  induction p generalizing x with
  | nil => simp [strncmp]
  | cons b t ih =>
    cases x with
    | nil => simp [strncmp]
    | cons a s =>
      simp only [List.length_cons, strncmp]
      by_cases h : a = b
      · subst h
        simp only [if_true, ih]
        constructor
        · rintro ⟨r, hr⟩; exact ⟨r, by simp [hr]⟩
        · rintro ⟨r, hr⟩
          simp only [List.cons_append, List.cons.injEq, true_and] at hr
          exact ⟨r, hr⟩
      · simp only [h, if_false]
        constructor
        · intro hh; by_cases h2 : a < b <;> simp [h2] at hh
        · rintro ⟨r, hr⟩
          simp only [List.cons_append, List.cons.injEq] at hr
          exact absurd hr.1.symm h

theorem checkIfNumberLoop_iff (s : Str) :
    checkIfNumberLoop s = true ↔ ∀ c ∈ s, 48 ≤ c ∧ c ≤ 59 := by
  induction s with
  | nil => simp [checkIfNumberLoop]
  | cons c r ih =>
    simp only [checkIfNumberLoop, List.mem_cons, forall_eq_or_imp]
    by_cases h : isDigit c = true
    · have h' := h
      simp only [isDigit, Bool.and_eq_true, decide_eq_true_eq] at h'
      simp [h, ih, h']
    · have h' := h
      simp only [isDigit, Bool.and_eq_true, decide_eq_true_eq] at h'
      simp only [Bool.not_eq_true] at h
      simp only [h, beq_self_eq_true, if_true, Bool.false_eq_true, false_iff, not_and]
      intro hh; exact absurd hh h'

theorem checkIfNumber_iff (n : Str) : checkIfNumber (some n) = true ↔ ValidNumber n := by
  cases n with
  | nil => simp [checkIfNumber, ValidNumber]
  | cons c r =>
    simp only [checkIfNumber, checkIfNumberLoop_iff, ValidNumber]
    simp

theorem checkIfNumber_none : checkIfNumber none = false := rfl

/-! ## Child slots -/

theorem getChild_null (d : Int) : getChild null d = null := rfl

theorem setChild_null (d : Int) (x : PhoneForward) : setChild null d x = null := rfl

theorem getChild_of_not_inRange (pf : PhoneForward) (c : Nat) (h : ¬ InRange c) :
    getChild pf (charDigitToInt c) = null := by
  cases pf with
  | null => rfl
  | node cs t f =>
    unfold getChild
    have : ¬ (0 ≤ charDigitToInt c ∧ charDigitToInt c < 12) := by
      unfold InRange at h; unfold charDigitToInt; omega
    simp [this]

theorem setChild_of_not_inRange (pf : PhoneForward) (c : Nat) (x : PhoneForward)
    (h : ¬ InRange c) : setChild pf (charDigitToInt c) x = pf := by
  cases pf with
  | null => rfl
  | node cs t f =>
    unfold setChild
    have : ¬ (0 ≤ charDigitToInt c ∧ charDigitToInt c < 12) := by
      unfold InRange at h; unfold charDigitToInt; omega
    simp [this]

theorem getChild_setChild_same (cs : Fin 12 → PhoneForward) (t : Option Str) (f : List Str)
    (c : Nat) (x : PhoneForward) (h : InRange c) :
    getChild (setChild (node cs t f) (charDigitToInt c) x) (charDigitToInt c) = x := by
  have hr : 0 ≤ charDigitToInt c ∧ charDigitToInt c < 12 := by
    unfold InRange at h; unfold charDigitToInt; omega
  simp [getChild, setChild, hr]

theorem getChild_setChild_ne (pf : PhoneForward) (c e : Nat) (x : PhoneForward) (h : e ≠ c) :
    getChild (setChild pf (charDigitToInt c) x) (charDigitToInt e) =
      getChild pf (charDigitToInt e) := by
  cases pf with
  | null => rfl
  | node cs t f =>
    unfold setChild
    by_cases hr : 0 ≤ charDigitToInt c ∧ charDigitToInt c < 12
    · simp only [hr, and_self, dite_true]
      unfold getChild
      by_cases hr2 : 0 ≤ charDigitToInt e ∧ charDigitToInt e < 12
      · simp only [hr2, and_self, dite_true]
        rw [Function.update_noteq]
        intro heq
        have := congrArg Fin.val heq
        simp only at this
        unfold charDigitToInt at *
        omega
      · simp [hr2]
    · simp [hr]

theorem getChild_setChild (pf : PhoneForward) (c e : Nat) (x : PhoneForward) :
    getChild (setChild pf (charDigitToInt c) x) (charDigitToInt e) =
      if e = c ∧ InRange c ∧ isNull pf = false then x else getChild pf (charDigitToInt e) := by
  by_cases h : e = c
  · subst h
    by_cases hr : InRange e
    · cases pf with
      | null => simp [setChild_null, getChild_null, isNull]
      | node cs t f => simp [getChild_setChild_same _ _ _ _ _ hr, hr, isNull]
    · simp [hr, setChild_of_not_inRange _ _ _ hr]
  · simp [h, getChild_setChild_ne _ _ _ _ h]

theorem fwdToOf_setChild (pf : PhoneForward) (d : Int) (x : PhoneForward) :
    fwdToOf (setChild pf d x) = fwdToOf pf := by
  cases pf with
  | null => rfl
  | node cs t f => simp only [setChild]; split <;> rfl

theorem fwdFromOf_setChild (pf : PhoneForward) (d : Int) (x : PhoneForward) :
    fwdFromOf (setChild pf d x) = fwdFromOf pf := by
  cases pf with
  | null => rfl
  | node cs t f => simp only [setChild]; split <;> rfl

theorem isNull_setChild (pf : PhoneForward) (d : Int) (x : PhoneForward) :
    isNull (setChild pf d x) = isNull pf := by
  cases pf with
  | null => rfl
  | node cs t f => simp only [setChild]; split <;> rfl

theorem isNull_eq_true_iff (pf : PhoneForward) : isNull pf = true ↔ pf = null := by
  cases pf <;> simp [isNull]

theorem isNull_eq_false_iff (pf : PhoneForward) :
    isNull pf = false ↔ ∃ cs t f, pf = node cs t f := by
  cases pf <;> simp [isNull]

theorem getChild_node_inRange (cs : Fin 12 → PhoneForward) (t : Option Str) (f : List Str)
    (i : Fin 12) : getChild (node cs t f) (charDigitToInt (i.val + 48)) = cs i := by
  have hr : 0 ≤ charDigitToInt (i.val + 48) ∧ charDigitToInt (i.val + 48) < 12 := by
    unfold charDigitToInt; omega
  unfold getChild
  simp only [hr, and_self, dite_true]
  congr 1
  apply Fin.ext
  simp [charDigitToInt]

/-- Emptiness of a node in terms of its fields and of the nullness of its child slots. -/
theorem isNodeEmpty_iff (pf : PhoneForward) :
    isNodeEmpty pf = true ↔ isNull pf = false ∧ fwdToOf pf = none ∧ fwdFromOf pf = [] ∧
      ∀ c, isNull (getChild pf (charDigitToInt c)) = true := by
  cases pf with
  | null => simp [isNodeEmpty, isNull]
  | node cs t f =>
    simp only [isNodeEmpty, isNull, fwdToOf, fwdFromOf, true_and]
    constructor
    · intro h
      by_cases ht : t.isSome = true
      · simp [ht] at h
      · simp only [ht, Bool.false_eq_true, if_false] at h
        by_cases hf : (!f.isEmpty) = true
        · simp [hf] at h
        · simp only [hf, Bool.false_eq_true, if_false, List.all_eq_true] at h
          refine ⟨by simpa using ht, by simpa using hf, ?_⟩
          intro c
          by_cases hr : InRange c
          · have := h ⟨c - 48, by unfold InRange at hr; omega⟩ (List.mem_finRange _)
            have e := getChild_node_inRange cs t f ⟨c - 48, by unfold InRange at hr; omega⟩
            have hc : c - 48 + 48 = c := by unfold InRange at hr; omega
            simp only [hc] at e
            rw [e]; exact this
          · rw [getChild_of_not_inRange _ _ hr]
    · rintro ⟨ht, hf, hc⟩
      subst ht; subst hf
      simp only [Option.isSome_none, Bool.false_eq_true, if_false, List.isEmpty_nil,
        Bool.not_true, List.all_eq_true]
      intro i _
      have := hc (i.val + 48)
      rw [getChild_node_inRange] at this
      exact this

/-! ## Paths -/

@[simp] theorem sub_null (p : Str) : sub null p = null := by
  induction p with
  | nil => rfl
  | cons c r ih => simp [sub, getChild_null, ih]

theorem sub_append (pf : PhoneForward) (a b : Str) : sub pf (a ++ b) = sub (sub pf a) b := by
  induction a generalizing pf with
  | nil => rfl
  | cons c r ih => simp [sub, ih]

theorem sub_snoc (pf : PhoneForward) (a : Str) (c : Nat) :
    sub pf (a ++ [c]) = getChild (sub pf a) (charDigitToInt c) := by
  rw [sub_append]; rfl

/-- Only digits occur on the path to a live node. -/
theorem inRange_of_sub_node (pf : PhoneForward) (p : Str) (h : isNull (sub pf p) = false) :
    ∀ c ∈ p, InRange c := by
  induction p generalizing pf with
  | nil => simp
  | cons c r ih =>
    intro x hx
    simp only [sub] at h
    rcases List.mem_cons.1 hx with rfl | hx
    · by_contra hr
      rw [getChild_of_not_inRange _ _ hr, sub_null] at h
      simp [isNull] at h
    · exact ih _ h x hx

/-- A live node has a live node at each beginning of its path. -/
theorem isNull_sub_of_append (pf : PhoneForward) (a b : Str)
    (h : isNull (sub pf (a ++ b)) = false) : isNull (sub pf a) = false := by
  rw [sub_append] at h
  cases hs : sub pf a with
  | null => rw [hs, sub_null] at h; simp [isNull] at h
  | node cs t f => rfl

/-! ## Forward lookup -/

theorem fwdToOf_sub_cons (pf : PhoneForward) (c : Nat) (u : Str) :
    fwdToOf (sub pf (c :: u)) = fwdToOf (sub (getChild pf (charDigitToInt c)) u) := rfl

/-- The loop of `phfwdGet` keeps its accumulator when no node below carries a target. -/
theorem phfwdGetLoop_none (rest : Str) (i : Nat) (pf : PhoneForward) (bm : Option Str)
    (bl : Nat) (h : ∀ u, u ≠ [] → u <+: rest → fwdToOf (sub pf u) = none) :
    phfwdGetLoop rest i pf bm bl = (bm, bl) := by
  induction rest generalizing i pf bm bl with
  | nil => rfl
  | cons c r ih =>
    simp only [phfwdGetLoop]
    cases hc : getChild pf (charDigitToInt c) with
    | null => rfl
    | node cs t f =>
      have h1 : fwdToOf (sub pf [c]) = none :=
        h [c] (by simp) ⟨r, by simp⟩
      simp only [sub, hc, fwdToOf] at h1
      subst h1
      simp only
      apply ih
      intro u hu hpre
      have := h (c :: u) (by simp) (by
        obtain ⟨s, hs⟩ := hpre
        exact ⟨s, by simp [hs]⟩)
      rw [fwdToOf_sub_cons, hc] at this
      exact this

/-- The loop of `phfwdGet` returns the target of the deepest node with a target. -/
theorem phfwdGetLoop_some (rest : Str) (i : Nat) (pf : PhoneForward) (bm : Option Str)
    (bl : Nat) (u s t : Str) (hu : u ≠ []) (hrest : rest = u ++ s)
    (ht : fwdToOf (sub pf u) = some t)
    (hmax : ∀ v, v ≠ [] → v <+: rest → fwdToOf (sub pf v) ≠ none → v.length ≤ u.length) :
    phfwdGetLoop rest i pf bm bl = (some t, i + u.length) := by
  induction rest generalizing i pf bm bl u with
  | nil =>
    cases u with
    | nil => exact absurd rfl hu
    | cons c u1 => simp at hrest
  | cons c r ih =>
    cases u with
    | nil => exact absurd rfl hu
    | cons c1 u1 =>
      simp only [List.cons_append, List.cons.injEq] at hrest
      obtain ⟨hcc, hr⟩ := hrest
      subst hcc
      simp only [phfwdGetLoop]
      rw [fwdToOf_sub_cons] at ht
      cases hc : getChild pf (charDigitToInt c) with
      | null => rw [hc, sub_null] at ht; simp [fwdToOf] at ht
      | node cs t0 f =>
        rw [hc] at ht
        by_cases hu1 : u1 = []
        · subst hu1
          simp only [sub, fwdToOf] at ht
          subst ht
          simp only [List.length_singleton]
          apply phfwdGetLoop_none
          intro v hv hpre
          by_contra hne
          have := hmax (c :: v) (by simp) (by
            obtain ⟨w, hw⟩ := hpre
            exact ⟨w, by simp [hw]⟩) (by rw [fwdToOf_sub_cons, hc]; exact hne)
          simp only [List.length_cons, List.length_nil] at this
          cases v with
          | nil => exact hv rfl
          | cons x v => simp at this
        · have key : ∀ bm bl, phfwdGetLoop r (i + 1) (node cs t0 f) bm bl =
              (some t, i + 1 + u1.length) := by
            intro bm bl
            apply ih (i + 1) (node cs t0 f) bm bl u1 hu1 hr ht
            intro v hv hpre hne
            have := hmax (c :: v) (by simp) (by
              obtain ⟨w, hw⟩ := hpre
              exact ⟨w, by simp [hw]⟩) (by rw [fwdToOf_sub_cons, hc]; exact hne)
            simpa using this
          have e : i + (c :: u1).length = i + 1 + u1.length := by
            simp only [List.length_cons]; omega
          rw [e]
          cases t0 with
          | none => exact key _ _
          | some t1 => exact key _ _

/-- C1. `phfwdGet` rewrites by the longest active source that is a beginning of the number:
for every base and every valid number `n`, if no active rule has a source that is a beginning
of `n` the result is `[n]`; otherwise, with `a` the longest such source, `b` its target and
`n = a ++ s`, the result is `[b ++ s]`. -/
theorem phfwdGet_longest_match (pf : PhoneForward) (n : Str) (hn : ValidNumber n) :
    ((∀ a b, a <+: n → ¬ ActiveRule pf a b) → phfwdGet pf (some n) = [n]) ∧
    (∀ a b s, ActiveRule pf a b → n = a ++ s →
      (∀ a1 b1, ActiveRule pf a1 b1 → a1 <+: n → a1.length ≤ a.length) →
      phfwdGet pf (some n) = [b ++ s]) := by
  have hv : checkIfNumber (some n) = true := (checkIfNumber_iff n).2 hn
  constructor
  · intro h
    have := phfwdGetLoop_none n 0 pf none 0 (by
      intro u hu hpre
      cases hf : fwdToOf (sub pf u) with
      | none => rfl
      | some b => exact absurd ⟨hu, hf⟩ (h u b hpre))
    simp [phfwdGet, hv, this]
  · intro a b s hab hns hmax
    have := phfwdGetLoop_some n 0 pf none 0 a s b hab.1 hns hab.2 (by
      intro v hv hpre hne
      cases hf : fwdToOf (sub pf v) with
      | none => exact absurd hf hne
      | some b1 => exact hmax v b1 ⟨hv, hf⟩ hpre)
    subst hns
    simp [phfwdGet, hv, this]

/-- C1 at work: with the rules `123 → 45` and `1234 → 9`, `phfwdGet "12345"` is `"95"`. -/
theorem phfwdGet_longest_match_witness :
    ValidNumber (ofString "12345") ∧
    phfwdGet (phfwdAdd (phfwdAdd phfwdNew (some (ofString "123")) (some (ofString "45"))).1
      (some (ofString "1234")) (some (ofString "9"))).1 (some (ofString "12345")) =
      [ofString "9" ++ ofString "5"] := by
  refine ⟨by decide, (phfwdGet_longest_match _ (ofString "12345") (by decide)).2
    (ofString "1234") (ofString "9") (ofString "5") ⟨by decide, by decide⟩ (by decide) ?_⟩
  intro a1 b1 h1 hpre
  have hle := List.IsPrefix.length_le hpre
  by_contra hlt
  have h5 : a1.length = (ofString "12345").length := by
    have e4 : (ofString "1234").length = 4 := by decide
    have e5 : (ofString "12345").length = 5 := by decide
    omega
  have ha : a1 = ofString "12345" := List.IsPrefix.eq_of_length hpre h5
  have h2 := h1.2
  rw [ha] at h2
  have hnone : fwdToAt (phfwdAdd (phfwdAdd phfwdNew (some (ofString "123"))
      (some (ofString "45"))).1 (some (ofString "1234")) (some (ofString "9"))).1
      (ofString "12345") = none := by decide
  rw [hnone] at h2
  cases h2

/-! ## Sorted insertion and reverse lookup -/

theorem mem_addToListLexRest (e : Str) (l : List Str) (m : Str) :
    m ∈ addToListLexRest e l ↔ m = e ∨ m ∈ l := by
  induction l with
  | nil => simp [addToListLexRest]
  | cons x rest ih =>
    simp only [addToListLexRest]
    by_cases h1 : strcmp x e < 0
    · simp only [h1, if_true, List.mem_cons, ih]; tauto
    · simp only [h1, if_false]
      by_cases h2 : strcmp x e = 0
      · have := (strcmp_eq_zero_iff x e).1 h2
        subst this
        simp only [h2, if_true, List.mem_cons]; tauto
      · simp only [h2, if_false, List.mem_cons]

theorem mem_addToListLex (l : List Str) (e m : Str) :
    m ∈ addToListLex l e ↔ m = e ∨ m ∈ l := by
  cases l with
  | nil => simp [addToListLex]
  | cons x rest =>
    simp only [addToListLex]
    by_cases h1 : strcmp x e > 0
    · simp only [h1, if_true, List.mem_cons]
    · simp only [h1, if_false]
      by_cases h2 : strcmp x e = 0
      · have := (strcmp_eq_zero_iff x e).1 h2
        subst this
        simp only [h2, if_true, List.mem_cons]; tauto
      · have h3 : strcmp x e < 0 := by omega
        simp only [h2, if_false, h3, if_true, List.mem_cons, mem_addToListLexRest]; tauto

theorem pairwise_addToListLexRest (e : Str) (l : List Str)
    (h : l.Pairwise (fun x y => strcmp x y < 0)) :
    (addToListLexRest e l).Pairwise (fun x y => strcmp x y < 0) := by
  induction l with
  | nil => simp [addToListLexRest]
  | cons x rest ih =>
    rw [List.pairwise_cons] at h
    simp only [addToListLexRest]
    by_cases h1 : strcmp x e < 0
    · simp only [h1, if_true]
      rw [List.pairwise_cons]
      refine ⟨?_, ih h.2⟩
      intro m hm
      rcases (mem_addToListLexRest e rest m).1 hm with rfl | hm
      · exact h1
      · exact h.1 m hm
    · simp only [h1, if_false]
      by_cases h2 : strcmp x e = 0
      · simp only [h2, if_true]
        exact List.pairwise_cons.2 h
      · simp only [h2, if_false]
        have h3 : strcmp e x < 0 := (strcmp_gt_iff x e).1 (by omega)
        rw [List.pairwise_cons]
        refine ⟨?_, List.pairwise_cons.2 h⟩
        intro m hm
        rcases List.mem_cons.1 hm with rfl | hm
        · exact h3
        · exact strcmp_lt_trans h3 (h.1 m hm)

theorem pairwise_addToListLex (l : List Str) (e : Str)
    (h : l.Pairwise (fun x y => strcmp x y < 0)) :
    (addToListLex l e).Pairwise (fun x y => strcmp x y < 0) := by
  cases l with
  | nil => simp [addToListLex]
  | cons x rest =>
    have h' := List.pairwise_cons.1 h
    simp only [addToListLex]
    by_cases h1 : strcmp x e > 0
    · simp only [h1, if_true]
      have h3 : strcmp e x < 0 := (strcmp_gt_iff x e).1 h1
      rw [List.pairwise_cons]
      refine ⟨?_, h⟩
      intro m hm
      rcases List.mem_cons.1 hm with rfl | hm
      · exact h3
      · exact strcmp_lt_trans h3 (h'.1 m hm)
    · simp only [h1, if_false]
      by_cases h2 : strcmp x e = 0
      · simp only [h2, if_true]; exact h
      · have h3 : strcmp x e < 0 := by omega
        simp only [h2, if_false, h3, if_true]
        rw [List.pairwise_cons]
        refine ⟨?_, pairwise_addToListLexRest e rest h'.2⟩
        intro m hm
        rcases (mem_addToListLexRest e rest m).1 hm with rfl | hm
        · exact h3
        · exact h'.1 m hm

theorem mem_phfwdReverseNode (s : Str) (nl list : List Str) (m : Str) :
    m ∈ phfwdReverseNode s nl list ↔ m ∈ list ∨ ∃ x ∈ nl, m = x ++ s := by
  induction nl generalizing list with
  | nil => simp [phfwdReverseNode]
  | cons x rest ih =>
    simp only [phfwdReverseNode, ih, mem_addToListLex, List.mem_cons, exists_eq_or_imp]
    tauto

theorem pairwise_phfwdReverseNode (s : Str) (nl list : List Str)
    (h : list.Pairwise (fun x y => strcmp x y < 0)) :
    (phfwdReverseNode s nl list).Pairwise (fun x y => strcmp x y < 0) := by
  induction nl generalizing list with
  | nil => exact h
  | cons x rest ih => exact ih _ (pairwise_addToListLex _ _ h)

theorem mem_phfwdReverseLoop (rest : Str) (tmp : PhoneForward) (list : List Str) (m : Str) :
    m ∈ phfwdReverseLoop rest tmp list ↔
      m ∈ list ∨ ∃ u s x, u ≠ [] ∧ rest = u ++ s ∧ x ∈ fwdFromOf (sub tmp u) ∧ m = x ++ s := by
  induction rest generalizing tmp list with
  | nil =>
    simp only [phfwdReverseLoop]
    constructor
    · intro h; exact Or.inl h
    · rintro (h | ⟨u, s, x, hu, hr, -, -⟩)
      · exact h
      · cases u with
        | nil => exact absurd rfl hu
        | cons c u => simp at hr
  | cons c r ih =>
    simp only [phfwdReverseLoop]
    cases hc : getChild tmp (charDigitToInt c) with
    | null =>
      simp only
      constructor
      · intro h; exact Or.inl h
      · rintro (h | ⟨u, s, x, hu, hr, hx, -⟩)
        · exact h
        · cases u with
          | nil => exact absurd rfl hu
          | cons c1 u =>
            simp only [List.cons_append, List.cons.injEq] at hr
            obtain ⟨rfl, -⟩ := hr
            simp [sub, hc, fwdFromOf] at hx
    | node cs t f =>
      simp only [ih, mem_phfwdReverseNode]
      constructor
      · rintro ((h | ⟨x, hx, hm⟩) | ⟨u, s, x, hu, hr, hx, hm⟩)
        · exact Or.inl h
        · exact Or.inr ⟨[c], r, x, by simp, by simp, by simpa [sub, hc, fwdFromOf] using hx, hm⟩
        · exact Or.inr ⟨c :: u, s, x, by simp, by simp [hr],
            by simpa [sub, hc] using hx, hm⟩
      · rintro (h | ⟨u, s, x, hu, hr, hx, hm⟩)
        · exact Or.inl (Or.inl h)
        · cases u with
          | nil => exact absurd rfl hu
          | cons c1 u =>
            simp only [List.cons_append, List.cons.injEq] at hr
            obtain ⟨rfl, hr⟩ := hr
            simp only [sub, hc] at hx
            by_cases hu1 : u = []
            · subst hu1
              simp only [List.nil_append] at hr
              subst hr
              exact Or.inl (Or.inr ⟨x, by simpa [sub, fwdFromOf] using hx, hm⟩)
            · exact Or.inr ⟨u, s, x, hu1, hr, hx, hm⟩

theorem pairwise_phfwdReverseLoop (rest : Str) (tmp : PhoneForward) (list : List Str)
    (h : list.Pairwise (fun x y => strcmp x y < 0)) :
    (phfwdReverseLoop rest tmp list).Pairwise (fun x y => strcmp x y < 0) := by
  induction rest generalizing tmp list with
  | nil => exact h
  | cons c r ih =>
    simp only [phfwdReverseLoop]
    cases hc : getChild tmp (charDigitToInt c) with
    | null => exact h
    | node cs t f => exact ih _ _ (pairwise_phfwdReverseNode _ _ _ h)

theorem phfwdReverse_valid (pf : PhoneForward) (n : Str) (hn : ValidNumber n) :
    phfwdReverse pf (some n) = phfwdReverseLoop n pf [n] := by
  have hv : checkIfNumber (some n) = true := (checkIfNumber_iff n).2 hn
  simp [phfwdReverse, hv]

/-- C3. For every base and every valid number `n`, the list `phfwdReverse n` contains `n`,
has no repeated element and is strictly increasing in the lexicographic order of the byte
values (in which `'0' < ... < '9' < ':' < ';'` as 48 < ... < 59, and a proper beginning of a
string precedes the string). -/
theorem phfwdReverse_sorted (pf : PhoneForward) (n : Str) (hn : ValidNumber n) :
    n ∈ phfwdReverse pf (some n) ∧ (phfwdReverse pf (some n)).Nodup ∧
    (phfwdReverse pf (some n)).Pairwise (List.Lex (fun a b : Nat => a < b)) := by
  rw [phfwdReverse_valid pf n hn]
  have hp : (phfwdReverseLoop n pf [n]).Pairwise (fun x y => strcmp x y < 0) :=
    pairwise_phfwdReverseLoop n pf [n] (List.pairwise_singleton _ _)
  refine ⟨(mem_phfwdReverseLoop n pf [n] n).2 (Or.inl (List.mem_singleton_self n)), ?_, ?_⟩
  · exact hp.imp (fun {a b} hab heq => by
      subst heq; exact strcmp_lt_irrefl a hab)
  · exact hp.imp (fun {a b} hab => (strcmp_lt_iff_lex a b).1 hab)

/-- C3 at work on the base with the rules `123 → 45` and `678 → 123`, for the number `45`. -/
theorem phfwdReverse_sorted_witness :
    ValidNumber (ofString "45") ∧
    (phfwdReverse (phfwdAdd (phfwdAdd phfwdNew (some (ofString "123"))
      (some (ofString "45"))).1 (some (ofString "678")) (some (ofString "123"))).1
      (some (ofString "45"))).Pairwise (List.Lex (fun a b : Nat => a < b)) :=
  ⟨by decide, (phfwdReverse_sorted _ (ofString "45") (by decide)).2.2⟩

/-! ## Return value of `phfwdAdd` -/

theorem isNumber_iff (s : Option Str) : IsNumber s ↔ checkIfNumber s = true := by
  cases s with
  | none => simp [IsNumber, checkIfNumber]
  | some n => simp [IsNumber, checkIfNumber_iff]

theorem phfwdAddHelper_snd (pf : PhoneForward) (a b : Str) (v : Int) :
    (phfwdAddHelper pf a b v).2 = true := by
  unfold phfwdAddHelper
  by_cases hv : v = 1
  · simp [hv, addToFromList]
  · simp [hv, addForward]

/-- What `phfwdAdd` does on two valid, different numbers. -/
theorem phfwdAdd_valid (pf : PhoneForward) (a b : Str) (ha : ValidNumber a) (hb : ValidNumber b)
    (hab : a ≠ b) :
    phfwdAdd pf (some a) (some b) =
      phfwdAddHelper (phfwdAddHelper pf a b TO).1 b a FROM := by
  have h1 := (checkIfNumber_iff a).2 ha
  have h2 := (checkIfNumber_iff b).2 hb
  have h3 : ¬ strcmp a b = 0 := fun h => hab ((strcmp_eq_zero_iff a b).1 h)
  simp [phfwdAdd, h1, h2, h3, phfwdAddHelper_snd]

/-- C5. With `malloc` never failing, for every base and all strings `src`, `dst`:
`phfwdAdd` returns `false` if and only if `src` is not a valid number, or `dst` is not a
valid number, or `src` equals `dst`; in every other case it returns `true`. -/
theorem phfwdAdd_false_iff (pf : PhoneForward) (src dst : Option Str) :
    ((phfwdAdd pf src dst).2 = false ↔ (¬ IsNumber src ∨ ¬ IsNumber dst ∨ src = dst)) ∧
    ((phfwdAdd pf src dst).2 = true ↔ (IsNumber src ∧ IsNumber dst ∧ src ≠ dst)) := by
  have key : (phfwdAdd pf src dst).2 = true ↔ (IsNumber src ∧ IsNumber dst ∧ src ≠ dst) := by
    cases src with
    | none => simp [phfwdAdd, IsNumber]
    | some a =>
      cases dst with
      | none => simp [phfwdAdd, IsNumber]
      | some b =>
        by_cases ha : ValidNumber a
        · by_cases hb : ValidNumber b
          · by_cases hab : a = b
            · subst hab
              have h1 := (checkIfNumber_iff a).2 ha
              simp [phfwdAdd, h1, strcmp_self]
            · rw [phfwdAdd_valid pf a b ha hb hab, phfwdAddHelper_snd]
              simp only [true_iff]
              exact ⟨⟨a, rfl, ha⟩, ⟨b, rfl, hb⟩, by simpa using hab⟩
          · have h2 : checkIfNumber (some b) = false := by
              rw [← Bool.not_eq_true, checkIfNumber_iff]; exact hb
            have : ¬ IsNumber (some b) := by rw [isNumber_iff, h2]; simp
            simp [phfwdAdd, h2, this]
        · have h1 : checkIfNumber (some a) = false := by
            rw [← Bool.not_eq_true, checkIfNumber_iff]; exact ha
          have : ¬ IsNumber (some a) := by rw [isNumber_iff, h1]; simp
          simp [phfwdAdd, h1, this]
  refine ⟨?_, key⟩
  rw [← Bool.not_eq_true, key]
  tauto

/-! ## The two deletions on inverse lists -/

theorem deletePrefixFromListRest_eq (p : Str) (l : List Str) :
    deletePrefixFromListRest p p.length l = l.filter (fun x => decide (¬ p <+: x)) := by
  induction l with
  | nil => rfl
  | cons x rest ih =>
    simp only [deletePrefixFromListRest, ih, List.filter_cons, ne_eq, strncmp_eq_zero_iff]
    by_cases h : p <+: x <;> simp [h]

theorem deletePrefixFromListHead_eq (p : Str) (l : List Str) :
    (match deletePrefixFromListHead p p.length l with
      | [] => []
      | x :: rest => x :: deletePrefixFromListRest p p.length rest) =
      l.filter (fun x => decide (¬ p <+: x)) := by
  induction l with
  | nil => rfl
  | cons x rest ih =>
    simp only [deletePrefixFromListHead, strncmp_eq_zero_iff, List.filter_cons]
    by_cases h : p <+: x
    · simp only [h, if_true, not_true_eq_false, decide_False, Bool.false_eq_true, if_false]
      exact ih
    · simp only [h, if_false, not_false_eq_true, decide_True, if_true,
        deletePrefixFromListRest_eq]

/-- The function `deletePrefixFromList` keeps exactly the strings that do not begin with `p`,
in their order. -/
theorem deletePrefixFromList_eq (l : List Str) (p : Str) :
    deletePrefixFromList l p = l.filter (fun x => decide (¬ p <+: x)) := by
  cases l with
  | nil => rfl
  | cons x rest =>
    simp only [deletePrefixFromList, strlen]
    exact deletePrefixFromListHead_eq p (x :: rest)

theorem deleteNumFromListRest_eq (x : Str) (l : List Str) :
    deleteNumFromListRest x l = l.erase x := by
  induction l with
  | nil => rfl
  | cons y rest ih =>
    simp only [deleteNumFromListRest, ne_eq, strcmp_eq_zero_iff, List.erase_cons]
    by_cases h : y = x
    · subst h; simp
    · simp [h, ih]

/-- The function `deleteNumFromList` removes the first occurrence of the string. -/
theorem deleteNumFromList_eq (l : List Str) (x : Str) :
    deleteNumFromList l x = l.erase x := by
  cases l with
  | nil => rfl
  | cons y rest =>
    simp only [deleteNumFromList, strcmp_eq_zero_iff, List.erase_cons, deleteNumFromListRest_eq]
    by_cases h : y = x
    · subst h; simp
    · simp [h]

/-! ## Writing through a pointer -/

theorem shallow_refl (a : PhoneForward) : Shallow a a := ⟨rfl, rfl, rfl⟩

theorem shallow_setChild (pf : PhoneForward) (d : Int) (x : PhoneForward) :
    Shallow (setChild pf d x) pf :=
  ⟨isNull_setChild pf d x, fwdToOf_setChild pf d x, fwdFromOf_setChild pf d x⟩

/-- Reading at or below the place of a write. -/
theorem sub_modifyAt_append (pf : PhoneForward) (p r : Str) (f : PhoneForward → PhoneForward)
    (hf : f null = null) : sub (modifyAt pf p f) (p ++ r) = sub (f (sub pf p)) r := by
  induction p generalizing pf with
  | nil => rfl
  | cons c p ih =>
    simp only [modifyAt, List.cons_append, sub]
    rw [getChild_setChild]
    by_cases h : InRange c ∧ isNull pf = false
    · simp only [h, and_self, true_and, if_true]
      exact ih _
    · have hn : getChild pf (charDigitToInt c) = null := by
        by_cases hr : InRange c
        · have : isNull pf = true := by
            cases hp : isNull pf with
            | true => rfl
            | false => exact absurd ⟨hr, hp⟩ h
          rw [(isNull_eq_true_iff pf).1 this]; rfl
        · exact getChild_of_not_inRange _ _ hr
      simp only [true_and, h, if_false, hn, sub_null, hf]

theorem sub_modifyAt_self (pf : PhoneForward) (p : Str) (f : PhoneForward → PhoneForward)
    (hf : f null = null) : sub (modifyAt pf p f) p = f (sub pf p) := by
  have := sub_modifyAt_append pf p [] f hf
  simpa using this

/-- A write does not change the fields of a node that is not at or below its place. -/
theorem shallow_modifyAt_of_not_le (pf : PhoneForward) (p q : Str)
    (f : PhoneForward → PhoneForward) (h : ¬ p <+: q) :
    Shallow (sub (modifyAt pf p f) q) (sub pf q) := by
  induction p generalizing pf q with
  | nil => exact absurd List.nil_prefix h
  | cons c p ih =>
    cases q with
    | nil => exact shallow_setChild _ _ _
    | cons e q =>
      simp only [modifyAt, sub]
      rw [getChild_setChild]
      by_cases hec : e = c
      · subst hec
        have h' : ¬ p <+: q := by
          intro hp
          apply h
          obtain ⟨r, hr⟩ := hp
          exact ⟨r, by simp [hr]⟩
        by_cases h2 : InRange e ∧ isNull pf = false
        · simp only [h2, and_self, if_true]
          exact ih _ _ h'
        · simp only [true_and, h2, if_false]
          exact shallow_refl _
      · simp only [hec, false_and, if_false]
        exact shallow_refl _

/-- A write that only touches the fields of a node leaves every other node as it was. -/
theorem sub_modifyAt_field (pf : PhoneForward) (p q : Str) (f : PhoneForward → PhoneForward)
    (hf : f null = null) (hc : ∀ n d, getChild (f n) d = getChild n d) (h : q ≠ p) :
    Shallow (sub (modifyAt pf p f) q) (sub pf q) := by
  by_cases hp : p <+: q
  · obtain ⟨r, rfl⟩ := hp
    cases r with
    | nil => simp at h
    | cons e r =>
      rw [sub_modifyAt_append _ _ _ _ hf, sub_append]
      simp only [sub, hc]
      exact shallow_refl _
  · exact shallow_modifyAt_of_not_le pf p q f hp

theorem getChild_setFwdTo (v : Option Str) (n : PhoneForward) (d : Int) :
    getChild (setFwdTo v n) d = getChild n d := by
  cases n <;> rfl

theorem getChild_setFwdFrom (l : List Str) (n : PhoneForward) (d : Int) :
    getChild (setFwdFrom l n) d = getChild n d := by
  cases n <;> rfl

theorem fwdToAt_setFwdTo (pf : PhoneForward) (p q : Str) (v : Option Str) :
    fwdToAt (modifyAt pf p (setFwdTo v)) q =
      if q = p ∧ nullAt pf p = false then v else fwdToAt pf q := by
  unfold fwdToAt nullAt
  by_cases h : q = p
  · subst h
    rw [sub_modifyAt_self _ _ _ rfl]
    cases sub pf q <;> simp [setFwdTo, fwdToOf, isNull]
  · simp only [h, false_and, if_false]
    exact (sub_modifyAt_field pf p q _ rfl (getChild_setFwdTo v) h).2.1

theorem fwdFromAt_setFwdTo (pf : PhoneForward) (p q : Str) (v : Option Str) :
    fwdFromAt (modifyAt pf p (setFwdTo v)) q = fwdFromAt pf q := by
  unfold fwdFromAt
  by_cases h : q = p
  · subst h
    rw [sub_modifyAt_self _ _ _ rfl]
    cases sub pf q <;> rfl
  · exact (sub_modifyAt_field pf p q _ rfl (getChild_setFwdTo v) h).2.2

theorem nullAt_setFwdTo (pf : PhoneForward) (p q : Str) (v : Option Str) :
    nullAt (modifyAt pf p (setFwdTo v)) q = nullAt pf q := by
  unfold nullAt
  by_cases h : q = p
  · subst h
    rw [sub_modifyAt_self _ _ _ rfl]
    cases sub pf q <;> rfl
  · exact (sub_modifyAt_field pf p q _ rfl (getChild_setFwdTo v) h).1

theorem fwdToAt_addToFromList (pf : PhoneForward) (p q x : Str) :
    fwdToAt (addToFromList pf p x).1 q = fwdToAt pf q := by
  unfold fwdToAt addToFromList
  by_cases h : q = p
  · subst h
    rw [sub_modifyAt_self _ _ _ rfl]
    cases sub pf q <;> rfl
  · exact (sub_modifyAt_field pf p q _ rfl
      (fun n d => getChild_setFwdFrom _ n d) h).2.1

theorem fwdFromAt_addToFromList (pf : PhoneForward) (p q x : Str) :
    fwdFromAt (addToFromList pf p x).1 q =
      if q = p ∧ nullAt pf p = false then x :: fwdFromAt pf p else fwdFromAt pf q := by
  unfold fwdFromAt addToFromList nullAt
  by_cases h : q = p
  · subst h
    rw [sub_modifyAt_self _ _ _ rfl]
    cases sub pf q <;> simp [setFwdFrom, fwdFromOf, isNull]
  · simp only [h, false_and, if_false]
    exact (sub_modifyAt_field pf p q _ rfl
      (fun n d => getChild_setFwdFrom _ n d) h).2.2

theorem nullAt_addToFromList (pf : PhoneForward) (p q x : Str) :
    nullAt (addToFromList pf p x).1 q = nullAt pf q := by
  unfold nullAt addToFromList
  by_cases h : q = p
  · subst h
    rw [sub_modifyAt_self _ _ _ rfl]
    cases sub pf q <;> rfl
  · exact (sub_modifyAt_field pf p q _ rfl
      (fun n d => getChild_setFwdFrom _ n d) h).1

/-- Reading after `deleteChild`: the unlinked subtree is gone, all other nodes keep their
fields. -/
theorem sub_deleteChild (pf : PhoneForward) (p q : Str) (c : Nat) :
    (p ++ [c] <+: q → sub (deleteChild pf p (charDigitToInt c)) q = null) ∧
    (¬ p ++ [c] <+: q → Shallow (sub (deleteChild pf p (charDigitToInt c)) q) (sub pf q)) := by
  unfold deleteChild
  constructor
  · rintro ⟨r, rfl⟩
    rw [List.append_assoc, sub_modifyAt_append _ _ _ _ rfl]
    simp only [List.singleton_append, sub]
    rw [getChild_setChild]
    by_cases h : InRange c ∧ isNull (sub pf p) = false
    · simp [h]
    · have hn : getChild (sub pf p) (charDigitToInt c) = null := by
        by_cases hr : InRange c
        · have : isNull (sub pf p) = true := by
            cases hp : isNull (sub pf p) with
            | true => rfl
            | false => exact absurd ⟨hr, hp⟩ h
          rw [(isNull_eq_true_iff _).1 this]; rfl
        · exact getChild_of_not_inRange _ _ hr
      simp [h, hn]
  · intro h
    by_cases hp : p <+: q
    · obtain ⟨r, rfl⟩ := hp
      rw [sub_modifyAt_append _ _ _ _ rfl, sub_append]
      cases r with
      | nil => exact shallow_setChild _ _ _
      | cons e r =>
        have hec : e ≠ c := by
          rintro rfl
          exact h ⟨r, by simp⟩
        simp only [sub]
        rw [getChild_setChild_ne _ _ _ _ hec]
        exact shallow_refl _
    · exact shallow_modifyAt_of_not_le pf p q _ hp

/-! ## Walking down and creating nodes -/

theorem sub_phfwdNew (q : Str) (h : q ≠ []) : sub phfwdNew q = null := by
  cases q with
  | nil => exact absurd rfl h
  | cons c q =>
    simp only [sub, phfwdNew, getChild]
    split <;> simp

theorem fields_sub_phfwdNew (q : Str) :
    fwdToOf (sub phfwdNew q) = none ∧ fwdFromOf (sub phfwdNew q) = [] := by
  cases q with
  | nil => exact ⟨rfl, rfl⟩
  | cons c q => rw [sub_phfwdNew _ (by simp)]; exact ⟨rfl, rfl⟩

theorem phfwdAddHelperWalk_cons (pf : PhoneForward) (c : Nat) (rest : Str) :
    phfwdAddHelperWalk pf (c :: rest) =
      setChild pf (charDigitToInt c) (phfwdAddHelperWalk (walkChild pf c) rest) := rfl

theorem isNull_walkChild (pf : PhoneForward) (c : Nat) : isNull (walkChild pf c) = false := by
  unfold walkChild
  cases h : getChild pf (charDigitToInt c) <;> rfl

theorem fields_sub_walkChild (pf : PhoneForward) (c : Nat) (q : Str) :
    fwdToOf (sub (walkChild pf c) q) = fwdToOf (sub pf (c :: q)) ∧
    fwdFromOf (sub (walkChild pf c) q) = fwdFromOf (sub pf (c :: q)) := by
  unfold walkChild
  simp only [sub]
  cases h : getChild pf (charDigitToInt c) with
  | null =>
    simp only [sub_null]
    exact fields_sub_phfwdNew q
  | node cs t f => exact ⟨rfl, rfl⟩

theorem isNull_phfwdAddHelperWalk (pf : PhoneForward) (p : Str) :
    isNull (phfwdAddHelperWalk pf p) = isNull pf := by
  cases p with
  | nil => rfl
  | cons c rest => rw [phfwdAddHelperWalk_cons, isNull_setChild]

/-- The walk changes no forward target and no inverse list. -/
theorem fields_phfwdAddHelperWalk (pf : PhoneForward) (p q : Str) :
    fwdToOf (sub (phfwdAddHelperWalk pf p) q) = fwdToOf (sub pf q) ∧
    fwdFromOf (sub (phfwdAddHelperWalk pf p) q) = fwdFromOf (sub pf q) := by
  induction p generalizing pf q with
  | nil => exact ⟨rfl, rfl⟩
  | cons c rest ih =>
    rw [phfwdAddHelperWalk_cons]
    cases q with
    | nil => exact ⟨fwdToOf_setChild _ _ _, fwdFromOf_setChild _ _ _⟩
    | cons e q =>
      simp only [sub]
      rw [getChild_setChild]
      by_cases h : e = c ∧ InRange c ∧ isNull pf = false
      · simp only [h, and_self, if_true]
        obtain ⟨rfl, -, -⟩ := h
        have h1 := ih (walkChild pf e) q
        have h2 := fields_sub_walkChild pf e q
        simp only [sub] at h2
        exact ⟨h1.1.trans h2.1, h1.2.trans h2.2⟩
      · rw [if_neg h]
        exact ⟨rfl, rfl⟩

theorem fwdToAt_phfwdAddHelperWalk (pf : PhoneForward) (p q : Str) :
    fwdToAt (phfwdAddHelperWalk pf p) q = fwdToAt pf q :=
  (fields_phfwdAddHelperWalk pf p q).1

theorem fwdFromAt_phfwdAddHelperWalk (pf : PhoneForward) (p q : Str) :
    fwdFromAt (phfwdAddHelperWalk pf p) q = fwdFromAt pf q :=
  (fields_phfwdAddHelperWalk pf p q).2

/-- The walk removes no node. -/
theorem nullAt_phfwdAddHelperWalk_of_node (pf : PhoneForward) (p q : Str)
    (h : nullAt pf q = false) : nullAt (phfwdAddHelperWalk pf p) q = false := by
  unfold nullAt at *
  induction p generalizing pf q with
  | nil => exact h
  | cons c rest ih =>
    rw [phfwdAddHelperWalk_cons]
    cases q with
    | nil => rw [sub, isNull_setChild]; exact h
    | cons e q =>
      simp only [sub] at h ⊢
      rw [getChild_setChild]
      by_cases h2 : e = c ∧ InRange c ∧ isNull pf = false
      · simp only [h2, and_self, if_true]
        obtain ⟨rfl, -, -⟩ := h2
        apply ih
        unfold walkChild
        cases hc : getChild pf (charDigitToInt e) with
        | null => rw [hc, sub_null] at h; simp [isNull] at h
        | node cs t f => rw [hc] at h; exact h
      · simp only [h2, if_false]
        exact h

/-- After the walk along a string of digits the node at its end exists. -/
theorem nullAt_phfwdAddHelperWalk_self (pf : PhoneForward) (p : Str)
    (hp : ∀ c ∈ p, InRange c) (h : isNull pf = false) :
    nullAt (phfwdAddHelperWalk pf p) p = false := by
  unfold nullAt
  induction p generalizing pf with
  | nil => exact h
  | cons c rest ih =>
    rw [phfwdAddHelperWalk_cons]
    simp only [sub]
    rw [getChild_setChild]
    have hc : InRange c := hp c (List.mem_cons_self _ _)
    simp only [hc, h, and_self, if_true]
    exact ih _ (fun x hx => hp x (List.mem_cons_of_mem _ hx)) (isNull_walkChild pf c)

theorem isNodeEmpty_null : isNodeEmpty null = false := rfl

theorem noEmpty_walkChild (pf : PhoneForward) (c : Nat)
    (h : ∀ q, q ≠ [] → isNodeEmpty (sub pf q) = false) :
    ∀ q, q ≠ [] → isNodeEmpty (sub (walkChild pf c) q) = false := by
  intro q hq
  unfold walkChild
  cases hc : getChild pf (charDigitToInt c) with
  | null => simp only; rw [sub_phfwdNew q hq]; rfl
  | node cs t f =>
    have := h (c :: q) (by simp)
    simp only [sub, hc] at this
    exact this

/-- After the walk, only the node at the end of the walk can be empty. -/
theorem noEmptyExcept_phfwdAddHelperWalk (pf : PhoneForward) (p : Str)
    (hp : ∀ c ∈ p, InRange c) (hn : isNull pf = false) (h : NoEmpty pf) :
    NoEmptyExcept p (phfwdAddHelperWalk pf p) := by
  unfold NoEmpty NoEmptyExcept at *
  induction p generalizing pf with
  | nil => intro q hq _; exact h q hq
  | cons c rest ih =>
    intro q hq hqp
    rw [phfwdAddHelperWalk_cons]
    have hc : InRange c := hp c (List.mem_cons_self _ _)
    have hrest : ∀ x ∈ rest, InRange x := fun x hx => hp x (List.mem_cons_of_mem _ hx)
    cases q with
    | nil => exact absurd rfl hq
    | cons e q =>
      simp only [sub]
      rw [getChild_setChild]
      by_cases hec : e = c
      · subst hec
        simp only [hc, hn, and_self, if_true]
        by_cases hq' : q = []
        · subst hq'
          simp only [sub]
          cases rest with
          | nil => exact absurd rfl hqp
          | cons c2 rest2 =>
            rw [phfwdAddHelperWalk_cons]
            rw [← Bool.not_eq_true, isNodeEmpty_iff]
            rintro ⟨-, -, -, hall⟩
            have := hall c2
            rw [getChild_setChild] at this
            have hc2 : InRange c2 := hrest c2 (List.mem_cons_self _ _)
            simp only [hc2, isNull_walkChild, and_self, if_true] at this
            rw [isNull_phfwdAddHelperWalk, isNull_walkChild] at this
            exact absurd this (by simp)
        · apply ih (walkChild pf e) hrest (isNull_walkChild pf e) (noEmpty_walkChild pf e h) q hq'
          intro hqr
          apply hqp
          rw [hqr]
      · simp only [hec, false_and, if_false]
        have := h (e :: q) (by simp)
        simp only [sub] at this
        exact this

/-! ## Deleting from the inverse list of a target -/

theorem delFrom_nil (v : Int) (x : Str) : delFrom v x [] = [] := by
  simp only [delFrom, deletePrefixFromList_eq, deleteNumFromList_eq]
  by_cases h1 : v = PREFIX <;> by_cases h2 : v = NUMBER <;> simp [h1, h2]

theorem delFrom_NUMBER (x : Str) (l : List Str) : delFrom NUMBER x l = l.erase x := by
  simp [delFrom, NUMBER, PREFIX, deleteNumFromList_eq]

theorem delFrom_PREFIX (x : Str) (l : List Str) :
    delFrom PREFIX x l = l.filter (fun y => decide (¬ x <+: y)) := by
  simp [delFrom, NUMBER, PREFIX, deletePrefixFromList_eq]

theorem phfwdRemoveRecFrom_null (num x : Str) (d len : Nat) (v : Int) :
    phfwdRemoveRecFrom null num x d len v = (null, false) := rfl

theorem phfwdRemoveRecFrom_end (cs : Fin 12 → PhoneForward) (t : Option Str) (f : List Str)
    (num x : Str) (len : Nat) (v : Int) :
    phfwdRemoveRecFrom (node cs t f) num x len len v =
      (node cs t (delFrom v x f), isNodeEmpty (node cs t (delFrom v x f))) := by
  simp [phfwdRemoveRecFrom, delFrom]

/-- One step of `phfwdRemoveRecFrom` in terms of reads and writes of a child slot. -/
theorem phfwdRemoveRecFrom_step (cs : Fin 12 → PhoneForward) (t : Option Str) (f : List Str)
    (num x : Str) (d len : Nat) (v : Int) (h : d ≠ len) :
    phfwdRemoveRecFrom (node cs t f) num x d len v =
      (setChild (node cs t f) (charDigitToInt (num.getD d 0))
        (if (phfwdRemoveRecFrom (getChild (node cs t f) (charDigitToInt (num.getD d 0)))
            num x (d + 1) len v).2 = true then null
         else (phfwdRemoveRecFrom (getChild (node cs t f) (charDigitToInt (num.getD d 0)))
            num x (d + 1) len v).1),
       isNodeEmpty (setChild (node cs t f) (charDigitToInt (num.getD d 0))
        (if (phfwdRemoveRecFrom (getChild (node cs t f) (charDigitToInt (num.getD d 0)))
            num x (d + 1) len v).2 = true then null
         else (phfwdRemoveRecFrom (getChild (node cs t f) (charDigitToInt (num.getD d 0)))
            num x (d + 1) len v).1))) := by
  rw [phfwdRemoveRecFrom]
  simp only [h, if_false]
  by_cases hr : 0 ≤ charDigitToInt (num.getD d 0) ∧ charDigitToInt (num.getD d 0) < 12
  · simp only [hr, and_self, dite_true, getChild, setChild]
  · simp only [hr, dite_false, getChild, setChild, phfwdRemoveRecFrom_null]

theorem phfwdRemoveRecFrom_snd (pf : PhoneForward) (num x : Str) (d len : Nat) (v : Int) :
    (phfwdRemoveRecFrom pf num x d len v).2 = isNodeEmpty (phfwdRemoveRecFrom pf num x d len v).1 := by
  cases pf with
  | null => rfl
  | node cs t f =>
    by_cases h : d = len
    · subst h; rw [phfwdRemoveRecFrom_end]
    · rw [phfwdRemoveRecFrom_step _ _ _ _ _ _ _ _ h]

theorem isNull_phfwdRemoveRecFrom (pf : PhoneForward) (num x : Str) (d len : Nat) (v : Int) :
    isNull (phfwdRemoveRecFrom pf num x d len v).1 = isNull pf := by
  cases pf with
  | null => rfl
  | node cs t f =>
    by_cases h : d = len
    · subst h; rw [phfwdRemoveRecFrom_end]; rfl
    · rw [phfwdRemoveRecFrom_step _ _ _ _ _ _ _ _ h, isNull_setChild]

/-- Below an empty node there is nothing. -/
theorem sub_of_isNodeEmpty (n : PhoneForward) (h : isNodeEmpty n = true) (q : Str)
    (hq : q ≠ []) : sub n q = null := by
  cases q with
  | nil => exact absurd rfl hq
  | cons c q =>
    have := ((isNodeEmpty_iff n).1 h).2.2.2 c
    rw [isNull_eq_true_iff] at this
    simp [sub, this]

theorem fields_of_isNodeEmpty (n : PhoneForward) (h : isNodeEmpty n = true) (q : Str) :
    fwdToOf (sub n q) = none ∧ fwdFromOf (sub n q) = [] := by
  by_cases hq : q = []
  · subst hq
    have := (isNodeEmpty_iff n).1 h
    exact ⟨this.2.1, this.2.2.1⟩
  · rw [sub_of_isNodeEmpty n h q hq]; exact ⟨rfl, rfl⟩

/-- Effect of `phfwdRemoveRecFrom` started at depth `d` of `num`: forward targets are kept,
the inverse list of the node reached by the rest of `num` is pruned, no node appears, and
no empty node is left below the top. -/
theorem phfwdRemoveRecFrom_spec (num x : Str) (v : Int) (k : Nat) :
    ∀ (pf : PhoneForward) (d : Nat), d + k = num.length →
      (∀ q, fwdToOf (sub (phfwdRemoveRecFrom pf num x d num.length v).1 q) = fwdToOf (sub pf q)) ∧
      (∀ q, fwdFromOf (sub (phfwdRemoveRecFrom pf num x d num.length v).1 q) =
        if q = num.drop d then delFrom v x (fwdFromOf (sub pf q)) else fwdFromOf (sub pf q)) ∧
      (∀ q, isNull (sub pf q) = true →
        isNull (sub (phfwdRemoveRecFrom pf num x d num.length v).1 q) = true) ∧
      ((∀ q, q ≠ [] → isNodeEmpty (sub pf q) = false) →
        ∀ q, q ≠ [] → isNodeEmpty (sub (phfwdRemoveRecFrom pf num x d num.length v).1 q) = false) := by
  induction k with
  | zero =>
    intro pf d hd
    have hd' : d = num.length := by omega
    subst hd'
    have hdrop : List.drop num.length num = [] := List.drop_length num
    cases pf with
    | null =>
      rw [phfwdRemoveRecFrom_null]
      refine ⟨fun q => rfl, fun q => ?_, fun q h => h, fun h => h⟩
      simp [sub_null, fwdFromOf, delFrom_nil]
    | node cs t f =>
      rw [phfwdRemoveRecFrom_end, hdrop]
      refine ⟨?_, ?_, ?_, ?_⟩
      · intro q
        cases q <;> rfl
      · intro q
        cases q with
        | nil => simp [sub, fwdFromOf]
        | cons c q => simp [sub, getChild]
      · intro q h
        cases q with
        | nil => simp [sub, isNull] at h
        | cons c q => exact h
      · intro h q hq
        cases q with
        | nil => exact absurd rfl hq
        | cons c q => exact h (c :: q) hq
  | succ k ih =>
    intro pf d hd
    have hlt : d < num.length := by omega
    have hne : d ≠ num.length := by omega
    have hdrop : num.drop d = num.getD d 0 :: num.drop (d + 1) := by
      rw [List.drop_eq_getElem_cons hlt]
      congr 1
      simp [List.getD_eq_getElem?_getD, List.getElem?_eq_getElem hlt]
    cases pf with
    | null =>
      rw [phfwdRemoveRecFrom_null]
      refine ⟨fun q => rfl, fun q => ?_, fun q h => h, fun h => h⟩
      simp [sub_null, fwdFromOf, delFrom_nil]
    | node cs t f =>
      rw [phfwdRemoveRecFrom_step _ _ _ _ _ _ _ _ hne, hdrop]
      generalize hcdef : num.getD d 0 = c
      generalize hchild : getChild (node cs t f) (charDigitToInt c) = child
      obtain ⟨ih1, ih2, ih3, ih4⟩ := ih child (d + 1) (by omega)
      have hsnd := phfwdRemoveRecFrom_snd child num x (d + 1) num.length v
      generalize hr : phfwdRemoveRecFrom child num x (d + 1) num.length v = r at *
      have hX : ∀ q, fwdToOf (sub (if r.2 = true then null else r.1) q) = fwdToOf (sub r.1 q) ∧
          fwdFromOf (sub (if r.2 = true then null else r.1) q) = fwdFromOf (sub r.1 q) := by
        intro q
        by_cases h2 : r.2 = true
        · simp only [h2, if_true, sub_null]
          have := fields_of_isNodeEmpty r.1 (hsnd ▸ h2) q
          exact ⟨this.1.symm, this.2.symm⟩
        · simp only [h2, if_false]
          exact ⟨rfl, rfl⟩
      have hnullchild : ¬ (InRange c ∧ isNull (node cs t f) = false) → child = null := by
        intro h
        rw [← hchild]
        by_cases hrg : InRange c
        · exact absurd ⟨hrg, rfl⟩ h
        · exact getChild_of_not_inRange _ _ hrg
      dsimp only
      refine ⟨?_, ?_, ?_, ?_⟩
      · intro q
        cases q with
        | nil => exact fwdToOf_setChild _ _ _
        | cons e q =>
          simp only [sub]
          rw [getChild_setChild]
          by_cases hec : e = c
          · subst hec
            by_cases h2 : InRange e ∧ isNull (node cs t f) = false
            · simp only [h2, and_self, if_true]
              rw [(hX q).1, ih1 q, hchild]
            · simp only [true_and, h2, if_false]
          · simp only [hec, false_and, if_false]
      · intro q
        cases q with
        | nil => simp only [sub, fwdFromOf_setChild]; simp
        | cons e q =>
          simp only [sub]
          rw [getChild_setChild]
          by_cases hec : e = c
          · subst hec
            simp only [List.cons.injEq, true_and]
            by_cases h2 : InRange e ∧ isNull (node cs t f) = false
            · simp only [h2, and_self, if_true]
              rw [(hX q).2, ih2 q, hchild]
            · simp only [h2, if_false]
              rw [hchild, hnullchild h2]
              simp [sub_null, fwdFromOf, delFrom_nil]
          · simp only [hec, false_and, if_false, List.cons.injEq]
      · intro q h
        cases q with
        | nil => simp [sub, isNull] at h
        | cons e q =>
          simp only [sub] at h ⊢
          rw [getChild_setChild]
          by_cases hec : e = c
          · subst hec
            by_cases h2 : InRange e ∧ isNull (node cs t f) = false
            · simp only [h2, and_self, if_true]
              by_cases h3 : r.2 = true
              · simp [h3, sub_null, isNull]
              · simp only [h3, if_false]
                rw [hchild] at h
                exact ih3 q h
            · simp only [true_and, h2, if_false]
              exact h
          · simp only [hec, false_and, if_false]
            exact h
      · intro h q hq
        cases q with
        | nil => exact absurd rfl hq
        | cons e q =>
          simp only [sub]
          rw [getChild_setChild]
          by_cases hec : e = c
          · subst hec
            by_cases h2 : InRange e ∧ isNull (node cs t f) = false
            · simp only [h2, and_self, if_true]
              by_cases h3 : r.2 = true
              · simp [h3, sub_null, isNodeEmpty]
              · simp only [h3, if_false]
                by_cases hq' : q = []
                · subst hq'
                  show isNodeEmpty r.1 = false
                  rw [← hsnd]
                  simpa using h3
                · apply ih4 _ q hq'
                  intro q2 hq2
                  have := h (e :: q2) (by simp)
                  simp only [sub, hchild] at this
                  exact this
            · simp only [true_and, h2, if_false]
              have := h (e :: q) (by simp)
              simp only [sub] at this
              exact this
          · simp only [hec, false_and, if_false]
            have := h (e :: q) (by simp)
            simp only [sub] at this
            exact this

/-! ## Effect of `phfwdAdd` -/

/-- Emptiness of a node is determined by its fields and by which child slots are NULL. -/
theorem isNodeEmpty_congr (t1 t2 : PhoneForward) (q : Str) (hs : Shallow (sub t1 q) (sub t2 q))
    (hc : ∀ c, isNull (sub t1 (q ++ [c])) = isNull (sub t2 (q ++ [c]))) :
    isNodeEmpty (sub t1 q) = isNodeEmpty (sub t2 q) := by
  have key : ∀ a b : PhoneForward, Shallow a b →
      (∀ c, isNull (getChild a (charDigitToInt c)) = isNull (getChild b (charDigitToInt c))) →
      isNodeEmpty a = true → isNodeEmpty b = true := by
    intro a b hs hc h
    rw [isNodeEmpty_iff] at h ⊢
    obtain ⟨h1, h2, h3, h4⟩ := h
    exact ⟨hs.1 ▸ h1, hs.2.1 ▸ h2, hs.2.2 ▸ h3, fun c => (hc c) ▸ h4 c⟩
  have hc' : ∀ c, isNull (getChild (sub t1 q) (charDigitToInt c)) =
      isNull (getChild (sub t2 q) (charDigitToInt c)) := by
    intro c
    have := hc c
    rw [sub_snoc, sub_snoc] at this
    exact this
  cases h1 : isNodeEmpty (sub t1 q) with
  | true => exact (key _ _ hs hc' h1).symm
  | false =>
    cases h2 : isNodeEmpty (sub t2 q) with
    | false => rfl
    | true =>
      have := key _ _ ⟨hs.1.symm, hs.2.1.symm, hs.2.2.symm⟩ (fun c => (hc' c).symm) h2
      rw [h1] at this
      exact absurd this (by simp)

theorem isNodeEmpty_of_fwdTo (n : PhoneForward) (b : Str) (h : fwdToOf n = some b) :
    isNodeEmpty n = false := by
  rw [← Bool.not_eq_true, isNodeEmpty_iff]
  rintro ⟨-, h2, -⟩
  rw [h] at h2
  cases h2

theorem isNodeEmpty_of_fwdFrom (n : PhoneForward) (h : fwdFromOf n ≠ []) :
    isNodeEmpty n = false := by
  rw [← Bool.not_eq_true, isNodeEmpty_iff]
  rintro ⟨-, -, h2, -⟩
  exact h h2

theorem nullAt_of_fwdToAt (pf : PhoneForward) (a b : Str) (h : fwdToAt pf a = some b) :
    nullAt pf a = false := by
  unfold fwdToAt at h
  unfold nullAt
  cases hs : sub pf a with
  | null => rw [hs] at h; cases h
  | node cs t f => rfl

theorem nullAt_of_mem_fwdFromAt (pf : PhoneForward) (a b : Str) (h : a ∈ fwdFromAt pf b) :
    nullAt pf b = false := by
  unfold fwdFromAt at h
  unfold nullAt
  cases hs : sub pf b with
  | null => rw [hs] at h; simp [fwdFromOf] at h
  | node cs t f => rfl

/-- Setting a target at a node leaves no empty node when only that node could be empty. -/
theorem noEmpty_setFwdTo (t : PhoneForward) (a b : Str) (h : NoEmptyExcept a t) :
    NoEmpty (modifyAt t a (setFwdTo (some b))) := by
  intro q hq
  by_cases hqa : q = a
  · subst hqa
    rw [sub_modifyAt_self _ _ _ rfl]
    cases hs : sub t q with
    | null => rfl
    | node cs t0 f => exact isNodeEmpty_of_fwdTo _ b rfl
  · rw [isNodeEmpty_congr _ t q (sub_modifyAt_field t a q _ rfl (getChild_setFwdTo _) hqa)
      (fun c => nullAt_setFwdTo t a (q ++ [c]) _)]
    exact h q hq hqa

/-- Adding to the inverse list of a node leaves no empty node when only that node could be
empty. -/
theorem noEmpty_addToFromList (t : PhoneForward) (b x : Str) (h : NoEmptyExcept b t) :
    NoEmpty (addToFromList t b x).1 := by
  intro q hq
  by_cases hqb : q = b
  · subst hqb
    unfold addToFromList
    rw [sub_modifyAt_self _ _ _ rfl]
    cases hs : sub t q with
    | null => rfl
    | node cs t0 f => exact isNodeEmpty_of_fwdFrom _ (by simp [setFwdFrom, fwdFromOf])
  · have hsh : Shallow (sub (addToFromList t b x).1 q) (sub t q) :=
      sub_modifyAt_field t b q _ rfl (fun n d => getChild_setFwdFrom _ n d) hqb
    rw [isNodeEmpty_congr _ t q hsh (fun c => nullAt_addToFromList t b (q ++ [c]) x)]
    exact h q hq hqb

theorem noEmpty_except {t : PhoneForward} (h : NoEmpty t) (p : Str) : NoEmptyExcept p t :=
  fun q hq _ => h q hq

/-- Effect of `addForward` on the node at `a`, which exists. -/
theorem addForward_spec (t1 : PhoneForward) (a b : Str) :
    (∀ q, fwdToAt (addForward t1 a a b).1 q =
      if q = a ∧ nullAt t1 a = false then some b else fwdToAt t1 q) ∧
    (∀ q, fwdFromAt (addForward t1 a a b).1 q =
      if fwdToAt t1 a = some q then (fwdFromAt t1 q).erase a else fwdFromAt t1 q) ∧
    isNull (addForward t1 a a b).1 = isNull t1 ∧
    (NoEmptyExcept a t1 → a ≠ [] → NoEmpty (addForward t1 a a b).1) := by
  unfold addForward
  cases hold : fwdToOf (sub t1 a) with
  | none =>
    simp only
    refine ⟨fun q => fwdToAt_setFwdTo t1 a q _, ?_, ?_, ?_⟩
    · intro q
      rw [fwdFromAt_setFwdTo]
      have : fwdToAt t1 a = none := hold
      simp [this]
    · exact nullAt_setFwdTo t1 a [] _
    · intro h _; exact noEmpty_setFwdTo t1 a b h
  | some c =>
    simp only
    obtain ⟨s1, s2, s3, s4⟩ := phfwdRemoveRecFrom_spec c a NUMBER c.length t1 0 (by simp)
    simp only [strlen]
    generalize (phfwdRemoveRecFrom t1 c a 0 c.length NUMBER) = r at *
    have hnode : nullAt t1 a = false := nullAt_of_fwdToAt t1 a c hold
    refine ⟨?_, ?_, ?_, ?_⟩
    · intro q
      rw [fwdToAt_setFwdTo]
      have hn2 : nullAt r.1 a = false := nullAt_of_fwdToAt r.1 a c ((s1 a).trans hold)
      simp only [hn2, hnode, and_true]
      by_cases hq : q = a
      · simp [hq]
      · simp only [hq, if_false]; exact s1 q
    · intro q
      rw [fwdFromAt_setFwdTo]
      have h2 := s2 q
      simp only [List.drop_zero, delFrom_NUMBER] at h2
      have ht : fwdToAt t1 a = some c := hold
      unfold fwdFromAt
      rw [h2, ht]
      by_cases hq : q = c
      · simp [hq]
      · have : ¬ c = q := fun e => hq e.symm
        simp [hq, this]
    · have := nullAt_setFwdTo r.1 a [] (some b)
      unfold nullAt at this
      simp only [sub] at this
      rw [this]
      have h0 := isNull_phfwdRemoveRecFrom t1 c a 0 c.length NUMBER
      cases ht : isNull t1 with
      | true =>
        have := s3 [] (by simpa [sub] using ht)
        simpa [sub] using this
      | false =>
        cases hr : isNull r.1 with
        | false => rfl
        | true =>
          have h5 := (s1 a).trans hold
          rw [(isNull_eq_true_iff _).1 hr, sub_null] at h5
          cases h5
    · intro h ha
      apply noEmpty_setFwdTo
      apply noEmpty_except
      apply s4
      intro q hq
      by_cases hqa : q = a
      · subst hqa; exact isNodeEmpty_of_fwdTo _ c hold
      · exact h q hq hqa

theorem phfwdAddHelper_TO (pf : PhoneForward) (a b : Str) :
    phfwdAddHelper pf a b TO = addForward (phfwdAddHelperWalk pf a) a a b := by
  simp [phfwdAddHelper, TO]

theorem phfwdAddHelper_FROM (pf : PhoneForward) (a b : Str) :
    phfwdAddHelper pf b a FROM = addToFromList (phfwdAddHelperWalk pf b) b a := by
  simp [phfwdAddHelper, FROM]

theorem validNumber_inRange {a : Str} (h : ValidNumber a) : ∀ c ∈ a, InRange c := h.2

/-- Effect of a successful `phfwdAdd a b` on the two indexes. -/
theorem phfwdAdd_spec (pf : PhoneForward) (a b : Str) (ha : ValidNumber a) (hb : ValidNumber b)
    (hab : a ≠ b) (hroot : isNull pf = false) :
    (∀ q, fwdToAt (phfwdAdd pf (some a) (some b)).1 q =
      if q = a then some b else fwdToAt pf q) ∧
    (∀ q, fwdFromAt (phfwdAdd pf (some a) (some b)).1 q =
      if q = b then
        a :: (if fwdToAt pf a = some q then (fwdFromAt pf q).erase a else fwdFromAt pf q)
      else if fwdToAt pf a = some q then (fwdFromAt pf q).erase a else fwdFromAt pf q) ∧
    isNull (phfwdAdd pf (some a) (some b)).1 = false ∧
    (NoEmpty pf → NoEmpty (phfwdAdd pf (some a) (some b)).1) := by
  rw [phfwdAdd_valid pf a b ha hb hab, phfwdAddHelper_FROM, phfwdAddHelper_TO]
  have hw1 : nullAt (phfwdAddHelperWalk pf a) a = false :=
    nullAt_phfwdAddHelperWalk_self pf a (validNumber_inRange ha) hroot
  obtain ⟨f1, f2, f3, f4⟩ := addForward_spec (phfwdAddHelperWalk pf a) a b
  generalize (addForward (phfwdAddHelperWalk pf a) a a b).1 = t3 at *
  have ht3 : isNull t3 = false := by
    rw [f3, isNull_phfwdAddHelperWalk]; exact hroot
  have hw2 : nullAt (phfwdAddHelperWalk t3 b) b = false :=
    nullAt_phfwdAddHelperWalk_self t3 b (validNumber_inRange hb) ht3
  refine ⟨?_, ?_, ?_, ?_⟩
  · intro q
    rw [fwdToAt_addToFromList, fwdToAt_phfwdAddHelperWalk, f1, fwdToAt_phfwdAddHelperWalk]
    simp [hw1]
  · intro q
    rw [fwdFromAt_addToFromList]
    simp only [hw2, and_true, fwdFromAt_phfwdAddHelperWalk, f2, fwdToAt_phfwdAddHelperWalk]
    by_cases hq : q = b
    · simp [hq]
    · simp [hq]
  · have := nullAt_addToFromList (phfwdAddHelperWalk t3 b) b [] a
    unfold nullAt at this
    simp only [sub] at this
    rw [this, isNull_phfwdAddHelperWalk]
    exact ht3
  · intro hne
    apply noEmpty_addToFromList
    apply noEmptyExcept_phfwdAddHelperWalk t3 b (validNumber_inRange hb) ht3
    apply f4 _ ha.1
    exact noEmptyExcept_phfwdAddHelperWalk pf a (validNumber_inRange ha) hroot hne

/-! ## Removing: auxiliary facts -/

theorem pruned_refl (p : Str) (l : List Str) : Pruned p l l := Or.inl rfl

theorem pruned_trans {p : Str} {l2 l1 l : List Str} (h1 : Pruned p l2 l1) (h2 : Pruned p l1 l) :
    Pruned p l2 l := by
  rcases h1 with rfl | rfl
  · exact h2
  · rcases h2 with rfl | rfl
    · exact Or.inr rfl
    · right
      rw [List.filter_filter]
      simp

theorem pruned_mem {p : Str} {l1 l : List Str} (h : Pruned p l1 l) {x : Str} (hx : x ∈ l1) :
    x ∈ l := by
  rcases h with rfl | rfl
  · exact hx
  · exact List.mem_of_mem_filter hx

theorem le_snoc_cases (π q : Str) (h : π <+: q) : q = π ∨ ∃ c, π ++ [c] <+: q := by
  obtain ⟨s, rfl⟩ := h
  cases s with
  | nil => left; simp
  | cons c s => right; exact ⟨c, s, by simp⟩

theorem le_of_snoc_le (π q : Str) (c : Nat) (h : π ++ [c] <+: q) : π <+: q :=
  List.IsPrefix.trans (List.prefix_append π [c]) h

theorem eq_of_snoc_le_snoc (π q : Str) (c e : Nat) (h1 : ¬ π ++ [c] <+: q)
    (h2 : π ++ [c] <+: q ++ [e]) : q = π := by
  have hlen := List.IsPrefix.length_le h2
  simp only [List.length_append, List.length_singleton] at hlen
  by_cases hl : π.length + 1 ≤ q.length
  · exfalso
    apply h1
    exact List.prefix_of_prefix_length_le h2 (List.prefix_append q [e]) (by simpa using hl)
  · have heq := List.IsPrefix.eq_of_length h2 (by simp; omega)
    have := List.append_inj_left' heq (by simp)
    exact this.symm

theorem sub_of_nullAt_le (pf : PhoneForward) (π q : Str) (h : nullAt pf π = true)
    (hq : π <+: q) : sub pf q = null := by
  obtain ⟨s, rfl⟩ := hq
  unfold nullAt at h
  rw [sub_append, (isNull_eq_true_iff _).1 h, sub_null]

theorem charDigitToInt_add (i : Nat) : charDigitToInt (i + 48) = (i : Int) := by
  unfold charDigitToInt; omega

/-- Unlinking an empty child changes no forward target and no inverse list. -/
theorem fields_deleteChild_of_empty (r : PhoneForward) (π : Str) (c : Nat)
    (h : isNodeEmpty (sub r (π ++ [c])) = true) (q : Str) :
    fwdToAt (deleteChild r π (charDigitToInt c)) q = fwdToAt r q ∧
    fwdFromAt (deleteChild r π (charDigitToInt c)) q = fwdFromAt r q := by
  unfold fwdToAt fwdFromAt
  by_cases hq : π ++ [c] <+: q
  · rw [(sub_deleteChild r π q c).1 hq]
    obtain ⟨s, rfl⟩ := hq
    rw [sub_append]
    have := fields_of_isNodeEmpty _ h s
    exact ⟨this.1.symm, this.2.symm⟩
  · have := (sub_deleteChild r π q c).2 hq
    exact ⟨this.2.1, this.2.2⟩

theorem nullAt_deleteChild_mono (r : PhoneForward) (π : Str) (c : Nat) (q : Str)
    (h : nullAt r q = true) : nullAt (deleteChild r π (charDigitToInt c)) q = true := by
  unfold nullAt at *
  by_cases hq : π ++ [c] <+: q
  · rw [(sub_deleteChild r π q c).1 hq]; rfl
  · rw [((sub_deleteChild r π q c).2 hq).1]; exact h

/-- After unlinking a child, only its parent can have become empty. -/
theorem noEmptyExcept_deleteChild (r : PhoneForward) (π : Str) (c : Nat)
    (h : NoEmptyExcept (π ++ [c]) r) : NoEmptyExcept π (deleteChild r π (charDigitToInt c)) := by
  intro q hq hqπ
  by_cases hle : π ++ [c] <+: q
  · rw [(sub_deleteChild r π q c).1 hle]; rfl
  · rw [isNodeEmpty_congr _ r q ((sub_deleteChild r π q c).2 hle)]
    · apply h q hq
      rintro rfl
      exact hle List.prefix_rfl
    · intro e
      have hne : ¬ π ++ [c] <+: q ++ [e] := fun h2 => hqπ (eq_of_snoc_le_snoc π q c e hle h2)
      exact ((sub_deleteChild r π (q ++ [e]) c).2 hne).1

/-- A node with a live child is not empty. -/
theorem isNodeEmpty_of_child (r : PhoneForward) (π : Str) (c : Nat)
    (h : nullAt r (π ++ [c]) = false) : isNodeEmpty (sub r π) = false := by
  rw [← Bool.not_eq_true, isNodeEmpty_iff]
  rintro ⟨-, -, -, hall⟩
  have := hall c
  rw [← sub_snoc] at this
  unfold nullAt at h
  rw [h] at this
  cases this

theorem noEmptyExcept_snoc_of_child {r : PhoneForward} {π : Str} (h : NoEmptyExcept π r)
    (c : Nat) (hc : nullAt r (π ++ [c]) = false) : NoEmptyExcept (π ++ [c]) r := by
  intro q hq _
  by_cases hqπ : q = π
  · subst hqπ; exact isNodeEmpty_of_child r q c hc
  · exact h q hq hqπ

theorem noEmptyExcept_of_not_empty {r : PhoneForward} {π : Str} (h : NoEmptyExcept π r)
    (hπ : isNodeEmpty (sub r π) = false) : NoEmpty r := by
  intro q hq
  by_cases hqπ : q = π
  · subst hqπ; exact hπ
  · exact h q hq hqπ

theorem fwdToAt_of_nullAt (pf : PhoneForward) (q : Str) (h : nullAt pf q = true) :
    fwdToAt pf q = none := by
  unfold nullAt at h; unfold fwdToAt
  rw [(isNull_eq_true_iff _).1 h]; rfl

theorem nullAt_false_of_le (pf : PhoneForward) (π q : Str) (h : nullAt pf q = false)
    (hq : π <+: q) : nullAt pf π = false := by
  obtain ⟨s, rfl⟩ := hq
  exact isNull_sub_of_append pf π s h

/-! ## The loop of `removeForwardsFromSubtree` -/

theorem loopPost_nil (p π : Str) (root : PhoneForward) : LoopPost p π [] root root :=
  ⟨fun q h => by simp at h, fun q _ => rfl, fun q => pruned_refl _ _,
   fun i hi => by simp at hi, fun q h => h, fun h => h, rfl, fun h => h⟩

theorem loopPost_single (p π : Str) (i : Nat) (r0 r1 : PhoneForward) (b : Bool)
    (P : RfsPost p (π ++ [i + 48]) r0 r1 b) :
    LoopPost p π [i] r0 (if b = true then deleteChild r1 π i else r1) := by
  have hfields : ∀ q, fwdToAt (if b = true then deleteChild r1 π i else r1) q = fwdToAt r1 q ∧
      fwdFromAt (if b = true then deleteChild r1 π i else r1) q = fwdFromAt r1 q := by
    intro q
    by_cases hb : b = true
    · simp only [hb, if_true]
      rw [← charDigitToInt_add]
      exact fields_deleteChild_of_empty r1 π (i + 48) (by rw [← P.flagEq]; exact hb) q
    · simp only [hb, if_false]
      exact ⟨rfl, rfl⟩
  refine ⟨?_, ?_, ?_, ?_, ?_, ?_, ?_, ?_⟩
  · rintro q ⟨j, hj, hq⟩
    simp only [List.mem_singleton] at hj
    subst hj
    rw [(hfields q).1, P.tgt q, if_pos hq]
  · intro q hq
    have : ¬ π ++ [i + 48] <+: q := fun h => hq ⟨i, by simp, h⟩
    rw [(hfields q).1, P.tgt q, if_neg this]
  · intro q
    rw [(hfields q).2]
    exact P.lst q
  · intro j hj q t hq ht x hx
    simp only [List.mem_singleton] at hj
    subst hj
    rw [(hfields t).2] at hx
    exact P.clean q t hq ht x hx
  · intro q hq
    have h1 := P.mono q hq
    by_cases hb : b = true
    · simp only [hb, if_true]
      rw [← charDigitToInt_add]
      exact nullAt_deleteChild_mono r1 π (i + 48) q h1
    · simp only [hb, if_false]
      exact h1
  · intro hne
    by_cases hnull : nullAt r0 (π ++ [i + 48]) = true
    · obtain ⟨h1, h2⟩ := P.nullCase hnull
      subst h1; subst h2
      simpa using hne
    · have hc : nullAt r0 (π ++ [i + 48]) = false := by simpa using hnull
      have h1 := P.ne (noEmptyExcept_snoc_of_child hne (i + 48) hc)
      by_cases hb : b = true
      · simp only [hb, if_true]
        rw [← charDigitToInt_add]
        exact noEmptyExcept_deleteChild r1 π (i + 48) h1
      · simp only [hb, if_false]
        have hb' : b = false := by simpa using hb
        exact noEmpty_except (noEmptyExcept_of_not_empty h1 (by rw [← P.flagEq]; exact hb')) π
  · by_cases hb : b = true
    · simp only [hb, if_true]
      rw [← charDigitToInt_add, ← P.top]
      exact ((sub_deleteChild r1 π [] (i + 48)).2 (by simp)).1
    · simp only [hb, if_false]
      exact P.top
  · intro hπ
    by_cases hb : b = true
    · simp only [hb, if_true]
      rw [← charDigitToInt_add]
      have hchild : nullAt r1 (π ++ [i + 48]) = false := by
        have := ((isNodeEmpty_iff _).1 (P.flagEq ▸ hb)).1
        exact this
      have h1 : nullAt r1 π = false :=
        nullAt_false_of_le r1 π _ hchild (List.prefix_append π [i + 48])
      unfold nullAt at h1 ⊢
      rw [((sub_deleteChild r1 π π (i + 48)).2 (by
        intro hle
        have := List.IsPrefix.length_le hle
        simp at this)).1]
      exact h1
    · simp only [hb, if_false]
      cases hnull : nullAt r0 (π ++ [i + 48]) with
      | true => rw [(P.nullCase hnull).1]; exact hπ
      | false =>
        exact nullAt_false_of_le r1 π _ (P.keep hnull) (List.prefix_append π [i + 48])

theorem loopPost_cons (p π : Str) (i : Nat) (rest : List Nat) (r0 r1 r2 : PhoneForward)
    (h1 : LoopPost p π [i] r0 r1) (h2 : LoopPost p π rest r1 r2) :
    LoopPost p π (i :: rest) r0 r2 := by
  refine ⟨?_, ?_, ?_, ?_, ?_, ?_, h2.top.trans h1.top, fun h => h2.keep (h1.keep h)⟩
  · rintro q ⟨j, hj, hq⟩
    by_cases hr : ∃ k ∈ rest, π ++ [k + 48] <+: q
    · exact h2.tgt1 q hr
    · rw [h2.tgt2 q hr]
      rcases List.mem_cons.1 hj with rfl | hj
      · exact h1.tgt1 q ⟨j, by simp, hq⟩
      · exact absurd ⟨j, hj, hq⟩ hr
  · intro q hq
    have hr : ¬ ∃ k ∈ rest, π ++ [k + 48] <+: q := by
      rintro ⟨k, hk, hkq⟩
      exact hq ⟨k, List.mem_cons_of_mem _ hk, hkq⟩
    have hi : ¬ ∃ k ∈ [i], π ++ [k + 48] <+: q := by
      rintro ⟨k, hk, hkq⟩
      simp only [List.mem_singleton] at hk
      subst hk
      exact hq ⟨k, List.mem_cons_self _ _, hkq⟩
    rw [h2.tgt2 q hr, h1.tgt2 q hi]
  · intro q
    exact pruned_trans (h2.lst q) (h1.lst q)
  · intro j hj q t hq ht x hx
    by_cases hi : π ++ [i + 48] <+: q
    · exact h1.clean i (by simp) q t hi ht x (pruned_mem (h2.lst t) hx)
    · rcases List.mem_cons.1 hj with rfl | hj
      · exact absurd hq hi
      · have hi' : ¬ ∃ k ∈ [i], π ++ [k + 48] <+: q := by
          rintro ⟨k, hk, hkq⟩
          simp only [List.mem_singleton] at hk
          subst hk
          exact hi hkq
        have ht1 : fwdToAt r1 q = some t := by rw [h1.tgt2 q hi']; exact ht
        exact h2.clean j hj q t hq ht1 x hx
  · intro q hq
    exact h2.mono q (h1.mono q hq)
  · intro hne
    exact h2.ne (h1.ne hne)

/-- The loop of `removeForwardsFromSubtree` returns, and what it guarantees, when each
recursive call does. -/
theorem removeForwardsLoop_spec (call : PhoneForward → Str → Option (PhoneForward × Bool))
    (p π : Str) (bound : Nat) (is : List Nat)
    (hcall : ∀ i ∈ is, ∀ r, (∀ q, nullAt r q = false → q.length < bound) →
      ∃ r1 b, call r (π ++ [i + 48]) = some (r1, b) ∧ RfsPost p (π ++ [i + 48]) r r1 b) :
    ∀ root, (∀ q, nullAt root q = false → q.length < bound) →
      ∃ root1, removeForwardsLoop call π is root = some root1 ∧ LoopPost p π is root root1 := by
  induction is with
  | nil =>
    intro root _
    exact ⟨root, rfl, loopPost_nil p π root⟩
  | cons i rest ih =>
    intro root hroot
    obtain ⟨r1, b, hc, P⟩ := hcall i (List.mem_cons_self _ _) root hroot
    have L1 := loopPost_single p π i root r1 b P
    have hbound : ∀ q, nullAt (if b = true then deleteChild r1 π i else r1) q = false →
        q.length < bound := by
      intro q hq
      apply hroot q
      cases hn : nullAt root q with
      | false => rfl
      | true =>
        have := L1.mono q hn
        rw [this] at hq
        cases hq
    obtain ⟨root2, hl, L2⟩ := ih (fun j hj => hcall j (List.mem_cons_of_mem _ hj)) _ hbound
    refine ⟨root2, ?_, loopPost_cons p π i rest root _ root2 L1 L2⟩
    simp only [removeForwardsLoop, hc]
    exact hl

/-! ## The function `removeForwardsFromSubtree` -/

theorem removeForwardsFromSubtree_null (fuel : Nat) (root : PhoneForward) (π p : Str)
    (h : sub root π = null) : removeForwardsFromSubtree fuel root π p = some (root, false) := by
  cases fuel with
  | zero => rw [removeForwardsFromSubtree]; simp only [h]
  | succ n => rw [removeForwardsFromSubtree]; simp only [h]

theorem removeForwardsFromSubtree_node (fuel : Nat) (root : PhoneForward) (π p : Str)
    (cs : Fin 12 → PhoneForward) (t : Option Str) (f : List Str) (h : sub root π = node cs t f) :
    removeForwardsFromSubtree (fuel + 1) root π p =
      match removeForwardsLoop (fun r q => removeForwardsFromSubtree fuel r q p) π
          (List.range 12) (rfsStart root t p) with
      | none => none
      | some root2 => some (rfsFinish root2 π, isNodeEmpty (sub (rfsFinish root2 π) π)) := by
  rw [removeForwardsFromSubtree]
  simp only [h]
  rfl

theorem rfsPost_null (p π : Str) (root : PhoneForward) (h : nullAt root π = true) :
    RfsPost p π root root false := by
  refine ⟨?_, fun q => pruned_refl _ _, ?_, fun q h => h, ?_, fun h => h, fun _ => ⟨rfl, rfl⟩,
    rfl, fun h => h⟩
  · intro q
    by_cases hq : π <+: q
    · rw [if_pos hq]
      unfold fwdToAt
      rw [sub_of_nullAt_le root π q h hq]; rfl
    · rw [if_neg hq]
  · intro q t hq ht
    unfold fwdToAt at ht
    rw [sub_of_nullAt_le root π q h hq] at ht
    cases ht
  · unfold nullAt at h
    rw [(isNull_eq_true_iff _).1 h]; rfl

/-- Effect of the first statement of `removeForwardsFromSubtree`. -/
theorem rfsStart_spec (root : PhoneForward) (π p : Str) :
    (∀ q, fwdToAt (rfsStart root (fwdToAt root π) p) q = fwdToAt root q) ∧
    (∀ q, Pruned p (fwdFromAt (rfsStart root (fwdToAt root π) p) q) (fwdFromAt root q)) ∧
    (∀ tt, fwdToAt root π = some tt →
      ∀ x ∈ fwdFromAt (rfsStart root (fwdToAt root π) p) tt, ¬ p <+: x) ∧
    (∀ q, nullAt root q = true → nullAt (rfsStart root (fwdToAt root π) p) q = true) ∧
    (NoEmptyExcept π root → NoEmptyExcept π (rfsStart root (fwdToAt root π) p)) ∧
    isNull (rfsStart root (fwdToAt root π) p) = isNull root ∧
    (nullAt root π = false → nullAt (rfsStart root (fwdToAt root π) p) π = false) := by
  cases ht : fwdToAt root π with
  | none =>
    rw [show rfsStart root none p = root from rfl]
    exact ⟨fun q => rfl, fun q => pruned_refl _ _, fun tt h => (by cases h), fun q h => h,
      fun h => h, rfl, fun h => h⟩
  | some tt =>
    rw [show rfsStart root (some tt) p = (phfwdRemoveRecFrom root tt p 0 tt.length PREFIX).1
      from rfl]
    obtain ⟨s1, s2, s3, s4⟩ := phfwdRemoveRecFrom_spec tt p PREFIX tt.length root 0 (by simp)
    have s5 := isNull_phfwdRemoveRecFrom root tt p 0 tt.length PREFIX
    generalize (phfwdRemoveRecFrom root tt p 0 tt.length PREFIX) = r at *
    simp only [List.drop_zero, delFrom_PREFIX] at s2
    refine ⟨s1, ?_, ?_, s3, ?_, s5, fun _ => nullAt_of_fwdToAt _ π tt ((s1 π).trans ht)⟩
    · intro q
      unfold fwdFromAt
      rw [s2 q]
      by_cases hq : q = tt
      · simp only [hq, if_true]; exact Or.inr rfl
      · simp only [hq, if_false]; exact Or.inl rfl
    · intro t2 h2 x hx
      simp only [Option.some.injEq] at h2
      subst h2
      unfold fwdFromAt at hx
      rw [s2 tt] at hx
      simp only [if_true, List.mem_filter, decide_eq_true_eq] at hx
      exact hx.2
    · intro hne
      apply noEmpty_except
      apply s4
      exact noEmptyExcept_of_not_empty hne (isNodeEmpty_of_fwdTo _ tt ht)

/-- Effect of the last statement of `removeForwardsFromSubtree`. -/
theorem rfsFinish_spec (root2 : PhoneForward) (π : Str) :
    (∀ q, fwdToAt (rfsFinish root2 π) q = if q = π then none else fwdToAt root2 q) ∧
    (∀ q, fwdFromAt (rfsFinish root2 π) q = fwdFromAt root2 q) ∧
    (∀ q, nullAt (rfsFinish root2 π) q = nullAt root2 q) ∧
    (NoEmptyExcept π root2 → NoEmptyExcept π (rfsFinish root2 π)) := by
  unfold rfsFinish
  by_cases h : (fwdToOf (sub root2 π)).isSome = true
  · simp only [h, if_true]
    refine ⟨?_, fun q => fwdFromAt_setFwdTo _ _ _ _, fun q => nullAt_setFwdTo _ _ _ _, ?_⟩
    · intro q
      rw [fwdToAt_setFwdTo]
      by_cases hq : q = π
      · subst hq
        have : nullAt root2 q = false := by
          cases hs : sub root2 q with
          | null => rw [hs] at h; simp [fwdToOf] at h
          | node cs t f => unfold nullAt; rw [hs]; rfl
        simp [this]
      · simp [hq]
    · intro hne q hq hqπ
      rw [isNodeEmpty_congr _ root2 q (sub_modifyAt_field root2 π q _ rfl (getChild_setFwdTo _) hqπ)
        (fun c => nullAt_setFwdTo root2 π (q ++ [c]) _)]
      exact hne q hq hqπ
  · rw [if_neg h]
    refine ⟨?_, fun q => rfl, fun q => rfl, fun h => h⟩
    intro q
    by_cases hq : q = π
    · subst hq
      simp only [if_true]
      unfold fwdToAt
      cases hf : fwdToOf (sub root2 q) with
      | none => rfl
      | some t => rw [hf] at h; simp at h
    · simp [hq]

theorem exists_slot_of_lt (root : PhoneForward) (π q : Str) (hπ : π <+: q) (hne : q ≠ π)
    (hq : nullAt root q = false) : ∃ i ∈ List.range 12, π ++ [i + 48] <+: q := by
  rcases le_snoc_cases π q hπ with h | ⟨c, hc⟩
  · exact absurd h hne
  · have hr : InRange c := by
      apply inRange_of_sub_node root q hq
      obtain ⟨s, rfl⟩ := hc
      simp
    unfold InRange at hr
    refine ⟨c - 48, by simp; omega, ?_⟩
    have : c - 48 + 48 = c := by omega
    rw [this]; exact hc

/-- The function `removeForwardsFromSubtree` returns when its bound is at least the height of
the subtree it is called on, and what it guarantees. -/
theorem removeForwardsFromSubtree_spec (p : Str) (fuel : Nat) :
    ∀ (root : PhoneForward) (π : Str),
      (∀ q, nullAt root q = false → q.length < fuel + π.length) →
      ∃ root1 flag, removeForwardsFromSubtree fuel root π p = some (root1, flag) ∧
        RfsPost p π root root1 flag := by
  induction fuel with
  | zero =>
    intro root π hfuel
    cases hs : sub root π with
    | null =>
      exact ⟨root, false, removeForwardsFromSubtree_null 0 root π p hs,
        rfsPost_null p π root (by unfold nullAt; rw [hs]; rfl)⟩
    | node cs t f =>
      have := hfuel π (by unfold nullAt; rw [hs]; rfl)
      omega
  | succ fuel ih =>
    intro root π hfuel
    cases hs : sub root π with
    | null =>
      exact ⟨root, false, removeForwardsFromSubtree_null _ root π p hs,
        rfsPost_null p π root (by unfold nullAt; rw [hs]; rfl)⟩
    | node cs t f =>
      have hnode : nullAt root π = false := by unfold nullAt; rw [hs]; rfl
      have ht : fwdToAt root π = t := by unfold fwdToAt; rw [hs]; rfl
      rw [removeForwardsFromSubtree_node fuel root π p cs t f hs, ← ht]
      obtain ⟨a1, a2, a3, a4, a5, a6, a7⟩ := rfsStart_spec root π p
      generalize rfsStart root (fwdToAt root π) p = root1 at *
      have hb1 : ∀ q, nullAt root1 q = false → q.length < fuel + 1 + π.length := by
        intro q hq
        apply hfuel q
        cases hn : nullAt root q with
        | false => rfl
        | true => rw [a4 q hn] at hq; cases hq
      obtain ⟨root2, hl, L⟩ := removeForwardsLoop_spec
        (fun r q => removeForwardsFromSubtree fuel r q p) p π (fuel + 1 + π.length)
        (List.range 12)
        (fun i _ r hr => ih r (π ++ [i + 48]) (by
          intro q hq
          have := hr q hq
          simp only [List.length_append, List.length_singleton]
          omega))
        root1 hb1
      rw [hl]
      obtain ⟨c1, c2, c3, c4⟩ := rfsFinish_spec root2 π
      refine ⟨_, _, rfl, ?_⟩
      generalize rfsFinish root2 π = root3 at *
      have hmono : ∀ q, nullAt root q = true → nullAt root3 q = true := by
        intro q hq
        rw [c3]
        exact L.mono q (a4 q hq)
      have htop : isNull root3 = isNull root := by
        have := c3 []
        unfold nullAt at this
        simp only [sub] at this
        rw [this, L.top, a6]
      have hkeep : nullAt root π = false → nullAt root3 π = false := by
        intro hπ
        rw [c3]
        exact L.keep (a7 hπ)
      refine ⟨?_, ?_, ?_, hmono, rfl, ?_, ?_, htop, hkeep⟩
      · intro q
        rw [c1]
        by_cases hqπ : q = π
        · subst hqπ
          simp
        · simp only [hqπ, if_false]
          by_cases hle : π <+: q
          · rw [if_pos hle]
            cases hn : nullAt root q with
            | true => exact fwdToAt_of_nullAt _ _ (L.mono q (a4 q hn))
            | false => exact L.tgt1 q (exists_slot_of_lt root π q hle hqπ hn)
          · rw [if_neg hle, L.tgt2 q, a1]
            rintro ⟨i, -, hi⟩
            exact hle (le_of_snoc_le π q _ hi)
      · intro q
        rw [c2]
        exact pruned_trans (L.lst q) (a2 q)
      · intro q tt hle hq x hx
        rw [c2] at hx
        by_cases hqπ : q = π
        · subst hqπ
          exact a3 tt hq x (pruned_mem (L.lst tt) hx)
        · have hn : nullAt root q = false := nullAt_of_fwdToAt root q tt hq
          obtain ⟨i, hi, hiq⟩ := exists_slot_of_lt root π q hle hqπ hn
          exact L.clean i hi q tt hiq (by rw [a1]; exact hq) x hx
      · intro hne
        exact c4 (L.ne (a5 hne))
      · intro hnull
        rw [hnode] at hnull
        cases hnull

/-! ## The functions `phfwdRemoveRecTo` and `phfwdRemove` -/

theorem phfwdRemoveRecTo_null (fuel : Nat) (root : PhoneForward) (π p : Str) (d len : Nat)
    (h : sub root π = null) : phfwdRemoveRecTo fuel root π p d len = some (root, false) := by
  cases fuel with
  | zero => rw [phfwdRemoveRecTo]; simp only [h]
  | succ n => rw [phfwdRemoveRecTo]; simp only [h]

theorem phfwdRemoveRecTo_end (fuel : Nat) (root : PhoneForward) (π p : Str) (len : Nat)
    (h : isNull (sub root π) = false) :
    phfwdRemoveRecTo fuel root π p len len = removeForwardsFromSubtree fuel root π p := by
  obtain ⟨cs, t, f, hs⟩ := (isNull_eq_false_iff _).1 h
  cases fuel with
  | zero => rw [phfwdRemoveRecTo]; simp only [hs, if_true]
  | succ n => rw [phfwdRemoveRecTo]; simp only [hs, if_true]

theorem phfwdRemoveRecTo_step (fuel : Nat) (root : PhoneForward) (π p : Str) (d len : Nat)
    (h : isNull (sub root π) = false) (hd : d ≠ len) :
    phfwdRemoveRecTo (fuel + 1) root π p d len =
      match phfwdRemoveRecTo fuel root (π ++ [p.getD d 0]) p (d + 1) len with
      | none => none
      | some (root1, true) =>
        some (deleteChild root1 π (charDigitToInt (p.getD d 0)),
          isNodeEmpty (sub (deleteChild root1 π (charDigitToInt (p.getD d 0))) π))
      | some (root1, false) => some (root1, false) := by
  obtain ⟨cs, t, f, hs⟩ := (isNull_eq_false_iff _).1 h
  rw [phfwdRemoveRecTo]
  simp only [hs, hd, if_false]

theorem recToPost_null (p π : Str) (root : PhoneForward) (hπ : π <+: p)
    (h : nullAt root π = true) : RecToPost p π root root false := by
  refine ⟨?_, fun q => pruned_refl _ _, ?_, fun q h => h, fun h => (by cases h),
    fun hne => ⟨noEmpty_except hne π, fun _ => hne⟩, rfl, fun _ => ⟨rfl, rfl⟩, fun h => h⟩
  · intro q
    by_cases hq : p <+: q
    · rw [if_pos hq]
      unfold fwdToAt
      rw [sub_of_nullAt_le root π q h (List.IsPrefix.trans hπ hq)]; rfl
    · rw [if_neg hq]
  · intro q t hq ht
    unfold fwdToAt at ht
    rw [sub_of_nullAt_le root π q h (List.IsPrefix.trans hπ hq)] at ht
    cases ht

theorem recToPost_of_rfsPost (p : Str) (root root1 : PhoneForward) (flag : Bool)
    (P : RfsPost p p root root1 flag) : RecToPost p p root root1 flag := by
  refine ⟨P.tgt, P.lst, P.clean, P.mono, fun h => by rw [← P.flagEq]; exact h, ?_, P.top,
    P.nullCase, P.keep⟩
  intro hne
  have h1 := P.ne (noEmpty_except hne p)
  refine ⟨h1, fun hf => noEmptyExcept_of_not_empty h1 (by rw [← P.flagEq]; exact hf)⟩

theorem take_succ_getD (p : Str) (d : Nat) (h : d < p.length) :
    p.take d ++ [p.getD d 0] = p.take (d + 1) := by
  rw [List.take_succ]
  congr 1
  simp [List.getD_eq_getElem?_getD, List.getElem?_eq_getElem h]

/-- The function `phfwdRemoveRecTo` returns when its bound is at least the height of the
tree below the node it is called on, and what it guarantees. -/
theorem phfwdRemoveRecTo_spec (p : Str) (fuel : Nat) :
    ∀ (root : PhoneForward) (d : Nat), d ≤ p.length →
      (∀ q, nullAt root q = false → q.length < fuel + d) →
      ∃ root1 flag, phfwdRemoveRecTo fuel root (p.take d) p d p.length = some (root1, flag) ∧
        RecToPost p (p.take d) root root1 flag := by
  induction fuel with
  | zero =>
    intro root d hd hfuel
    have hlen : (p.take d).length = d := by simp [hd]
    cases hn : nullAt root (p.take d) with
    | true =>
      exact ⟨root, false,
        phfwdRemoveRecTo_null _ root _ p d _ ((isNull_eq_true_iff _).1 hn),
        recToPost_null p _ root (List.take_prefix d p) hn⟩
    | false =>
      have := hfuel _ hn
      omega
  | succ fuel ih =>
    intro root d hd hfuel
    have hlen : (p.take d).length = d := by simp [hd]
    cases hn : nullAt root (p.take d) with
    | true =>
      exact ⟨root, false,
        phfwdRemoveRecTo_null _ root _ p d _ ((isNull_eq_true_iff _).1 hn),
        recToPost_null p _ root (List.take_prefix d p) hn⟩
    | false =>
      by_cases hdl : d = p.length
      · subst hdl
        rw [phfwdRemoveRecTo_end _ root _ p _ hn]
        rw [List.take_length]
        obtain ⟨root1, flag, h1, P⟩ := removeForwardsFromSubtree_spec p (fuel + 1) root p
          (fun q hq => hfuel q hq)
        exact ⟨root1, flag, h1, recToPost_of_rfsPost p root root1 flag P⟩
      · have hlt : d < p.length := by omega
        rw [phfwdRemoveRecTo_step fuel root _ p d _ hn hdl, take_succ_getD p d hlt]
        obtain ⟨r1, b, h1, P⟩ := ih root (d + 1) (by omega) (fun q hq => by
          have := hfuel q hq
          omega)
        rw [h1]
        rw [← take_succ_getD p d hlt] at P
        generalize p.getD d 0 = c at *
        generalize p.take d = π at *
        cases b with
        | false =>
          refine ⟨r1, false, rfl, P.tgt, P.lst, P.clean, P.mono, fun h => (by cases h), ?_,
            P.top, fun h => (by rw [hn] at h; cases h), ?_⟩
          · intro hne
            have h2 := (P.ne hne).2 rfl
            exact ⟨noEmpty_except h2 π, fun _ => h2⟩
          · intro _
            cases hnull : nullAt root (π ++ [c]) with
            | true => rw [(P.nullCase hnull).1]; exact hn
            | false => exact nullAt_false_of_le r1 π _ (P.keep hnull) (List.prefix_append π [c])
        | true =>
          have hempty : isNodeEmpty (sub r1 (π ++ [c])) = true := P.flagTrue rfl
          refine ⟨_, _, rfl, ?_, ?_, ?_, ?_, fun h => h, ?_, ?_,
            fun h => (by rw [hn] at h; cases h), ?_⟩
          · intro q
            rw [(fields_deleteChild_of_empty r1 π c hempty q).1]
            exact P.tgt q
          · intro q
            rw [(fields_deleteChild_of_empty r1 π c hempty q).2]
            exact P.lst q
          · intro q t hq ht x hx
            rw [(fields_deleteChild_of_empty r1 π c hempty t).2] at hx
            exact P.clean q t hq ht x hx
          · intro q hq
            exact nullAt_deleteChild_mono r1 π c q (P.mono q hq)
          · intro hne
            have h2 := noEmptyExcept_deleteChild r1 π c (P.ne hne).1
            exact ⟨h2, fun hf => noEmptyExcept_of_not_empty h2 hf⟩
          · rw [← P.top]
            exact ((sub_deleteChild r1 π [] c).2 (by simp)).1
          · intro _
            have hchild : nullAt r1 (π ++ [c]) = false := ((isNodeEmpty_iff _).1 hempty).1
            have h1 : nullAt r1 π = false :=
              nullAt_false_of_le r1 π _ hchild (List.prefix_append π [c])
            unfold nullAt at h1 ⊢
            rw [((sub_deleteChild r1 π π c).2 (by
              intro hle
              have := List.IsPrefix.length_le hle
              simp at this)).1]
            exact h1

theorem le_foldr_max (g : Fin 12 → Nat) (l : List (Fin 12)) (i : Fin 12) (h : i ∈ l) :
    g i ≤ l.foldr (fun j acc => max (g j) acc) 0 := by
  induction l with
  | nil => simp at h
  | cons j rest ih =>
    simp only [List.foldr_cons]
    rcases List.mem_cons.1 h with rfl | h
    · exact le_max_left _ _
    · exact le_trans (ih h) (le_max_right _ _)

theorem height_getChild_lt (pf : PhoneForward) (c : Nat)
    (h : isNull (getChild pf (charDigitToInt c)) = false) :
    height (getChild pf (charDigitToInt c)) < height pf := by
  cases pf with
  | null => simp [getChild, isNull] at h
  | node cs t f =>
    by_cases hr : InRange c
    · have e := getChild_node_inRange cs t f ⟨c - 48, by unfold InRange at hr; omega⟩
      have hc : c - 48 + 48 = c := by unfold InRange at hr; omega
      simp only [hc] at e
      rw [e, height]
      have := le_foldr_max (fun j => height (cs j)) (List.finRange 12)
        ⟨c - 48, by unfold InRange at hr; omega⟩ (List.mem_finRange _)
      simp only at this
      omega
    · rw [getChild_of_not_inRange _ _ hr] at h
      simp [isNull] at h

/-- The path to a live node is shorter than the height of the tree. -/
theorem length_lt_height (pf : PhoneForward) (q : Str) (h : nullAt pf q = false) :
    q.length < height pf := by
  unfold nullAt at h
  induction q generalizing pf with
  | nil =>
    cases pf with
    | null => simp [sub, isNull] at h
    | node cs t f => simp [height]
  | cons c q ih =>
    simp only [sub] at h
    have h1 := ih _ h
    have hc : isNull (getChild pf (charDigitToInt c)) = false :=
      isNull_sub_of_append (getChild pf (charDigitToInt c)) [] q (by simpa using h)
    have h2 := height_getChild_lt pf c hc
    simp only [List.length_cons]
    omega

/-- The function `phfwdRemove` never exhausts its recursion bound, and what it guarantees on
a valid number `p`: the targets at and below `p` are cleared, inverse lists are only pruned
of entries beginning with `p`, no node appears and no empty node is left. -/
theorem phfwdRemove_spec (pf : PhoneForward) (p : Str) (hp : ValidNumber p) :
    ∃ r, phfwdRemoveRecTo (height pf) pf [] p 0 (strlen p) = some r ∧
      phfwdRemove pf (some p) = r.1 ∧ RecToPost p [] pf r.1 r.2 := by
  obtain ⟨root1, flag, h1, P⟩ := phfwdRemoveRecTo_spec p (height pf) pf 0 (Nat.zero_le _)
    (fun q hq => by
      have := length_lt_height pf q hq
      omega)
  simp only [List.take_zero] at h1 P
  refine ⟨(root1, flag), h1, ?_, P⟩
  have hv := (checkIfNumber_iff p).2 hp
  simp only [phfwdRemove, hv, if_true, strlen]
  rw [h1]

theorem phfwdRemove_of_not_valid (pf : PhoneForward) (num : Option Str) (h : ¬ IsNumber num) :
    phfwdRemove pf num = pf := by
  rw [isNumber_iff] at h
  simp [phfwdRemove, h]

/-! ## The invariant is kept by `phfwdAdd` -/

theorem fwdToAt_nil (pf : PhoneForward) : fwdToAt pf [] = fwdToOf pf := rfl

theorem fwdFromAt_nil (pf : PhoneForward) : fwdFromAt pf [] = fwdFromOf pf := rfl

theorem phfwdAdd_fst_of_not_valid (pf : PhoneForward) (src dst : Option Str)
    (h : ¬ (IsNumber src ∧ IsNumber dst ∧ src ≠ dst)) : (phfwdAdd pf src dst).1 = pf := by
  cases src with
  | none => rfl
  | some a =>
    cases dst with
    | none => rfl
    | some b =>
      by_cases ha : checkIfNumber (some a) = true
      · by_cases hb : checkIfNumber (some b) = true
        · have hab : a = b := by
            by_contra hne
            exact h ⟨(isNumber_iff _).2 ha, (isNumber_iff _).2 hb, by simpa using hne⟩
          subst hab
          simp [phfwdAdd, ha, strcmp_self]
        · simp [phfwdAdd, hb]
      · simp [phfwdAdd, ha]

/-- The old inverse list of a node, once the entry of `a` for its previous target is gone. -/
theorem not_mem_base (pf : PhoneForward) (h : Inv pf) (a q : Str) :
    a ∉ (if fwdToAt pf a = some q then (fwdFromAt pf q).erase a else fwdFromAt pf q) := by
  by_cases hq : fwdToAt pf a = some q
  · simp only [hq, if_true]
    exact List.Nodup.not_mem_erase (h.nodup q)
  · simp only [hq, if_false]
    intro hm
    exact hq (h.fromTo a q hm)

theorem inv_phfwdAdd_valid (pf : PhoneForward) (a b : Str) (ha : ValidNumber a)
    (hb : ValidNumber b) (hab : a ≠ b) (h : Inv pf) : Inv (phfwdAdd pf (some a) (some b)).1 := by
  obtain ⟨s1, s2, s3, s4⟩ := phfwdAdd_spec pf a b ha hb hab h.root
  generalize (phfwdAdd pf (some a) (some b)).1 = pf1 at *
  have hbase : ∀ q x, x ∈ (if fwdToAt pf a = some q then (fwdFromAt pf q).erase a
      else fwdFromAt pf q) → x ∈ fwdFromAt pf q := by
    intro q x hx
    by_cases hq : fwdToAt pf a = some q
    · simp only [hq, if_true] at hx; exact List.mem_of_mem_erase hx
    · simp only [hq, if_false] at hx; exact hx
  refine ⟨s3, ?_, ?_, ?_, ?_, ?_, s4 h.noEmpty⟩
  · rw [← fwdToAt_nil, s1]
    have : ¬ ([] : Str) = a := fun e => ha.1 e.symm
    simp only [this, if_false]
    exact h.rootTo
  · rw [← fwdFromAt_nil, s2]
    have : ¬ ([] : Str) = b := fun e => hb.1 e.symm
    have h0 : fwdFromAt pf [] = [] := h.rootFrom
    simp only [this, if_false, h0]
    split <;> rfl
  · intro x y hxy
    rw [s1] at hxy
    by_cases hx : x = a
    · subst hx
      simp only [if_true, Option.some.injEq] at hxy
      subst hxy
      refine ⟨hb, fun e => hab e.symm, ?_⟩
      rw [s2]
      simp
    · simp only [hx, if_false] at hxy
      obtain ⟨h1, h2, h3⟩ := h.toFrom x y hxy
      refine ⟨h1, h2, ?_⟩
      rw [s2]
      have hin : x ∈ (if fwdToAt pf a = some y then (fwdFromAt pf y).erase a
          else fwdFromAt pf y) := by
        by_cases hq : fwdToAt pf a = some y
        · simp only [hq, if_true]
          exact (List.mem_erase_of_ne hx).2 h3
        · simp only [hq, if_false]; exact h3
      by_cases hyb : y = b
      · simp only [hyb, if_true]
        rw [hyb] at hin
        exact List.mem_cons_of_mem _ hin
      · simp only [hyb, if_false]; exact hin
  · intro x y hxy
    rw [s2] at hxy
    rw [s1]
    have hcase : (x = a ∧ y = b) ∨ x ∈ (if fwdToAt pf a = some y then (fwdFromAt pf y).erase a
        else fwdFromAt pf y) := by
      by_cases hyb : y = b
      · simp only [hyb, if_true, List.mem_cons] at hxy
        rcases hxy with hxa | hxy
        · exact Or.inl ⟨hxa, hyb⟩
        · right; rw [hyb]; exact hxy
      · simp only [hyb, if_false] at hxy
        exact Or.inr hxy
    rcases hcase with ⟨hxa, hyb⟩ | hin
    · simp [hxa, hyb]
    · have hxa : x ≠ a := by
        rintro rfl
        exact not_mem_base pf h x y hin
      simp only [hxa, if_false]
      exact h.fromTo x y (hbase y x hin)
  · intro q
    rw [s2]
    have hnd : (if fwdToAt pf a = some q then (fwdFromAt pf q).erase a
        else fwdFromAt pf q).Nodup := by
      by_cases hq : fwdToAt pf a = some q
      · simp only [hq, if_true]; exact (h.nodup q).erase a
      · simp only [hq, if_false]; exact h.nodup q
    by_cases hqb : q = b
    · simp only [hqb, if_true]
      rw [hqb] at hnd
      exact List.nodup_cons.2 ⟨not_mem_base pf h a b, hnd⟩
    · simp only [hqb, if_false]; exact hnd

theorem inv_phfwdAdd (pf : PhoneForward) (src dst : Option Str) (h : Inv pf) :
    Inv (phfwdAdd pf src dst).1 := by
  by_cases hv : IsNumber src ∧ IsNumber dst ∧ src ≠ dst
  · obtain ⟨⟨a, rfl, ha⟩, ⟨b, rfl, hb⟩, hab⟩ := hv
    exact inv_phfwdAdd_valid pf a b ha hb (by simpa using hab) h
  · rw [phfwdAdd_fst_of_not_valid pf src dst hv]; exact h

theorem inv_phfwdNew : Inv phfwdNew := by
  refine ⟨rfl, rfl, rfl, ?_, ?_, ?_, ?_⟩
  · intro a b hab
    unfold fwdToAt at hab
    rw [(fields_sub_phfwdNew a).1] at hab
    cases hab
  · intro a b hab
    unfold fwdFromAt at hab
    rw [(fields_sub_phfwdNew b).2] at hab
    simp at hab
  · intro b
    unfold fwdFromAt
    rw [(fields_sub_phfwdNew b).2]
    exact List.nodup_nil
  · intro q hq
    rw [sub_phfwdNew q hq]; rfl

/-! ## The invariant is kept by `phfwdRemove` -/

/-- Effect of `phfwdRemove p` on the two indexes of a base that satisfies the invariant. -/
theorem phfwdRemove_obs (pf : PhoneForward) (p : Str) (h : Inv pf) (hp : ValidNumber p) :
    (∀ q, fwdToAt (phfwdRemove pf (some p)) q = if p <+: q then none else fwdToAt pf q) ∧
    (∀ q, fwdFromAt (phfwdRemove pf (some p)) q =
      (fwdFromAt pf q).filter (fun y => decide (¬ p <+: y))) ∧
    NoEmpty (phfwdRemove pf (some p)) ∧
    isNull (phfwdRemove pf (some p)) = false := by
  obtain ⟨r, -, h2, P⟩ := phfwdRemove_spec pf p hp
  rw [h2]
  refine ⟨P.tgt, ?_, ?_, by rw [P.top]; exact h.root⟩
  · intro q
    rcases P.lst q with h1 | h1
    · rw [h1]
      symm
      rw [List.filter_eq_self]
      intro x hx
      simp only [decide_eq_true_eq]
      intro hpx
      have := P.clean x q hpx (h.fromTo x q hx) x (by rw [h1]; exact hx)
      exact this hpx
    · exact h1
  · have := (P.ne h.noEmpty).1
    intro q hq
    exact this q hq hq

theorem inv_phfwdRemove (pf : PhoneForward) (num : Option Str) (h : Inv pf) :
    Inv (phfwdRemove pf num) := by
  by_cases hv : IsNumber num
  · obtain ⟨p, rfl, hp⟩ := hv
    obtain ⟨s1, s2, s3, s4⟩ := phfwdRemove_obs pf p h hp
    generalize phfwdRemove pf (some p) = pf1 at *
    refine ⟨s4, ?_, ?_, ?_, ?_, ?_, s3⟩
    · rw [← fwdToAt_nil, s1]
      have : fwdToAt pf [] = none := h.rootTo
      rw [this]
      split <;> rfl
    · rw [← fwdFromAt_nil, s2]
      have : fwdFromAt pf [] = [] := h.rootFrom
      rw [this]; rfl
    · intro a b hab
      rw [s1] at hab
      by_cases hpa : p <+: a
      · rw [if_pos hpa] at hab; cases hab
      · rw [if_neg hpa] at hab
        obtain ⟨h1, h2, h3⟩ := h.toFrom a b hab
        refine ⟨h1, h2, ?_⟩
        rw [s2]
        exact List.mem_filter.2 ⟨h3, by simpa using hpa⟩
    · intro a b hab
      rw [s2] at hab
      obtain ⟨h1, h2⟩ := List.mem_filter.1 hab
      simp only [decide_eq_true_eq] at h2
      rw [s1, if_neg h2]
      exact h.fromTo a b h1
    · intro b
      rw [s2]
      exact (h.nodup b).filter _
  · rw [phfwdRemove_of_not_valid pf num hv]; exact h

/-- Every reachable base satisfies the invariant. -/
theorem inv_of_reachable (pf : PhoneForward) (h : Reachable pf) : Inv pf := by
  induction h with
  | new => exact inv_phfwdNew
  | add pf a b _ ih => exact inv_phfwdAdd pf a b ih
  | remove pf p _ ih => exact inv_phfwdRemove pf p ih

/-! ## Two trees with the same content are equal -/

/-- A non-empty node without empty descendants holds a target or an inverse entry
somewhere. -/
theorem exists_field_of_not_empty (t : PhoneForward) :
    isNull t = false → isNodeEmpty t = false →
    (∀ q, q ≠ [] → isNodeEmpty (sub t q) = false) →
    ∃ q, fwdToOf (sub t q) ≠ none ∨ fwdFromOf (sub t q) ≠ [] := by
  induction t with
  | null => intro h; simp [isNull] at h
  | node cs f l ih =>
    intro _ hne hall
    by_cases hf : f = none
    · by_cases hl : l = []
      · subst hf; subst hl
        have hex : ∃ c, isNull (getChild (node cs none []) (charDigitToInt c)) = false := by
          by_contra hcon
          have : isNodeEmpty (node cs none []) = true := by
            rw [isNodeEmpty_iff]
            refine ⟨rfl, rfl, rfl, ?_⟩
            intro c
            cases hc : isNull (getChild (node cs none []) (charDigitToInt c)) with
            | true => rfl
            | false => exact absurd ⟨c, hc⟩ hcon
          rw [this] at hne
          cases hne
        obtain ⟨c, hc⟩ := hex
        have hr : InRange c := by
          by_contra hr
          rw [getChild_of_not_inRange _ _ hr] at hc
          simp [isNull] at hc
        have e := getChild_node_inRange cs none [] ⟨c - 48, by unfold InRange at hr; omega⟩
        have hcc : c - 48 + 48 = c := by unfold InRange at hr; omega
        simp only [hcc] at e
        rw [e] at hc
        have h1 : isNodeEmpty (cs ⟨c - 48, by unfold InRange at hr; omega⟩) = false := by
          have := hall [c] (by simp)
          simp only [sub, e] at this
          exact this
        have h2 : ∀ q, q ≠ [] →
            isNodeEmpty (sub (cs ⟨c - 48, by unfold InRange at hr; omega⟩) q) = false := by
          intro q hq
          have := hall (c :: q) (by simp)
          simp only [sub, e] at this
          exact this
        obtain ⟨q, hq⟩ := ih _ hc h1 h2
        refine ⟨c :: q, ?_⟩
        simp only [sub, e]
        exact hq
      · exact ⟨[], Or.inr hl⟩
    · exact ⟨[], Or.inl hf⟩

/-- Trees without empty nodes below the root are determined by the targets and inverse lists
they hold. -/
theorem eq_of_fields (t1 : PhoneForward) :
    ∀ t2 : PhoneForward, isNull t1 = false → isNull t2 = false →
      (∀ q, q ≠ [] → isNodeEmpty (sub t1 q) = false) →
      (∀ q, q ≠ [] → isNodeEmpty (sub t2 q) = false) →
      (∀ q, fwdToOf (sub t1 q) = fwdToOf (sub t2 q)) →
      (∀ q, fwdFromOf (sub t1 q) = fwdFromOf (sub t2 q)) → t1 = t2 := by
  induction t1 with
  | null => intro t2 h; simp [isNull] at h
  | node cs1 f1 l1 ih =>
    intro t2 _ h2 hne1 hne2 hto hfrom
    cases t2 with
    | null => simp [isNull] at h2
    | node cs2 f2 l2 =>
      have hf : f1 = f2 := hto []
      have hl : l1 = l2 := hfrom []
      subst hf; subst hl
      have hcs : cs1 = cs2 := by
        funext i
        have e1 := getChild_node_inRange cs1 f1 l1 i
        have e2 := getChild_node_inRange cs2 f1 l1 i
        have sub1 : ∀ q, sub (node cs1 f1 l1) ((i.val + 48) :: q) = sub (cs1 i) q := by
          intro q; simp only [sub, e1]
        have sub2 : ∀ q, sub (node cs2 f1 l1) ((i.val + 48) :: q) = sub (cs2 i) q := by
          intro q; simp only [sub, e2]
        have n1 : ∀ q, q ≠ [] → isNodeEmpty (sub (cs1 i) q) = false := by
          intro q hq
          rw [← sub1]; exact hne1 _ (by simp)
        have n2 : ∀ q, q ≠ [] → isNodeEmpty (sub (cs2 i) q) = false := by
          intro q hq
          rw [← sub2]; exact hne2 _ (by simp)
        have m1 : isNodeEmpty (cs1 i) = false := by
          have := hne1 [i.val + 48] (by simp)
          rw [sub1] at this; exact this
        have m2 : isNodeEmpty (cs2 i) = false := by
          have := hne2 [i.val + 48] (by simp)
          rw [sub2] at this; exact this
        have t12 : ∀ q, fwdToOf (sub (cs1 i) q) = fwdToOf (sub (cs2 i) q) := by
          intro q; rw [← sub1, ← sub2]; exact hto _
        have f12 : ∀ q, fwdFromOf (sub (cs1 i) q) = fwdFromOf (sub (cs2 i) q) := by
          intro q; rw [← sub1, ← sub2]; exact hfrom _
        cases hc1 : isNull (cs1 i) with
        | true =>
          cases hc2 : isNull (cs2 i) with
          | true => rw [(isNull_eq_true_iff _).1 hc1, (isNull_eq_true_iff _).1 hc2]
          | false =>
            obtain ⟨q, hq⟩ := exists_field_of_not_empty (cs2 i) hc2 m2 n2
            rw [← t12, ← f12, (isNull_eq_true_iff _).1 hc1, sub_null] at hq
            simp [fwdToOf, fwdFromOf] at hq
        | false =>
          cases hc2 : isNull (cs2 i) with
          | true =>
            obtain ⟨q, hq⟩ := exists_field_of_not_empty (cs1 i) hc1 m1 n1
            rw [t12, f12, (isNull_eq_true_iff _).1 hc2, sub_null] at hq
            simp [fwdToOf, fwdFromOf] at hq
          | false => exact ih i (cs2 i) hc1 hc2 n1 n2 t12 f12
      rw [hcs]

/-! ## Properties of `phfwdAdd` and `phfwdRemove` on reachable bases -/

/-- The forward lookup of a number whose own node holds a target returns that target. -/
theorem phfwdGet_of_fwdToAt (pf : PhoneForward) (a b : Str) (ha : ValidNumber a)
    (h : fwdToAt pf a = some b) : phfwdGet pf (some a) = [b] := by
  have hv := (checkIfNumber_iff a).2 ha
  have := phfwdGetLoop_some a 0 pf none 0 a [] b ha.1 (by simp) h
    (fun v _ hv _ => List.IsPrefix.length_le hv)
  simp [phfwdGet, hv, this]

/-- The reverse lookup of a number contains the entries of the inverse list of its node. -/
theorem mem_phfwdReverse_of_fwdFromAt (pf : PhoneForward) (a b : Str) (hb : ValidNumber b)
    (h : a ∈ fwdFromAt pf b) : a ∈ phfwdReverse pf (some b) := by
  rw [phfwdReverse_valid pf b hb, mem_phfwdReverseLoop]
  exact Or.inr ⟨b, [], a, hb.1, by simp, h, by simp⟩

/-- C6. On a reachable base, for valid numbers `a ≠ b`, `phfwdAdd a b` succeeds and right
after it the node at path `a` has forward target `b`, `a` is in the inverse list of the node
at path `b`, `phfwdGet a` returns `[b]` and `phfwdReverse b` contains `a`. -/
theorem phfwdAdd_installs_rule (pf : PhoneForward) (hr : Reachable pf) (a b : Str)
    (ha : ValidNumber a) (hb : ValidNumber b) (hab : a ≠ b) :
    (phfwdAdd pf (some a) (some b)).2 = true ∧
    fwdToAt (phfwdAdd pf (some a) (some b)).1 a = some b ∧
    a ∈ fwdFromAt (phfwdAdd pf (some a) (some b)).1 b ∧
    phfwdGet (phfwdAdd pf (some a) (some b)).1 (some a) = [b] ∧
    a ∈ phfwdReverse (phfwdAdd pf (some a) (some b)).1 (some b) := by
  have hinv := inv_of_reachable pf hr
  obtain ⟨s1, s2, -, -⟩ := phfwdAdd_spec pf a b ha hb hab hinv.root
  have h1 : fwdToAt (phfwdAdd pf (some a) (some b)).1 a = some b := by
    rw [s1]; simp
  have h2 : a ∈ fwdFromAt (phfwdAdd pf (some a) (some b)).1 b := by
    rw [s2]; simp
  refine ⟨?_, h1, h2, phfwdGet_of_fwdToAt _ a b ha h1, mem_phfwdReverse_of_fwdFromAt _ a b hb h2⟩
  rw [phfwdAdd_valid pf a b ha hb hab, phfwdAddHelper_snd]

/-- C6 at work: `phfwdAdd "123" "45"` on a new base. -/
theorem phfwdAdd_installs_rule_witness :
    Reachable phfwdNew ∧ ValidNumber (ofString "123") ∧ ValidNumber (ofString "45") ∧
    ofString "123" ≠ ofString "45" ∧
    phfwdGet (phfwdAdd phfwdNew (some (ofString "123")) (some (ofString "45"))).1
      (some (ofString "123")) = [ofString "45"] :=
  ⟨Reachable.new, by decide, by decide, by decide,
   (phfwdAdd_installs_rule phfwdNew Reachable.new (ofString "123") (ofString "45")
     (by decide) (by decide) (by decide)).2.2.2.1⟩

/-- C8. On a reachable base and for a valid number `p`, after `phfwdRemove p` no node whose
path begins with `p` carries a forward target and no inverse list contains a string that
begins with `p`; so no active rule `a → b` with `p` a beginning of `a` remains on either
index. -/
theorem phfwdRemove_clears (pf : PhoneForward) (hr : Reachable pf) (p : Str)
    (hp : ValidNumber p) :
    (∀ q, p <+: q → fwdToAt (phfwdRemove pf (some p)) q = none) ∧
    (∀ b x, x ∈ fwdFromAt (phfwdRemove pf (some p)) b → ¬ p <+: x) ∧
    (∀ a b, p <+: a → ¬ ActiveRule (phfwdRemove pf (some p)) a b ∧
      a ∉ fwdFromAt (phfwdRemove pf (some p)) b) := by
  obtain ⟨s1, s2, -, -⟩ := phfwdRemove_obs pf p (inv_of_reachable pf hr) hp
  have h1 : ∀ q, p <+: q → fwdToAt (phfwdRemove pf (some p)) q = none := by
    intro q hq
    rw [s1, if_pos hq]
  have h2 : ∀ b x, x ∈ fwdFromAt (phfwdRemove pf (some p)) b → ¬ p <+: x := by
    intro b x hx
    rw [s2] at hx
    simpa using (List.mem_filter.1 hx).2
  refine ⟨h1, h2, ?_⟩
  intro a b hpa
  refine ⟨?_, fun hx => h2 b a hx hpa⟩
  rintro ⟨-, hab⟩
  rw [h1 a hpa] at hab
  cases hab

/-- C8 at work: the rule `123 → 45` and `phfwdRemove "12"`. -/
theorem phfwdRemove_clears_witness :
    Reachable (phfwdAdd phfwdNew (some (ofString "123")) (some (ofString "45"))).1 ∧
    ValidNumber (ofString "12") ∧
    fwdToAt (phfwdRemove (phfwdAdd phfwdNew (some (ofString "123")) (some (ofString "45"))).1
      (some (ofString "12"))) (ofString "123") = none :=
  ⟨Reachable.add _ _ _ Reachable.new, by decide,
   (phfwdRemove_clears _ (Reachable.add _ _ _ Reachable.new) (ofString "12") (by decide)).1
     (ofString "123") (by decide)⟩

/-- C9. On a reachable base, for a valid number `p` and an active rule `a → b` such that `p`
is not a beginning of `a` (whether or not it is a beginning of `b`), after `phfwdRemove p` the
node at path `a` still exists with forward target `b` and the node at path `b` still exists
with `a` in its inverse list. -/
theorem phfwdRemove_keeps_other_rules (pf : PhoneForward) (hr : Reachable pf) (p a b : Str)
    (hp : ValidNumber p) (hab : ActiveRule pf a b) (hpa : ¬ p <+: a) :
    nullAt (phfwdRemove pf (some p)) a = false ∧
    fwdToAt (phfwdRemove pf (some p)) a = some b ∧
    nullAt (phfwdRemove pf (some p)) b = false ∧
    a ∈ fwdFromAt (phfwdRemove pf (some p)) b := by
  have hinv := inv_of_reachable pf hr
  obtain ⟨s1, s2, -, -⟩ := phfwdRemove_obs pf p hinv hp
  have h1 : fwdToAt (phfwdRemove pf (some p)) a = some b := by
    rw [s1, if_neg hpa]; exact hab.2
  have h2 : a ∈ fwdFromAt (phfwdRemove pf (some p)) b := by
    rw [s2]
    exact List.mem_filter.2 ⟨(hinv.toFrom a b hab.2).2.2, by simpa using hpa⟩
  exact ⟨nullAt_of_fwdToAt _ a b h1, h1, nullAt_of_mem_fwdFromAt _ a b h2, h2⟩

/-- C9 at work: the rule `5 → 12` survives `phfwdRemove "1"`. -/
theorem phfwdRemove_keeps_other_rules_witness :
    Reachable (phfwdAdd phfwdNew (some (ofString "5")) (some (ofString "12"))).1 ∧
    ValidNumber (ofString "1") ∧
    ActiveRule (phfwdAdd phfwdNew (some (ofString "5")) (some (ofString "12"))).1
      (ofString "5") (ofString "12") ∧
    ¬ ofString "1" <+: ofString "5" ∧
    fwdToAt (phfwdRemove (phfwdAdd phfwdNew (some (ofString "5")) (some (ofString "12"))).1
      (some (ofString "1"))) (ofString "5") = some (ofString "12") :=
  ⟨Reachable.add _ _ _ Reachable.new, by decide, ⟨by decide, by decide⟩, by decide,
   (phfwdRemove_keeps_other_rules _ (Reachable.add _ _ _ Reachable.new) (ofString "1")
     (ofString "5") (ofString "12") (by decide) ⟨by decide, by decide⟩ (by decide)).2.1⟩

/-- C10. On a reachable base and for every string `p`: if `p` is not a valid number, or no
node exists at path `p`, or no active rule has a source that begins with `p`, then
`phfwdRemove p` returns the same tree (same nodes, forward targets and inverse lists). -/
theorem phfwdRemove_noop (pf : PhoneForward) (hr : Reachable pf) (p : Option Str)
    (h : ¬ IsNumber p ∨ (∃ n, p = some n ∧ nullAt pf n = true) ∨
      (∃ n, p = some n ∧ ∀ a b, n <+: a → ¬ ActiveRule pf a b)) :
    phfwdRemove pf p = pf := by
  have hinv := inv_of_reachable pf hr
  by_cases hv : IsNumber p
  · obtain ⟨n, rfl, hn⟩ := hv
    have hnone : ∀ a, n <+: a → fwdToAt pf a = none := by
      rcases h with h | ⟨m, hm, hnull⟩ | ⟨m, hm, hrule⟩
      · exact absurd ⟨n, rfl, hn⟩ h
      · simp only [Option.some.injEq] at hm
        subst hm
        intro a ha
        unfold fwdToAt
        rw [sub_of_nullAt_le pf n a hnull ha]; rfl
      · simp only [Option.some.injEq] at hm
        subst hm
        intro a ha
        cases hf : fwdToAt pf a with
        | none => rfl
        | some b =>
          have ha0 : a ≠ [] := by
            rintro rfl
            exact hn.1 (List.prefix_nil.1 ha)
          exact absurd ⟨ha0, hf⟩ (hrule a b ha)
    obtain ⟨s1, s2, s3, s4⟩ := phfwdRemove_obs pf n hinv hn
    apply eq_of_fields _ _ s4 hinv.root s3 hinv.noEmpty
    · intro q
      have := s1 q
      unfold fwdToAt at this
      rw [this]
      by_cases hq : n <+: q
      · rw [if_pos hq]; exact (hnone q hq).symm
      · rw [if_neg hq]
    · intro q
      have := s2 q
      unfold fwdFromAt at this
      rw [this, List.filter_eq_self]
      intro x hx
      simp only [decide_eq_true_eq]
      intro hnx
      have := hinv.fromTo x q hx
      rw [hnone x hnx] at this
      cases this
  · exact phfwdRemove_of_not_valid pf p hv

/-- C10 at work: `phfwdRemove "7"` on the base with the single rule `123 → 45`. -/
theorem phfwdRemove_noop_witness :
    Reachable (phfwdAdd phfwdNew (some (ofString "123")) (some (ofString "45"))).1 ∧
    nullAt (phfwdAdd phfwdNew (some (ofString "123")) (some (ofString "45"))).1
      (ofString "7") = true ∧
    phfwdRemove (phfwdAdd phfwdNew (some (ofString "123")) (some (ofString "45"))).1
      (some (ofString "7")) =
      (phfwdAdd phfwdNew (some (ofString "123")) (some (ofString "45"))).1 :=
  ⟨Reachable.add _ _ _ Reachable.new, by decide,
   phfwdRemove_noop _ (Reachable.add _ _ _ Reachable.new) (some (ofString "7"))
     (Or.inr (Or.inl ⟨ofString "7", rfl, by decide⟩))⟩

/-! ## Reverse lookup on bases that satisfy the invariant -/

/-- Under the invariant, the reverse lookup of `n` consists of `n` and of the strings
`a ++ s` for the active rules `a → b` with `n = b ++ s`. -/
theorem mem_phfwdReverse_iff (pf : PhoneForward) (h : Inv pf) (n : Str) (hn : ValidNumber n)
    (m : Str) :
    m ∈ phfwdReverse pf (some n) ↔
      m = n ∨ ∃ a b s, ActiveRule pf a b ∧ n = b ++ s ∧ m = a ++ s := by
  rw [phfwdReverse_valid pf n hn, mem_phfwdReverseLoop]
  constructor
  · rintro (hm | ⟨u, s, x, -, hns, hx, hm⟩)
    · exact Or.inl (List.mem_singleton.1 hm)
    · have hx' : fwdToAt pf x = some u := h.fromTo x u hx
      have hx0 : x ≠ [] := by
        rintro rfl
        rw [fwdToAt_nil, h.rootTo] at hx'
        cases hx'
      exact Or.inr ⟨x, u, s, ⟨hx0, hx'⟩, hns, hm⟩
  · rintro (hm | ⟨a, b, s, hab, hns, hm⟩)
    · exact Or.inl (List.mem_singleton.2 hm)
    · obtain ⟨hb, -, hmem⟩ := h.toFrom a b hab.2
      exact Or.inr ⟨b, s, a, hb.1, hns, hmem, hm⟩

theorem nodup_phfwdReverse (pf : PhoneForward) (n : Str) (hn : ValidNumber n) :
    (phfwdReverse pf (some n)).Nodup := by
  rw [phfwdReverse_valid pf n hn]
  have hp : (phfwdReverseLoop n pf [n]).Pairwise (fun x y => strcmp x y < 0) :=
    pairwise_phfwdReverseLoop n pf [n] (List.pairwise_singleton _ _)
  exact hp.imp (fun {a b} hab heq => by
    subst heq; exact strcmp_lt_irrefl a hab)

/-- C2. On a reachable base and for a valid number `n`, a string `m` occurs in
`phfwdReverse n` if and only if `m = n` or there are an active rule `a → b` and a (possibly
empty) suffix `s` with `n = b ++ s` and `m = a ++ s`; and the length of the result is the
number of distinct such strings. -/
theorem phfwdReverse_spec (pf : PhoneForward) (hr : Reachable pf) (n : Str)
    (hn : ValidNumber n) :
    (∀ m, m ∈ phfwdReverse pf (some n) ↔
      m = n ∨ ∃ a b s, ActiveRule pf a b ∧ n = b ++ s ∧ m = a ++ s) ∧
    (∀ S : Finset Str,
      (∀ m, m ∈ S ↔ m = n ∨ ∃ a b s, ActiveRule pf a b ∧ n = b ++ s ∧ m = a ++ s) →
      (phfwdReverse pf (some n)).length = S.card) := by
  have hinv := inv_of_reachable pf hr
  refine ⟨mem_phfwdReverse_iff pf hinv n hn, ?_⟩
  intro S hS
  have hS' : S = (phfwdReverse pf (some n)).toFinset := by
    ext m
    rw [hS, List.mem_toFinset, mem_phfwdReverse_iff pf hinv n hn]
  rw [hS', List.toFinset_card_of_nodup (nodup_phfwdReverse pf n hn)]

/-- C2 at work: with the rules `123 → 45` and `678 → 123`, `phfwdReverse "45"` contains
`"123"`. -/
theorem phfwdReverse_spec_witness :
    Reachable (phfwdAdd (phfwdAdd phfwdNew (some (ofString "123")) (some (ofString "45"))).1
      (some (ofString "678")) (some (ofString "123"))).1 ∧
    ValidNumber (ofString "45") ∧
    ofString "123" ∈ phfwdReverse (phfwdAdd (phfwdAdd phfwdNew (some (ofString "123"))
      (some (ofString "45"))).1 (some (ofString "678")) (some (ofString "123"))).1
      (some (ofString "45")) :=
  ⟨Reachable.add _ _ _ (Reachable.add _ _ _ Reachable.new), by decide,
   ((phfwdReverse_spec _ (Reachable.add _ _ _ (Reachable.add _ _ _ Reachable.new))
      (ofString "45") (by decide)).1 (ofString "123")).2
     (Or.inr ⟨ofString "123", ofString "45", [], ⟨by decide, by decide⟩, by decide,
       by decide⟩)⟩

/-- C7, as stated, fails: on the reachable base with the rule `1 → 3`, after
`phfwdAdd "12" "32"` and `phfwdAdd "12" "4"` the list `phfwdReverse "32"` still contains
`"12"`, through the rule `1 → 3`. -/
theorem phfwdAdd_override_counterexample :
    Reachable (phfwdAdd phfwdNew (some (ofString "1")) (some (ofString "3"))).1 ∧
    ValidNumber (ofString "12") ∧ ValidNumber (ofString "32") ∧ ValidNumber (ofString "4") ∧
    ofString "12" ≠ ofString "32" ∧ ofString "12" ≠ ofString "4" ∧
    ofString "32" ≠ ofString "4" ∧
    ofString "12" ∈ phfwdReverse (phfwdAdd (phfwdAdd
      (phfwdAdd phfwdNew (some (ofString "1")) (some (ofString "3"))).1
      (some (ofString "12")) (some (ofString "32"))).1
      (some (ofString "12")) (some (ofString "4"))).1 (some (ofString "32")) :=
  ⟨Reachable.add _ _ _ Reachable.new, by decide, by decide, by decide, by decide, by decide,
   by decide, by decide⟩

/-- C7, amended. On a reachable base and for valid numbers `a`, `b`, `c`, pairwise different,
after `phfwdAdd a b` followed by `phfwdAdd a c`: the inverse list at path `b` does not contain
`a` (or the node is gone), the inverse list at path `c` contains `a` exactly once,
`phfwdGet a` returns `[c]`, and `phfwdReverse b` contains `a` exactly when some active rule
`a1 → b1` and some non-empty suffix `s` give `a = a1 ++ s` and `b = b1 ++ s`. -/
theorem phfwdAdd_override (pf : PhoneForward) (hr : Reachable pf) (a b c : Str)
    (ha : ValidNumber a) (hb : ValidNumber b) (hc : ValidNumber c)
    (hab : a ≠ b) (hac : a ≠ c) (hbc : b ≠ c) :
    a ∉ fwdFromAt (phfwdAdd (phfwdAdd pf (some a) (some b)).1 (some a) (some c)).1 b ∧
    (fwdFromAt (phfwdAdd (phfwdAdd pf (some a) (some b)).1 (some a) (some c)).1 c).count a = 1 ∧
    phfwdGet (phfwdAdd (phfwdAdd pf (some a) (some b)).1 (some a) (some c)).1 (some a) = [c] ∧
    (a ∈ phfwdReverse (phfwdAdd (phfwdAdd pf (some a) (some b)).1 (some a) (some c)).1 (some b) ↔
      ∃ a1 b1 s, s ≠ [] ∧
        ActiveRule (phfwdAdd (phfwdAdd pf (some a) (some b)).1 (some a) (some c)).1 a1 b1 ∧
        b = b1 ++ s ∧ a = a1 ++ s) := by
  have hinv := inv_of_reachable pf hr
  have hinv1 := inv_phfwdAdd_valid pf a b ha hb hab hinv
  have hinv2 := inv_phfwdAdd_valid _ a c ha hc hac hinv1
  obtain ⟨t1, -, -, -⟩ := phfwdAdd_spec pf a b ha hb hab hinv.root
  have hold : fwdToAt (phfwdAdd pf (some a) (some b)).1 a = some b := by rw [t1]; simp
  obtain ⟨s1, s2, -, -⟩ := phfwdAdd_spec _ a c ha hc hac hinv1.root
  have hnb := not_mem_base _ hinv1 a b
  have hnc := not_mem_base _ hinv1 a c
  generalize (phfwdAdd pf (some a) (some b)).1 = pf1 at *
  have hget : fwdToAt (phfwdAdd pf1 (some a) (some c)).1 a = some c := by rw [s1]; simp
  refine ⟨?_, ?_, phfwdGet_of_fwdToAt _ a c ha hget, ?_⟩
  · rw [s2, if_neg hbc]
    exact hnb
  · rw [s2, if_pos rfl, List.count_cons_self, List.count_eq_zero_of_not_mem hnc]
  · rw [mem_phfwdReverse_iff _ hinv2 b hb a]
    constructor
    · rintro (h | ⟨a1, b1, s, hrule, h1, h2⟩)
      · exact absurd h hab
      · refine ⟨a1, b1, s, ?_, hrule, h1, h2⟩
        rintro rfl
        simp only [List.append_nil] at h1 h2
        subst h1; subst h2
        have := hrule.2
        rw [hget] at this
        simp only [Option.some.injEq] at this
        exact hbc this.symm
    · rintro ⟨a1, b1, s, -, hrule, h1, h2⟩
      exact Or.inr ⟨a1, b1, s, hrule, h1, h2⟩

/-- C7, amended, at work: `phfwdAdd "0" "1"` then `phfwdAdd "0" "2"` on a new base. -/
theorem phfwdAdd_override_witness :
    Reachable phfwdNew ∧ ValidNumber (ofString "0") ∧ ValidNumber (ofString "1") ∧
    ValidNumber (ofString "2") ∧ ofString "0" ≠ ofString "1" ∧ ofString "0" ≠ ofString "2" ∧
    ofString "1" ≠ ofString "2" ∧
    phfwdGet (phfwdAdd (phfwdAdd phfwdNew (some (ofString "0")) (some (ofString "1"))).1
      (some (ofString "0")) (some (ofString "2"))).1 (some (ofString "0")) = [ofString "2"] :=
  ⟨Reachable.new, by decide, by decide, by decide, by decide, by decide, by decide,
   (phfwdAdd_override phfwdNew Reachable.new (ofString "0") (ofString "1") (ofString "2")
     (by decide) (by decide) (by decide) (by decide) (by decide) (by decide)).2.2.1⟩

/-! ## Powers modulo the word size -/

theorem one_lt_two_pow_SIZE_BITS : 1 < 2 ^ SIZE_BITS := by
  have : 0 < SIZE_BITS := by decide
  exact Nat.one_lt_two_pow (by omega)

/-- The loop of `myPow` ends within `exponent` iterations and multiplies `result` by
`base ^ exponent` modulo the word size. -/
theorem myPowLoop_spec (fuel : Nat) :
    ∀ result base exponent, exponent ≤ fuel →
      ∃ v, myPowLoop fuel result base exponent = some v ∧
        v % 2 ^ SIZE_BITS = (result * base ^ exponent) % 2 ^ SIZE_BITS ∧
        (result < 2 ^ SIZE_BITS → v < 2 ^ SIZE_BITS) := by
  induction fuel with
  | zero =>
    intro result base exponent he
    have : exponent = 0 := by omega
    subst this
    exact ⟨result, by simp [myPowLoop], by simp, fun h => h⟩
  | succ fuel ih =>
    intro result base exponent he
    by_cases h0 : exponent = 0
    · subst h0
      exact ⟨result, by simp [myPowLoop], by simp, fun h => h⟩
    · rw [myPowLoop]
      simp only [h0, if_false]
      have hM : 0 < 2 ^ SIZE_BITS := by positivity
      by_cases hodd : exponent % 2 = 1
      · simp only [hodd, if_true]
        obtain ⟨v, hv, hmod, hlt⟩ := ih ((result * base) % 2 ^ SIZE_BITS) base (exponent - 1)
          (by omega)
        refine ⟨v, hv, ?_, fun _ => hlt (Nat.mod_lt _ hM)⟩
        rw [hmod, Nat.mul_mod, Nat.mod_mod, ← Nat.mul_mod]
        have : exponent = (exponent - 1) + 1 := by omega
        conv_rhs => rw [this, pow_succ]
        congr 1
        ring
      · simp only [hodd, if_false]
        obtain ⟨v, hv, hmod, hlt⟩ := ih result ((base * base) % 2 ^ SIZE_BITS) (exponent / 2)
          (by omega)
        refine ⟨v, hv, ?_, hlt⟩
        rw [hmod, Nat.mul_mod, Nat.pow_mod, Nat.mod_mod, ← Nat.pow_mod, ← Nat.mul_mod]
        have h2 : exponent = 2 * (exponent / 2) := by omega
        conv_rhs => rw [h2, pow_mul]
        congr 3
        ring

/-- The function `myPow` computes the power modulo the word size. -/
theorem myPow_eq (base exponent : Nat) : myPow base exponent = base ^ exponent % 2 ^ SIZE_BITS := by
  obtain ⟨v, hv, hmod, hlt⟩ := myPowLoop_spec exponent 1 base exponent (le_refl _)
  unfold myPow
  rw [hv]
  simp only [Option.getD_some]
  rw [← Nat.mod_eq_of_lt (hlt one_lt_two_pow_SIZE_BITS), hmod, one_mul]

/-! ## The set of digits of `getSimplifiedSet` -/

/-- Number of digits marked in a bitmap. -/
theorem card_filter_update (ss : Fin 12 → Bool) (k : Fin 12) (h : ss k = false) :
    (Finset.univ.filter (fun i => Function.update ss k true i = true)).card =
      (Finset.univ.filter (fun i => ss i = true)).card + 1 := by
  have : Finset.univ.filter (fun i => Function.update ss k true i = true) =
      insert k (Finset.univ.filter (fun i => ss i = true)) := by
    ext i
    simp only [Finset.mem_filter, Finset.mem_univ, true_and, Finset.mem_insert]
    by_cases hik : i = k
    · subst hik; simp
    · simp [Function.update_noteq hik, hik]
  rw [this, Finset.card_insert_of_not_mem]
  simp [h]

theorem all_true_of_card (ss : Fin 12 → Bool)
    (h : 12 ≤ (Finset.univ.filter (fun i => ss i = true)).card) : ∀ i, ss i = true := by
  have hle : (Finset.univ.filter (fun i => ss i = true)).card ≤ (Finset.univ : Finset (Fin 12)).card :=
    Finset.card_le_card (Finset.filter_subset _ _)
  have hcard : (Finset.univ : Finset (Fin 12)).card = 12 := by simp
  have heq : Finset.univ.filter (fun i => ss i = true) = Finset.univ :=
    Finset.eq_of_subset_of_card_le (Finset.filter_subset _ _) (by rw [hcard]; exact h)
  intro i
  have : i ∈ Finset.univ.filter (fun i => ss i = true) := by rw [heq]; exact Finset.mem_univ i
  simpa using this

/-- The loop of `getSimplifiedSet` marks exactly the digits that occur in the string. -/
theorem getSimplifiedSetLoop_spec (set : Str) :
    ∀ (n : Nat) (ss : Fin 12 → Bool), n = (Finset.univ.filter (fun i => ss i = true)).card →
      ∀ i : Fin 12, getSimplifiedSetLoop set n ss i = true ↔ ss i = true ∨ i.val + 48 ∈ set := by
  induction set with
  | nil => intro n ss _ i; simp [getSimplifiedSetLoop]
  | cons c rest ih =>
    intro n ss hn i
    rw [getSimplifiedSetLoop]
    by_cases hlt : n < NUMBER_OF_DIGITS
    · simp only [hlt, if_true]
      by_cases hd : isDigit c = true
      · simp only [hd, dite_true]
        have hd' := hd
        simp only [isDigit, Bool.and_eq_true, decide_eq_true_eq] at hd'
        have hk : (charDigitToInt c).toNat = c - 48 := by unfold charDigitToInt; omega
        by_cases hs : ss ⟨(charDigitToInt c).toNat, by unfold charDigitToInt; omega⟩ = false
        · simp only [hs, if_true]
          rw [ih (n + 1) _ (by rw [card_filter_update ss _ hs, hn]) i]
          simp only [List.mem_cons]
          by_cases hik : i = ⟨(charDigitToInt c).toNat, by unfold charDigitToInt; omega⟩
          · have hval : i.val + 48 = c := by rw [hik]; simp only [hk]; omega
            subst hik
            simp [hval]
          · have hval : i.val + 48 ≠ c := by
              intro e
              apply hik
              apply Fin.ext
              simp only [hk]; omega
            simp [Function.update_noteq hik, hval]
        · rw [if_neg hs, ih n ss hn i]
          simp only [List.mem_cons]
          constructor
          · rintro (h | h)
            · exact Or.inl h
            · exact Or.inr (Or.inr h)
          · rintro (h | h | h)
            · exact Or.inl h
            · left
              have hik : i = ⟨(charDigitToInt c).toNat, by unfold charDigitToInt; omega⟩ := by
                apply Fin.ext
                simp only [hk]; omega
              rw [hik]
              simpa using hs
            · exact Or.inr h
      · rw [dif_neg hd, ih n ss hn i]
        simp only [List.mem_cons]
        have hne : i.val + 48 ≠ c := by
          intro e
          apply hd
          simp only [isDigit, Bool.and_eq_true, decide_eq_true_eq]
          have := i.isLt
          omega
        simp [hne]
    · simp only [hlt, if_false]
      have hall := all_true_of_card ss (by rw [← hn]; simpa [NUMBER_OF_DIGITS] using hlt)
      simp [hall i]

theorem getSimplifiedSet_spec (set : Str) (i : Fin 12) :
    getSimplifiedSet set (fun _ => false) i = true ↔ i.val + 48 ∈ set := by
  unfold getSimplifiedSet
  rw [getSimplifiedSetLoop_spec set 0 (fun _ => false) (by simp) i]
  simp

/-! ## Counting the strings with a source -/

theorem hasSource_null (w : Str) : hasSource null w = false := by
  induction w with
  | nil => rfl
  | cons c w ih => simp [hasSource, fwdFromOf, getChild_null, ih]

theorem hasSource_of_fwdFrom (t : PhoneForward) (w : Str) (h : (fwdFromOf t).isEmpty = false) :
    hasSource t w = true := by
  cases w <;> simp [hasSource, h]

theorem hasSource_cons_of_empty (t : PhoneForward) (c : Nat) (w : Str)
    (h : (fwdFromOf t).isEmpty = true) :
    hasSource t (c :: w) = hasSource (getChild t (charDigitToInt c)) w := by
  simp [hasSource, h]

theorem length_consAll (A : List Nat) (W : List Str) :
    (consAll A W).length = A.length * W.length := by
  induction A with
  | nil => simp [consAll]
  | cons c rest ih =>
    simp only [consAll, List.length_append, List.length_map, ih, List.length_cons]
    ring

theorem length_wordsOver (A : List Nat) (k : Nat) : (wordsOver A k).length = A.length ^ k := by
  induction k with
  | zero => simp [wordsOver]
  | succ k ih => rw [wordsOver, length_consAll, ih, pow_succ]; ring

theorem countP_consAll (t : PhoneForward) (h : (fwdFromOf t).isEmpty = true) (A : List Nat)
    (W : List Str) :
    (consAll A W).countP (hasSource t) =
      (A.map (fun c => W.countP (hasSource (getChild t (charDigitToInt c))))).sum := by
  induction A with
  | nil => simp [consAll]
  | cons c rest ih =>
    simp only [consAll, List.countP_append, List.countP_map, ih, List.map_cons, List.sum_cons]
    congr 1
    apply List.countP_congr
    intro w _
    simp [hasSource_cons_of_empty t c w h]

theorem countP_hasSource_of_fwdFrom (t : PhoneForward) (h : (fwdFromOf t).isEmpty = false)
    (W : List Str) : W.countP (hasSource t) = W.length := by
  rw [List.countP_eq_length]
  intro w _
  exact hasSource_of_fwdFrom t w h

theorem countP_hasSource_null (W : List Str) : W.countP (hasSource null) = 0 := by
  rw [List.countP_eq_zero]
  intro w _
  simp [hasSource_null]

/-- The number of marked digits, as counted by `phfwdNonTrivialCount`. -/
theorem setSize_eq (ss : Fin 12 → Bool) (l : List (Fin 12)) (n : Nat) :
    l.foldl (fun n i => if ss i = true then n + 1 else n) n =
      n + (l.filter (fun i => ss i)).length := by
  induction l generalizing n with
  | nil => simp
  | cons i rest ih =>
    simp only [List.foldl_cons, List.filter_cons]
    by_cases h : ss i = true
    · simp only [h, if_true, ih, List.length_cons]; omega
    · simp only [h, if_false, ih, Bool.false_eq_true]

theorem length_alphabet (ss : Fin 12 → Bool) :
    (alphabet ss).length = ((List.finRange 12).filter (fun i => ss i)).length := by
  simp [alphabet]

/-- The loop of `countNonTrivialRec` over child slots adds up the counts of the marked
children. -/
theorem count_children_fold (ss : Fin 12 → Bool) (g : Fin 12 → Nat → Nat) (N : Fin 12 → Nat)
    (hg : ∀ i counter, counter < 2 ^ SIZE_BITS → g i counter = (counter + N i) % 2 ^ SIZE_BITS)
    (l : List (Fin 12)) (counter : Nat) (hc : counter < 2 ^ SIZE_BITS) :
    l.foldl (fun cnt i => if ss i = true then g i cnt else cnt) counter =
      (counter + ((l.filter (fun i => ss i)).map N).sum) % 2 ^ SIZE_BITS := by
  have hM : 0 < 2 ^ SIZE_BITS := by positivity
  induction l generalizing counter with
  | nil => simp [Nat.mod_eq_of_lt hc]
  | cons i rest ih =>
    simp only [List.foldl_cons, List.filter_cons]
    by_cases h : ss i = true
    · simp only [h, if_true, List.map_cons, List.sum_cons]
      rw [hg i counter hc, ih _ (Nat.mod_lt _ hM), Nat.add_mod, Nat.mod_mod, ← Nat.add_mod]
      congr 1
      omega
    · simp only [h, if_false, Bool.false_eq_true]
      exact ih counter hc

/-- The function `countNonTrivialRec` adds to the counter, modulo the word size, the number of
strings of length `len - depth` over the marked digits that have a source on their path from
the node. -/
theorem countNonTrivialRec_spec (ss : Fin 12 → Bool) (len : Nat) (t : PhoneForward) :
    ∀ depth counter, counter < 2 ^ SIZE_BITS →
      countNonTrivialRec t depth len (alphabet ss).length ss counter =
        if depth ≤ len then
          (counter + (wordsOver (alphabet ss) (len - depth)).countP (hasSource t)) % 2 ^ SIZE_BITS
        else counter := by
  induction t with
  | null =>
    intro depth counter hc
    rw [countNonTrivialRec]
    simp [countP_hasSource_null, Nat.mod_eq_of_lt hc]
  | node cs f l ih =>
    intro depth counter hc
    rw [countNonTrivialRec]
    by_cases hd : depth ≤ len
    · simp only [hd, if_true]
      by_cases hl : (!l.isEmpty) = true
      · simp only [hl, if_true]
        have hl' : (fwdFromOf (node cs f l)).isEmpty = false := by simpa [fwdFromOf] using hl
        rw [countP_hasSource_of_fwdFrom _ hl', length_wordsOver, myPow_eq, Nat.add_mod,
          Nat.mod_mod, ← Nat.add_mod]
      · simp only [hl, if_false, Bool.false_eq_true]
        have hl' : (fwdFromOf (node cs f l)).isEmpty = true := by simpa [fwdFromOf] using hl
        rw [count_children_fold ss
          (fun i cnt => countNonTrivialRec (cs i) (depth + 1) len (alphabet ss).length ss cnt)
          (fun i => if depth + 1 ≤ len then
            (wordsOver (alphabet ss) (len - (depth + 1))).countP (hasSource (cs i)) else 0)
          (by
            intro i cnt hcnt
            dsimp only
            rw [ih i (depth + 1) cnt hcnt]
            by_cases h1 : depth + 1 ≤ len
            · simp only [h1, if_true]
            · simp only [h1, if_false, Nat.add_zero, Nat.mod_eq_of_lt hcnt])
          (List.finRange 12) counter hc]
        congr 2
        by_cases h1 : depth + 1 ≤ len
        · simp only [h1, if_true]
          have hk : len - depth = (len - (depth + 1)) + 1 := by omega
          rw [hk, wordsOver, countP_consAll _ hl', alphabet, List.map_map]
          congr 1
          apply List.map_congr_left
          intro i _
          simp only [Function.comp]
          rw [getChild_node_inRange]
        · simp only [h1, if_false]
          have hk : len - depth = 0 := by omega
          rw [hk, wordsOver]
          simp [hasSource, hl']
    · simp only [hd, if_false]

/-! ## The non-trivial count -/

theorem mem_alphabet (ss : Fin 12 → Bool) (c : Nat) :
    c ∈ alphabet ss ↔ ∃ i : Fin 12, ss i = true ∧ c = i.val + 48 := by
  simp only [alphabet, List.mem_map, List.mem_filter, List.mem_finRange, true_and]
  constructor
  · rintro ⟨i, hi, rfl⟩; exact ⟨i, hi, rfl⟩
  · rintro ⟨i, hi, rfl⟩; exact ⟨i, hi, rfl⟩

theorem nodup_alphabet (ss : Fin 12 → Bool) : (alphabet ss).Nodup := by
  unfold alphabet
  apply List.Nodup.map
  · intro i j hij
    apply Fin.ext
    simp only at hij
    omega
  · exact (List.nodup_finRange 12).filter _

theorem mem_consAll (A : List Nat) (W : List Str) (w : Str) :
    w ∈ consAll A W ↔ ∃ c v, c ∈ A ∧ v ∈ W ∧ w = c :: v := by
  induction A with
  | nil => simp [consAll]
  | cons a rest ih =>
    simp only [consAll, List.mem_append, List.mem_map, ih, List.mem_cons]
    constructor
    · rintro (⟨v, hv, rfl⟩ | ⟨c, v, hc, hv, rfl⟩)
      · exact ⟨a, v, Or.inl rfl, hv, rfl⟩
      · exact ⟨c, v, Or.inr hc, hv, rfl⟩
    · rintro ⟨c, v, (rfl | hc), hv, rfl⟩
      · exact Or.inl ⟨v, hv, rfl⟩
      · exact Or.inr ⟨c, v, hc, hv, rfl⟩

theorem mem_wordsOver (A : List Nat) (k : Nat) (w : Str) :
    w ∈ wordsOver A k ↔ w.length = k ∧ ∀ c ∈ w, c ∈ A := by
  induction k generalizing w with
  | zero =>
    simp only [wordsOver, List.mem_singleton]
    constructor
    · rintro rfl; simp
    · rintro ⟨h, -⟩; exact List.length_eq_zero.1 h
  | succ k ih =>
    rw [wordsOver, mem_consAll]
    constructor
    · rintro ⟨c, v, hc, hv, rfl⟩
      obtain ⟨h1, h2⟩ := (ih v).1 hv
      refine ⟨by simp [h1], ?_⟩
      intro x hx
      rcases List.mem_cons.1 hx with rfl | hx
      · exact hc
      · exact h2 x hx
    · rintro ⟨h1, h2⟩
      cases w with
      | nil => simp at h1
      | cons c v =>
        refine ⟨c, v, h2 c (List.mem_cons_self _ _), (ih v).2 ⟨by simpa using h1, ?_⟩, rfl⟩
        intro x hx
        exact h2 x (List.mem_cons_of_mem _ hx)

theorem nodup_consAll (A : List Nat) (W : List Str) (hA : A.Nodup) (hW : W.Nodup) :
    (consAll A W).Nodup := by
  induction A with
  | nil => simp [consAll]
  | cons a rest ih =>
    rw [List.nodup_cons] at hA
    simp only [consAll]
    rw [List.nodup_append]
    refine ⟨hW.map (fun x y h => by simpa using h), ih hA.2, ?_⟩
    intro w h1 h2
    obtain ⟨v, -, rfl⟩ := List.mem_map.1 h1
    obtain ⟨c, u, hc, -, he⟩ := (mem_consAll rest W _).1 h2
    simp only [List.cons.injEq] at he
    exact hA.1 (he.1 ▸ hc)

theorem nodup_wordsOver (A : List Nat) (hA : A.Nodup) (k : Nat) : (wordsOver A k).Nodup := by
  induction k with
  | zero => simp [wordsOver]
  | succ k ih => exact nodup_consAll A _ hA ih

theorem hasSource_iff (t : PhoneForward) (w : Str) :
    hasSource t w = true ↔ ∃ u s, w = u ++ s ∧ fwdFromOf (sub t u) ≠ [] := by
  induction w generalizing t with
  | nil =>
    simp only [hasSource, Bool.not_eq_true', List.isEmpty_eq_false]
    constructor
    · intro h; exact ⟨[], [], rfl, h⟩
    · rintro ⟨u, s, hus, h⟩
      have : u = [] := by
        cases u with
        | nil => rfl
        | cons c u => simp at hus
      subst this
      exact h
  | cons c w ih =>
    simp only [hasSource, Bool.or_eq_true, Bool.not_eq_true', List.isEmpty_eq_false, ih]
    constructor
    · rintro (h | ⟨u, s, hus, h⟩)
      · exact ⟨[], c :: w, rfl, h⟩
      · exact ⟨c :: u, s, by simp [hus], h⟩
    · rintro ⟨u, s, hus, h⟩
      cases u with
      | nil => exact Or.inl h
      | cons e u =>
        simp only [List.cons_append, List.cons.injEq] at hus
        obtain ⟨rfl, hw⟩ := hus
        exact Or.inr ⟨u, s, hw, h⟩

/-- Under the invariant, a string of digits is non-trivial exactly when some node on its
path has a non-empty inverse list. -/
theorem nonTrivial_iff_hasSource (pf : PhoneForward) (h : Inv pf) (w : Str)
    (hw : ∀ c ∈ w, InRange c) :
    (∃ m ∈ phfwdReverse pf (some w), m ≠ w) ↔ hasSource pf w = true := by
  rw [hasSource_iff]
  by_cases hw0 : w = []
  · subst hw0
    constructor
    · rintro ⟨m, hm, hne⟩
      simp [phfwdReverse, checkIfNumber, emptyPhnum] at hm
      exact absurd hm hne
    · rintro ⟨u, s, hus, hne⟩
      have : u = [] := by
        cases u with
        | nil => rfl
        | cons c u => simp at hus
      subst this
      exact absurd h.rootFrom hne
  · have hv : ValidNumber w := ⟨hw0, hw⟩
    constructor
    · rintro ⟨m, hm, hne⟩
      rcases (mem_phfwdReverse_iff pf h w hv m).1 hm with rfl | ⟨a, b, s, hab, hws, -⟩
      · exact absurd rfl hne
      · refine ⟨b, s, hws, ?_⟩
        intro he
        have := (h.toFrom a b hab.2).2.2
        unfold fwdFromAt at this
        rw [he] at this
        simp at this
    · rintro ⟨u, s, hus, hne⟩
      obtain ⟨x, hx⟩ := List.exists_mem_of_ne_nil _ hne
      have hxu : fwdToAt pf x = some u := h.fromTo x u hx
      have hx0 : x ≠ [] := by
        rintro rfl
        rw [fwdToAt_nil, h.rootTo] at hxu
        cases hxu
      refine ⟨x ++ s, (mem_phfwdReverse_iff pf h w hv _).2
        (Or.inr ⟨x, u, s, ⟨hx0, hxu⟩, hus, rfl⟩), ?_⟩
      rw [hus]
      intro he
      exact (h.toFrom x u hxu).2.1 (List.append_cancel_right he).symm

theorem countP_wordsOver_eq_zero (pf : PhoneForward) (h : fwdFromOf pf = []) (A : List Nat)
    (len : Nat) (hz : len = 0 ∨ A = []) : (wordsOver A len).countP (hasSource pf) = 0 := by
  cases len with
  | zero => simp [wordsOver, hasSource, h]
  | succ k =>
    rcases hz with hz | hz
    · omega
    · subst hz; simp [wordsOver, consAll]

theorem alphabet_eq_nil_of_nil : alphabet (getSimplifiedSet [] (fun _ => false)) = [] := by
  rw [List.eq_nil_iff_forall_not_mem]
  intro c hc
  obtain ⟨i, hi, -⟩ := (mem_alphabet _ c).1 hc
  rw [getSimplifiedSet_spec] at hi
  simp at hi

/-- The value of `phfwdNonTrivialCount` in terms of the strings over the digits of `set`. -/
theorem phfwdNonTrivialCount_eq (pf : PhoneForward) (h : Inv pf) (set : Option Str) (len : Nat) :
    phfwdNonTrivialCount pf set len =
      (wordsOver (alphabet (getSimplifiedSet (set.getD []) (fun _ => false))) len).countP
        (hasSource pf) % 2 ^ SIZE_BITS := by
  obtain ⟨cs, t, f, rfl⟩ := (isNull_eq_false_iff pf).1 h.root
  cases set with
  | none =>
    simp only [phfwdNonTrivialCount, Option.getD_none]
    rw [countP_wordsOver_eq_zero _ h.rootFrom _ _ (Or.inr alphabet_eq_nil_of_nil)]
    simp
  | some s =>
    simp only [phfwdNonTrivialCount, Option.getD_some]
    by_cases hz : len = 0 ∨ s = []
    · simp only [hz, if_true]
      have : len = 0 ∨ alphabet (getSimplifiedSet s (fun _ => false)) = [] := by
        rcases hz with hz | hz
        · exact Or.inl hz
        · right; rw [hz]; exact alphabet_eq_nil_of_nil
      rw [countP_wordsOver_eq_zero _ h.rootFrom _ _ this]
      simp
    · simp only [hz, if_false]
      rw [setSize_eq, Nat.zero_add, ← length_alphabet]
      by_cases hs : (alphabet (getSimplifiedSet s (fun _ => false))).length = 0
      · simp only [hs, if_true]
        rw [countP_wordsOver_eq_zero _ h.rootFrom _ _ (Or.inr (List.length_eq_zero.1 hs))]
        simp
      · simp only [hs, if_false]
        rw [countNonTrivialRec_spec _ len _ 0 0 (by positivity)]
        simp

/-- C4. On a reachable base, for every string `set` and every `len`,
`phfwdNonTrivialCount set len` equals, modulo `2 ^ SIZE_BITS`, the number of strings `w` of
length `len` whose characters are all digits occurring in `set` and for which
`phfwdReverse w` contains an element other than `w`. -/
theorem phfwdNonTrivialCount_spec (pf : PhoneForward) (hr : Reachable pf) (set : Option Str)
    (len : Nat) :
    phfwdNonTrivialCount pf set len =
      Set.ncard {w : Str | w.length = len ∧ (∀ c ∈ w, InRange c ∧ c ∈ set.getD []) ∧
        ∃ m ∈ phfwdReverse pf (some w), m ≠ w} % 2 ^ SIZE_BITS := by
  have hinv := inv_of_reachable pf hr
  rw [phfwdNonTrivialCount_eq pf hinv set len]
  congr 1
  have hA : ∀ c, c ∈ alphabet (getSimplifiedSet (set.getD []) (fun _ => false)) ↔
      InRange c ∧ c ∈ set.getD [] := by
    intro c
    rw [mem_alphabet]
    constructor
    · rintro ⟨i, hi, rfl⟩
      rw [getSimplifiedSet_spec] at hi
      refine ⟨?_, hi⟩
      have := i.isLt
      unfold InRange; omega
    · rintro ⟨hr, hc⟩
      unfold InRange at hr
      refine ⟨⟨c - 48, by omega⟩, ?_, by simp only; omega⟩
      rw [getSimplifiedSet_spec]
      have : c - 48 + 48 = c := by omega
      simp only [this]
      exact hc
  have hset : {w : Str | w.length = len ∧ (∀ c ∈ w, InRange c ∧ c ∈ set.getD []) ∧
      ∃ m ∈ phfwdReverse pf (some w), m ≠ w} =
      ↑(((wordsOver (alphabet (getSimplifiedSet (set.getD []) (fun _ => false))) len).filter
        (hasSource pf)).toFinset) := by
    ext w
    simp only [Set.mem_setOf_eq, Finset.mem_coe, List.mem_toFinset, List.mem_filter,
      mem_wordsOver]
    constructor
    · rintro ⟨h1, h2, h3⟩
      exact ⟨⟨h1, fun c hc => (hA c).2 (h2 c hc)⟩,
        (nonTrivial_iff_hasSource pf hinv w (fun c hc => (h2 c hc).1)).1 h3⟩
    · rintro ⟨⟨h1, h2⟩, h3⟩
      have h2' : ∀ c ∈ w, InRange c ∧ c ∈ set.getD [] := fun c hc => (hA c).1 (h2 c hc)
      exact ⟨h1, h2', (nonTrivial_iff_hasSource pf hinv w (fun c hc => (h2' c hc).1)).2 h3⟩
  rw [hset, Set.ncard_coe_Finset, List.toFinset_card_of_nodup
    ((nodup_wordsOver _ (nodup_alphabet _) len).filter _), List.countP_eq_length_filter]

/-- C4 at work on the base with the rule `00 → 1`, the set `"01"` and length 3. -/
theorem phfwdNonTrivialCount_spec_witness :
    Reachable (phfwdAdd phfwdNew (some (ofString "00")) (some (ofString "1"))).1 ∧
    (4 : Nat) = Set.ncard {w : Str | w.length = 3 ∧
      (∀ c ∈ w, InRange c ∧ c ∈ (some (ofString "01")).getD []) ∧
      ∃ m ∈ phfwdReverse (phfwdAdd phfwdNew (some (ofString "00")) (some (ofString "1"))).1
        (some w), m ≠ w} % 2 ^ SIZE_BITS :=
  ⟨Reachable.add _ _ _ Reachable.new,
   (by decide : phfwdNonTrivialCount (phfwdAdd phfwdNew (some (ofString "00"))
      (some (ofString "1"))).1 (some (ofString "01")) 3 = 4).symm.trans
     (phfwdNonTrivialCount_spec _ (Reachable.add _ _ _ Reachable.new) (some (ofString "01")) 3)⟩

/-! ## The invariants of a reachable base -/

/-- A node that is not empty holds a target, an inverse entry, or a child. -/
theorem content_of_not_empty (n : PhoneForward) (h1 : isNull n = false)
    (h2 : isNodeEmpty n = false) :
    fwdToOf n ≠ none ∨ fwdFromOf n ≠ [] ∨
      ∃ c, InRange c ∧ isNull (getChild n (charDigitToInt c)) = false := by
  by_contra hcon
  simp only [not_or, not_not, not_exists, not_and] at hcon
  obtain ⟨ht, hf, hc⟩ := hcon
  have : isNodeEmpty n = true := by
    rw [isNodeEmpty_iff]
    refine ⟨h1, ht, hf, ?_⟩
    intro c
    by_cases hr : InRange c
    · cases hn : isNull (getChild n (charDigitToInt c)) with
      | true => rfl
      | false => exact absurd hn (hc c hr)
    · rw [getChild_of_not_inRange _ _ hr]; rfl
  rw [this] at h2
  cases h2

/-- A string stored in an inverse list is a valid number, under the invariant. -/
theorem validNumber_of_mem_fwdFromAt (pf : PhoneForward) (h : Inv pf) (a b : Str)
    (hab : a ∈ fwdFromAt pf b) : ValidNumber a ∧ a ≠ b := by
  have hto := h.fromTo a b hab
  have hne : a ≠ [] := by
    rintro rfl
    rw [fwdToAt_nil, h.rootTo] at hto
    cases hto
  refine ⟨⟨hne, ?_⟩, fun e => (h.toFrom a b hto).2.1 e.symm⟩
  exact inRange_of_sub_node pf a (nullAt_of_fwdToAt pf a b hto)

/-- C11. In every reachable base the two indexes agree: the node at path `a` has forward
target `b` if and only if `a` occurs in the inverse list of the node at path `b`; and no
inverse list contains the same string twice. -/
theorem reachable_indexes_agree (pf : PhoneForward) (hr : Reachable pf) :
    (∀ a b, fwdToAt pf a = some b ↔ a ∈ fwdFromAt pf b) ∧
    (∀ b, (fwdFromAt pf b).Nodup) := by
  have hinv := inv_of_reachable pf hr
  exact ⟨fun a b => ⟨fun h => (hinv.toFrom a b h).2.2, hinv.fromTo a b⟩, hinv.nodup⟩

/-- C11 at work on the base with the rules `123 → 45` and `678 → 45`. -/
theorem reachable_indexes_agree_witness :
    Reachable (phfwdAdd (phfwdAdd phfwdNew (some (ofString "123")) (some (ofString "45"))).1
      (some (ofString "678")) (some (ofString "45"))).1 ∧
    (fwdFromAt (phfwdAdd (phfwdAdd phfwdNew (some (ofString "123")) (some (ofString "45"))).1
      (some (ofString "678")) (some (ofString "45"))).1 (ofString "45")).Nodup :=
  ⟨Reachable.add _ _ _ (Reachable.add _ _ _ Reachable.new),
   (reachable_indexes_agree _ (Reachable.add _ _ _ (Reachable.add _ _ _ Reachable.new))).2
     (ofString "45")⟩

/-- C12, amended. As long as no allocation fails, in every reachable base (whatever the calls
were, overriding adds and calls that fail on their arguments included) the root exists and
every other node is not empty: it has a forward target, a non-empty inverse list, or at least
one child. -/
theorem reachable_no_empty_node (pf : PhoneForward) (hr : Reachable pf) :
    isNull pf = false ∧
    ∀ q, q ≠ [] → nullAt pf q = false →
      isNodeEmpty (sub pf q) = false ∧
      (fwdToAt pf q ≠ none ∨ fwdFromAt pf q ≠ [] ∨
        ∃ c, InRange c ∧ nullAt pf (q ++ [c]) = false) := by
  have hinv := inv_of_reachable pf hr
  refine ⟨hinv.root, ?_⟩
  intro q hq hn
  refine ⟨hinv.noEmpty q hq, ?_⟩
  have := content_of_not_empty (sub pf q) hn (hinv.noEmpty q hq)
  rcases this with h | h | ⟨c, hc, h⟩
  · exact Or.inl h
  · exact Or.inr (Or.inl h)
  · exact Or.inr (Or.inr ⟨c, hc, by unfold nullAt; rw [sub_snoc]; exact h⟩)

/-- C12, amended, at work on the base made by `phfwdAdd "123" "45"`, the overriding
`phfwdAdd "123" "6"` and the failing `phfwdAdd "12a" "7"`: the node at `12` is there and is
not empty, and the root is there. -/
theorem reachable_no_empty_node_witness :
    Reachable (phfwdAdd (phfwdAdd (phfwdAdd phfwdNew (some (ofString "123"))
      (some (ofString "45"))).1 (some (ofString "123")) (some (ofString "6"))).1
      (some (ofString "12a")) (some (ofString "7"))).1 ∧
    ofString "12" ≠ [] ∧
    nullAt (phfwdAdd (phfwdAdd (phfwdAdd phfwdNew (some (ofString "123"))
      (some (ofString "45"))).1 (some (ofString "123")) (some (ofString "6"))).1
      (some (ofString "12a")) (some (ofString "7"))).1 (ofString "12") = false ∧
    isNull (phfwdAdd (phfwdAdd (phfwdAdd phfwdNew (some (ofString "123"))
      (some (ofString "45"))).1 (some (ofString "123")) (some (ofString "6"))).1
      (some (ofString "12a")) (some (ofString "7"))).1 = false ∧
    isNodeEmpty (sub (phfwdAdd (phfwdAdd (phfwdAdd phfwdNew (some (ofString "123"))
      (some (ofString "45"))).1 (some (ofString "123")) (some (ofString "6"))).1
      (some (ofString "12a")) (some (ofString "7"))).1 (ofString "12")) = false :=
  ⟨Reachable.add _ _ _ (Reachable.add _ _ _ (Reachable.add _ _ _ Reachable.new)),
   by decide, by decide,
   (reachable_no_empty_node
     (phfwdAdd (phfwdAdd (phfwdAdd phfwdNew (some (ofString "123"))
       (some (ofString "45"))).1 (some (ofString "123")) (some (ofString "6"))).1
       (some (ofString "12a")) (some (ofString "7"))).1
     (Reachable.add _ _ _ (Reachable.add _ _ _ (Reachable.add _ _ _ Reachable.new)))).1,
   ((reachable_no_empty_node
     (phfwdAdd (phfwdAdd (phfwdAdd phfwdNew (some (ofString "123"))
       (some (ofString "45"))).1 (some (ofString "123")) (some (ofString "6"))).1
       (some (ofString "12a")) (some (ofString "7"))).1
     (Reachable.add _ _ _ (Reachable.add _ _ _ (Reachable.add _ _ _ Reachable.new)))).2
     (ofString "12") (by decide) (by decide)).1⟩

/-- C13. In every reachable base every stored forward target is a valid number different
from the path of the node that holds it, and every entry of an inverse list is a valid number
different from the path of the node that holds it. -/
theorem reachable_stored_valid (pf : PhoneForward) (hr : Reachable pf) :
    (∀ a b, fwdToAt pf a = some b → ValidNumber b ∧ b ≠ a) ∧
    (∀ a b, a ∈ fwdFromAt pf b → ValidNumber a ∧ a ≠ b) := by
  have hinv := inv_of_reachable pf hr
  exact ⟨fun a b h => ⟨(hinv.toFrom a b h).1, (hinv.toFrom a b h).2.1⟩,
    validNumber_of_mem_fwdFromAt pf hinv⟩

/-- C13 at work on the base with the rule `123 → 45`. -/
theorem reachable_stored_valid_witness :
    Reachable (phfwdAdd phfwdNew (some (ofString "123")) (some (ofString "45"))).1 ∧
    (ValidNumber (ofString "45") ∧ ofString "45" ≠ ofString "123") :=
  ⟨Reachable.add _ _ _ Reachable.new,
   (reachable_stored_valid (phfwdAdd phfwdNew (some (ofString "123")) (some (ofString "45"))).1
     (Reachable.add _ _ _ Reachable.new)).1 (ofString "123") (ofString "45") (by decide)⟩

/-! ## Reading a list of numbers -/

theorem phnumGetLoop_eq_drop (l : List Str) (i : Nat) : phnumGetLoop l i = l.drop i := by
  induction i generalizing l with
  | zero => cases l <;> rfl
  | succ i ih =>
    cases l with
    | nil => rfl
    | cons x rest => simp [phnumGetLoop, ih]

theorem phnumGet_nil (idx : Nat) : phnumGet [] idx = none := by
  cases idx <;> rfl

theorem phnumGet_sentinel (rest : List Str) (idx : Nat) : phnumGet ([] :: rest) idx = none := rfl

/-- On a list whose first string is not empty, `phnumGet` is indexing. -/
theorem phnumGet_eq_get (x : Str) (rest : List Str) (hx : x ≠ []) (idx : Nat) :
    phnumGet (x :: rest) idx = (x :: rest).get? idx := by
  cases x with
  | nil => exact absurd rfl hx
  | cons c x =>
    simp only [phnumGet, phnumGetLoop_eq_drop]
    cases hd : List.drop idx ((c :: x) :: rest) with
    | nil =>
      have : ((c :: x) :: rest).length ≤ idx := List.drop_eq_nil_iff.1 hd
      simp only
      exact (List.get?_eq_none.2 this).symm
    | cons y ys =>
      simp only
      have h1 : ((c :: x) :: rest).get? idx = (List.drop idx ((c :: x) :: rest)).head? := by
        rw [List.get?_eq_getElem?, List.head?_drop]
      rw [h1, hd]
      rfl

/-- C20. For every list of numbers whose first string is non-empty and every index `i`,
`phnumGet` returns the `i`-th string (counting from 0) when `i` is less than the length of
the list and NULL when it is not; on the NULL list it returns NULL for every index. -/
theorem phnumGet_spec (x : Str) (rest : List Str) (hx : x ≠ []) (i : Nat) :
    (∀ h : i < (x :: rest).length, phnumGet (x :: rest) i = some ((x :: rest).get ⟨i, h⟩)) ∧
    ((x :: rest).length ≤ i → phnumGet (x :: rest) i = none) ∧
    phnumGet [] i = none := by
  refine ⟨?_, ?_, phnumGet_nil i⟩
  · intro h
    rw [phnumGet_eq_get x rest hx i, List.get?_eq_get h]
  · intro h
    rw [phnumGet_eq_get x rest hx i, List.get?_eq_none.2 h]

/-- C20 at work on the list `["123", "45"]` at index 1. -/
theorem phnumGet_spec_witness :
    ofString "123" ≠ [] ∧ phnumGet [ofString "123", ofString "45"] 1 = some (ofString "45") :=
  ⟨by decide, (phnumGet_spec (ofString "123") [ofString "45"] (by decide) 1).1 (by decide)⟩

/-! ## Results on strings that are not numbers -/

theorem phfwdReverse_of_not_number (pf : PhoneForward) (n : Option Str) (h : ¬ IsNumber n) :
    phfwdReverse pf n = [[]] := by
  rw [isNumber_iff] at h
  simp [phfwdReverse, h, emptyPhnum]

theorem phfwdGet_of_not_number (pf : PhoneForward) (n : Option Str) (h : ¬ IsNumber n) :
    phfwdGet pf n = [[]] := by
  rw [isNumber_iff] at h
  simp [phfwdGet, h, emptyPhnum]

/-- C15. For every base and every string `n` that is not a valid number (NULL, empty, or
with a character outside the twelve digits), `phfwdReverse n` is the one-element list holding
the empty string, on which `phnumGet` returns NULL at every index. -/
theorem phfwdReverse_sentinel (pf : PhoneForward) (n : Option Str) (h : ¬ IsNumber n) :
    phfwdReverse pf n = [[]] ∧ ∀ idx, phnumGet (phfwdReverse pf n) idx = none := by
  rw [phfwdReverse_of_not_number pf n h]
  exact ⟨rfl, fun idx => phnumGet_sentinel [] idx⟩

/-- C15 at work on the string `"12a"` and the base with the rule `123 → 45`. -/
theorem phfwdReverse_sentinel_witness :
    ¬ IsNumber (some (ofString "12a")) ∧
    phfwdReverse (phfwdAdd phfwdNew (some (ofString "123")) (some (ofString "45"))).1
      (some (ofString "12a")) = [[]] :=
  ⟨by rw [isNumber_iff]; decide,
   (phfwdReverse_sentinel _ (some (ofString "12a")) (by rw [isNumber_iff]; decide)).1⟩

/-! ## The single element of `phfwdGet` -/

/-- The loop of `phfwdGet` returns its accumulator or the target of a node on the path. -/
theorem phfwdGetLoop_cases (rest : Str) :
    ∀ (i : Nat) (pf : PhoneForward) (bm : Option Str) (bl : Nat),
      phfwdGetLoop rest i pf bm bl = (bm, bl) ∨
      ∃ u t, u ≠ [] ∧ u <+: rest ∧ fwdToOf (sub pf u) = some t ∧
        phfwdGetLoop rest i pf bm bl = (some t, i + u.length) := by
  induction rest with
  | nil => intro i pf bm bl; exact Or.inl rfl
  | cons c r ih =>
    intro i pf bm bl
    simp only [phfwdGetLoop]
    cases hc : getChild pf (charDigitToInt c) with
    | null => exact Or.inl rfl
    | node cs t0 f =>
      have lift : ∀ bm1 bl1,
          (∃ u t, u ≠ [] ∧ u <+: r ∧ fwdToOf (sub (node cs t0 f) u) = some t ∧
            phfwdGetLoop r (i + 1) (node cs t0 f) bm1 bl1 = (some t, i + 1 + u.length)) →
          ∃ u t, u ≠ [] ∧ u <+: c :: r ∧ fwdToOf (sub pf u) = some t ∧
            phfwdGetLoop r (i + 1) (node cs t0 f) bm1 bl1 = (some t, i + u.length) := by
        rintro bm1 bl1 ⟨u, t, -, hpre, ht, hl⟩
        refine ⟨c :: u, t, by simp, ?_, ?_, ?_⟩
        · obtain ⟨s, hs⟩ := hpre
          exact ⟨s, by simp [hs]⟩
        · rw [fwdToOf_sub_cons, hc]; exact ht
        · rw [hl]
          simp only [List.length_cons, Prod.mk.injEq, true_and]
          omega
      cases t0 with
      | none =>
        simp only
        rcases ih (i + 1) (node cs none f) bm bl with h | h
        · exact Or.inl h
        · exact Or.inr (lift bm bl h)
      | some t1 =>
        simp only
        rcases ih (i + 1) (node cs (some t1) f) (some t1) (i + 1) with h | h
        · right
          refine ⟨[c], t1, by simp, ⟨r, by simp⟩, ?_, ?_⟩
          · simp [sub, hc, fwdToOf]
          · rw [h]; simp
        · exact Or.inr (lift _ _ h)

/-- The result of `phfwdGet` on a valid number: the number itself, or a stored target
followed by a rest of the number. -/
theorem phfwdGet_cases (pf : PhoneForward) (n : Str) (hn : ValidNumber n) :
    phfwdGet pf (some n) = [n] ∨
    ∃ u t, ActiveRule pf u t ∧ u <+: n ∧ phfwdGet pf (some n) = [t ++ n.drop u.length] := by
  have hv := (checkIfNumber_iff n).2 hn
  rcases phfwdGetLoop_cases n 0 pf none 0 with h | ⟨u, t, hu, hpre, ht, h⟩
  · left
    simp [phfwdGet, hv, h]
  · right
    refine ⟨u, t, ⟨hu, ht⟩, hpre, ?_⟩
    simp [phfwdGet, hv, h]

/-- Why the next lemma asks for non-empty targets: on a hand-built node that stores the empty
string as its target, which no call of `phfwdAdd` produces, `phfwdGet "1"` is the list
holding the empty string and `phnumGet` returns NULL on it at index 0. -/
theorem phfwdGet_of_empty_target :
    ValidNumber (ofString "1") ∧
    phfwdGet (node (Function.update (fun _ => null) 1 (node (fun _ => null) (some []) []))
      none []) (some (ofString "1")) = [[]] ∧
    phnumGet (phfwdGet (node (Function.update (fun _ => null) 1
      (node (fun _ => null) (some []) [])) none []) (some (ofString "1"))) 0 = none :=
  ⟨by decide, by decide, by decide⟩

/-- The single element of `phfwdGet`, on a tree in which no forward target is the empty
string. -/
theorem phfwdGet_single_of_targets (pf : PhoneForward) (h : ∀ a b, ActiveRule pf a b → b ≠ [])
    (n : Option Str) :
    ∃ x, phfwdGet pf n = [x] ∧
      (IsNumber n → x ≠ [] ∧ phnumGet (phfwdGet pf n) 0 = some x) ∧
      (¬ IsNumber n → x = [] ∧ phnumGet (phfwdGet pf n) 0 = none) := by
  by_cases hv : IsNumber n
  · obtain ⟨m, rfl, hm⟩ := hv
    have key : ∀ x, x ≠ [] → phfwdGet pf (some m) = [x] →
        ∃ x, phfwdGet pf (some m) = [x] ∧
          (IsNumber (some m) → x ≠ [] ∧ phnumGet (phfwdGet pf (some m)) 0 = some x) ∧
          (¬ IsNumber (some m) → x = [] ∧ phnumGet (phfwdGet pf (some m)) 0 = none) := by
      intro x hx he
      refine ⟨x, he, fun _ => ⟨hx, ?_⟩, fun hno => absurd ⟨m, rfl, hm⟩ hno⟩
      rw [he, phnumGet_eq_get x [] hx 0]
      rfl
    rcases phfwdGet_cases pf m hm with he | ⟨u, t, hut, -, he⟩
    · exact key m hm.1 he
    · exact key _ (by
        intro hnil
        exact h u t hut (List.append_eq_nil.1 hnil).1) he
  · refine ⟨[], phfwdGet_of_not_number pf n hv, fun hyes => absurd hyes hv, fun _ => ⟨rfl, ?_⟩⟩
    rw [phfwdGet_of_not_number pf n hv]
    rfl

/-- No forward target of a reachable base is the empty string. -/
theorem target_ne_nil_of_reachable (pf : PhoneForward) (hr : Reachable pf) :
    ∀ a b, ActiveRule pf a b → b ≠ [] :=
  fun a b hab => ((inv_of_reachable pf hr).toFrom a b hab.2).1.1

/-- C14. With `malloc` never failing, for every base (every base the calls of `phfwdNew`,
`phfwdAdd` and `phfwdRemove` can make) and every string `n`, `phfwdGet n` is a list of
exactly one element; when `n` is a valid number the element is a non-empty string and
`phnumGet` returns it at index 0, and when `n` is not a valid number (NULL, empty, or with a
character that is no digit) the element is the empty string and `phnumGet` returns NULL at
index 0. -/
theorem phfwdGet_single (pf : PhoneForward) (hr : Reachable pf) (n : Option Str) :
    (phfwdGet pf n).length = 1 ∧
    ∃ x, phfwdGet pf n = [x] ∧
      (IsNumber n → x ≠ [] ∧ phnumGet (phfwdGet pf n) 0 = some x) ∧
      (¬ IsNumber n → x = [] ∧ phnumGet (phfwdGet pf n) 0 = none) := by
  obtain ⟨x, hx, h1, h2⟩ :=
    phfwdGet_single_of_targets pf (target_ne_nil_of_reachable pf hr) n
  exact ⟨by rw [hx]; rfl, x, hx, h1, h2⟩

/-- C14 at work on the base with the rule `123 → 45`: `phfwdGet "1234567"` holds the one
string `"454567"`, which `phnumGet` returns, and `phfwdGet "12x"` holds the empty string,
on which `phnumGet` returns NULL. -/
theorem phfwdGet_single_witness :
    Reachable (phfwdAdd phfwdNew (some (ofString "123")) (some (ofString "45"))).1 ∧
    phfwdGet (phfwdAdd phfwdNew (some (ofString "123")) (some (ofString "45"))).1
      (some (ofString "1234567")) = [ofString "454567"] ∧
    phnumGet (phfwdGet (phfwdAdd phfwdNew (some (ofString "123")) (some (ofString "45"))).1
      (some (ofString "1234567"))) 0 = some (ofString "454567") ∧
    phnumGet (phfwdGet (phfwdAdd phfwdNew (some (ofString "123")) (some (ofString "45"))).1
      (some (ofString "12x"))) 0 = none ∧
    (phfwdGet (phfwdAdd phfwdNew (some (ofString "123")) (some (ofString "45"))).1
      (some (ofString "12x"))).length = 1 :=
  ⟨Reachable.add _ _ _ Reachable.new, by decide, by decide, by decide,
   (phfwdGet_single (phfwdAdd phfwdNew (some (ofString "123")) (some (ofString "45"))).1
     (Reachable.add _ _ _ Reachable.new) (some (ofString "12x"))).1⟩

/-! ## Zero cases of the count, and worked scenarios -/

theorem alphabet_eq_nil_of_no_digit (s : Str) (h : ∀ c ∈ s, ¬ InRange c) :
    alphabet (getSimplifiedSet s (fun _ => false)) = [] := by
  rw [List.eq_nil_iff_forall_not_mem]
  intro c hc
  obtain ⟨i, hi, -⟩ := (mem_alphabet _ c).1 hc
  rw [getSimplifiedSet_spec] at hi
  apply h _ hi
  have := i.isLt
  unfold InRange
  omega

/-- C19. `phfwdNonTrivialCount` returns 0 whenever the base is NULL, `set` is NULL, `set` is
the empty string, `set` contains none of the twelve digits, or `len` is 0, whatever the base
holds. -/
theorem phfwdNonTrivialCount_zero (pf : PhoneForward) (set : Option Str) (len : Nat)
    (h : pf = null ∨ set = none ∨ set = some [] ∨
      (∃ s, set = some s ∧ ∀ c ∈ s, ¬ InRange c) ∨ len = 0) :
    phfwdNonTrivialCount pf set len = 0 := by
  cases pf with
  | null => cases set <;> rfl
  | node cs t f =>
    cases set with
    | none => rfl
    | some s =>
      simp only [phfwdNonTrivialCount]
      by_cases hz : len = 0 ∨ s = []
      · simp only [hz, if_true]
      · simp only [hz, if_false]
        rw [setSize_eq, Nat.zero_add, ← length_alphabet]
        have hnil : alphabet (getSimplifiedSet s (fun _ => false)) = [] := by
          rcases h with h | h | h | ⟨s1, hs1, hno⟩ | h
          · cases h
          · cases h
          · simp only [Option.some.injEq] at h
            exact absurd (Or.inr h) hz
          · simp only [Option.some.injEq] at hs1
            subst hs1
            exact alphabet_eq_nil_of_no_digit s hno
          · exact absurd (Or.inl h) hz
        simp [hnil]

/-- C19 at work: the set `"abc"` has no digit. -/
theorem phfwdNonTrivialCount_zero_witness :
    (∀ c ∈ ofString "abc", ¬ InRange c) ∧
    phfwdNonTrivialCount (phfwdAdd phfwdNew (some (ofString "00")) (some (ofString "1"))).1
      (some (ofString "abc")) 3 = 0 :=
  ⟨by decide,
   phfwdNonTrivialCount_zero _ (some (ofString "abc")) 3
     (Or.inr (Or.inr (Or.inr (Or.inl ⟨ofString "abc", rfl, by decide⟩))))⟩

/-- C16, as stated, fails: on a new base, after `phfwdAdd "123" "45"`, `phfwdGet "1234567"`
is not the list holding `"4567"`. -/
theorem scenario_get_counterexample :
    phfwdGet (phfwdAdd phfwdNew (some (ofString "123")) (some (ofString "45"))).1
      (some (ofString "1234567")) ≠ [ofString "4567"] := by
  decide

/-- C16, amended. On a new base, after `phfwdAdd "123" "45"`, `phfwdGet "1234567"` returns
the single number `"454567"`: the target `"45"` followed by the rest `"4567"`. -/
theorem scenario_get :
    phfwdGet (phfwdAdd phfwdNew (some (ofString "123")) (some (ofString "45"))).1
      (some (ofString "1234567")) = [ofString "454567"] := by
  decide

/-- C17, as stated, fails: on a new base, after `phfwdAdd "0" "00"` and
`phfwdAdd "00" "000"`, `phfwdReverse "000000"` is not the list of four numbers. -/
theorem scenario_reverse_counterexample :
    phfwdReverse (phfwdAdd (phfwdAdd phfwdNew (some (ofString "0")) (some (ofString "00"))).1
      (some (ofString "00")) (some (ofString "000"))).1 (some (ofString "000000")) ≠
      [ofString "000", ofString "0000", ofString "00000", ofString "000000"] := by
  decide

/-- C17, amended. On a new base, after `phfwdAdd "0" "00"` and `phfwdAdd "00" "000"`,
`phfwdReverse "000000"` returns exactly the list `["00000", "000000"]`. -/
theorem scenario_reverse :
    phfwdReverse (phfwdAdd (phfwdAdd phfwdNew (some (ofString "0")) (some (ofString "00"))).1
      (some (ofString "00")) (some (ofString "000"))).1 (some (ofString "000000")) =
      [ofString "00000", ofString "000000"] := by
  decide

/-- C18, as stated, fails: on a new base, after `phfwdAdd "00" "1"`, the count for the set
`"0"` and the length 3 is not 1. -/
theorem scenario_count_counterexample :
    phfwdNonTrivialCount (phfwdAdd phfwdNew (some (ofString "00")) (some (ofString "1"))).1
      (some (ofString "0")) 3 ≠ 1 := by
  decide

/-- C18, amended. On a new base, after `phfwdAdd "00" "1"`, `phfwdNonTrivialCount` with the
set `"0"` and the length 3 returns 0: the only candidate `"000"` does not begin with the
target `"1"`, so `phfwdReverse "000"` holds `"000"` alone. -/
theorem scenario_count :
    phfwdNonTrivialCount (phfwdAdd phfwdNew (some (ofString "00")) (some (ofString "1"))).1
      (some (ofString "0")) 3 = 0 ∧
    phfwdReverse (phfwdAdd phfwdNew (some (ofString "00")) (some (ofString "1"))).1
      (some (ofString "000")) = [ofString "000"] :=
  ⟨by decide, by decide⟩

/-! ## A new base, the digit test, and the sorted insertion -/

theorem hasSource_phfwdNew (w : Str) : hasSource phfwdNew w = false := by
  rw [← Bool.not_eq_true, hasSource_iff]
  rintro ⟨u, s, -, h⟩
  exact h (fields_sub_phfwdNew u).2

theorem phfwdReverse_phfwdNew (n : Str) (hn : ValidNumber n) :
    phfwdReverse phfwdNew (some n) = [n] := by
  rw [phfwdReverse_valid _ n hn]
  cases n with
  | nil => exact absurd rfl hn.1
  | cons c rest =>
    have h : getChild phfwdNew (charDigitToInt c) = null := by
      have := sub_phfwdNew [c] (by simp)
      simpa [sub] using this
    simp only [phfwdReverseLoop, h]

theorem phfwdGet_phfwdNew (n : Str) (hn : ValidNumber n) : phfwdGet phfwdNew (some n) = [n] := by
  have h1 := (checkIfNumber_iff n).2 hn
  have h2 := phfwdGetLoop_none n 0 phfwdNew none 0 (fun u _ _ => (fields_sub_phfwdNew u).1)
  simp only [phfwdGet, h1, h2]
  simp

/-- C21. A base just made by `phfwdNew` holds no forward: for every valid number `n`,
`phfwdGet n` and `phfwdReverse n` both return the list holding `n` alone, and
`phfwdNonTrivialCount` returns 0 for every `set` and every `len`. -/
theorem phfwdNew_holds_no_forward (n : Str) (hn : ValidNumber n) (set : Option Str) (len : Nat) :
    phfwdGet phfwdNew (some n) = [n] ∧ phfwdReverse phfwdNew (some n) = [n] ∧
    phfwdNonTrivialCount phfwdNew set len = 0 := by
  refine ⟨phfwdGet_phfwdNew n hn, phfwdReverse_phfwdNew n hn, ?_⟩
  rw [phfwdNonTrivialCount_eq _ inv_phfwdNew]
  have : (wordsOver (alphabet (getSimplifiedSet (set.getD []) (fun _ => false))) len).countP
      (hasSource phfwdNew) = 0 := by
    rw [List.countP_eq_zero]
    intro w _
    simp [hasSource_phfwdNew]
  rw [this]
  rfl

/-- C21 at work on the number `"123"`, the set `"0123"` and the length 5. -/
theorem phfwdNew_holds_no_forward_witness :
    ValidNumber (ofString "123") ∧
    phfwdGet phfwdNew (some (ofString "123")) = [ofString "123"] ∧
    phfwdReverse phfwdNew (some (ofString "123")) = [ofString "123"] ∧
    phfwdNonTrivialCount phfwdNew (some (ofString "0123")) 5 = 0 :=
  ⟨by decide, phfwdNew_holds_no_forward (ofString "123") (by decide) (some (ofString "0123")) 5⟩

theorem isDigit_iff (ch : Nat) : isDigit ch = true ↔ ch ∈ ofString "0123456789:;" := by
  have h : ofString "0123456789:;" = [48, 49, 50, 51, 52, 53, 54, 55, 56, 57, 58, 59] := by
    decide
  rw [h]
  simp only [isDigit, Bool.and_eq_true, decide_eq_true_eq, List.mem_cons, List.mem_singleton,
    List.mem_nil_iff, or_false]
  omega

/-- C22. For every nullable string `s`, `checkIfNumber s` is true if and only if `s` is not
NULL, is not empty and each of its characters is one of the twelve characters `'0'..'9'`,
`':'`, `';'`; and `isDigit ch` is true exactly for those twelve characters. -/
theorem checkIfNumber_spec (s : Option Str) (ch : Nat) :
    (checkIfNumber s = true ↔
      ∃ n, s = some n ∧ n ≠ [] ∧ ∀ c ∈ n, c ∈ ofString "0123456789:;") ∧
    (isDigit ch = true ↔ ch ∈ ofString "0123456789:;") := by
  refine ⟨?_, isDigit_iff ch⟩
  have hr : ∀ c, c ∈ ofString "0123456789:;" ↔ 48 ≤ c ∧ c ≤ 59 := by
    intro c
    rw [← isDigit_iff]
    simp [isDigit]
  cases s with
  | none => simp [checkIfNumber]
  | some n =>
    rw [checkIfNumber_iff]
    simp only [ValidNumber, Option.some.injEq, exists_eq_left', hr]

theorem addToListLexRest_of_mem (e : Str) (l : List Str)
    (h : l.Pairwise (fun x y => strcmp x y < 0)) (he : e ∈ l) : addToListLexRest e l = l := by
  induction l with
  | nil => cases he
  | cons x rest ih =>
    rw [List.pairwise_cons] at h
    rcases List.mem_cons.1 he with rfl | hmem
    · simp [addToListLexRest, strcmp_self]
    · have hlt := h.1 e hmem
      simp only [addToListLexRest, hlt, if_true, ih h.2 hmem]

theorem addToListLex_of_mem (l : List Str) (e : Str)
    (h : l.Pairwise (fun x y => strcmp x y < 0)) (he : e ∈ l) : addToListLex l e = l := by
  cases l with
  | nil => cases he
  | cons x rest =>
    rw [List.pairwise_cons] at h
    rcases List.mem_cons.1 he with rfl | hmem
    · simp [addToListLex, strcmp_self]
    · have hlt := h.1 e hmem
      have h1 : ¬ strcmp x e > 0 := by omega
      have h2 : ¬ strcmp x e = 0 := by omega
      simp only [addToListLex, h1, h2, hlt, if_true, if_false,
        addToListLexRest_of_mem e rest h.2 hmem]

/-- C27. For every list `L` that is strictly increasing in the order of `strcmp` and every
string `s`, `addToListLex L s` is strictly increasing, its elements are exactly `s` and the
elements of `L`, and when `s` already occurs in `L` the list comes back unchanged. -/
theorem addToListLex_spec (L : List Str) (s : Str)
    (h : L.Pairwise (fun x y => strcmp x y < 0)) :
    (addToListLex L s).Pairwise (fun x y => strcmp x y < 0) ∧
    (∀ m, m ∈ addToListLex L s ↔ m = s ∨ m ∈ L) ∧
    (s ∈ L → addToListLex L s = L) :=
  ⟨pairwise_addToListLex L s h, mem_addToListLex L s, addToListLex_of_mem L s h⟩

/-- C27 at work: inserting `"15"` into `["1", "2"]`, and `"2"` once more. -/
theorem addToListLex_spec_witness :
    [ofString "1", ofString "2"].Pairwise (fun x y => strcmp x y < 0) ∧
    addToListLex [ofString "1", ofString "2"] (ofString "15") =
      [ofString "1", ofString "15", ofString "2"] ∧
    addToListLex [ofString "1", ofString "2"] (ofString "2") = [ofString "1", ofString "2"] :=
  ⟨by decide, by decide,
   (addToListLex_spec [ofString "1", ofString "2"] (ofString "2") (by decide)).2.2 (by decide)⟩

/-- C30. For every base and all nullable strings `src`, `dst` of which one is not a valid
number, or which are equal, `phfwdAdd` returns `false` and hands back the very same trie: no
node is created, no target and no inverse list is changed. -/
theorem phfwdAdd_rejected_unchanged (pf : PhoneForward) (src dst : Option Str)
    (h : ¬ IsNumber src ∨ ¬ IsNumber dst ∨ src = dst) :
    (phfwdAdd pf src dst).2 = false ∧ (phfwdAdd pf src dst).1 = pf := by
  have hv : ¬ (IsNumber src ∧ IsNumber dst ∧ src ≠ dst) := by tauto
  refine ⟨?_, phfwdAdd_fst_of_not_valid pf src dst hv⟩
  cases src with
  | none => rfl
  | some a =>
    cases dst with
    | none => rfl
    | some b =>
      by_cases ha : checkIfNumber (some a) = true
      · by_cases hb : checkIfNumber (some b) = true
        · have hab : a = b := by
            by_contra hne
            exact hv ⟨(isNumber_iff _).2 ha, (isNumber_iff _).2 hb, by simpa using hne⟩
          subst hab
          simp [phfwdAdd, ha, strcmp_self]
        · simp [phfwdAdd, hb]
      · simp [phfwdAdd, ha]

/-- C30 at work on a base with the rule `00 → 1`: a source that is not a number. -/
theorem phfwdAdd_rejected_unchanged_witness :
    ¬ IsNumber (some (ofString "12a")) ∧
    (phfwdAdd (phfwdAdd phfwdNew (some (ofString "00")) (some (ofString "1"))).1
      (some (ofString "12a")) (some (ofString "5"))).2 = false ∧
    (phfwdAdd (phfwdAdd phfwdNew (some (ofString "00")) (some (ofString "1"))).1
      (some (ofString "12a")) (some (ofString "5"))).1 =
      (phfwdAdd phfwdNew (some (ofString "00")) (some (ofString "1"))).1 :=
  have hn : ¬ IsNumber (some (ofString "12a")) := by
    rw [isNumber_iff]; decide
  ⟨hn, phfwdAdd_rejected_unchanged _ (some (ofString "12a")) (some (ofString "5")) (Or.inl hn)⟩

/-! ## The count and the characters of the set -/

theorem getSimplifiedSet_congr (s1 s2 : Str) (h : ∀ c, InRange c → (c ∈ s1 ↔ c ∈ s2)) :
    getSimplifiedSet s1 (fun _ => false) = getSimplifiedSet s2 (fun _ => false) := by
  funext i
  have hi : InRange (i.val + 48) := by
    have := i.isLt
    unfold InRange; omega
  rw [Bool.eq_iff_iff, getSimplifiedSet_spec, getSimplifiedSet_spec]
  exact h _ hi

/-- The test `set[0] == 0` of `phfwdNonTrivialCount` changes nothing: the empty string marks
no digit. -/
theorem phfwdNonTrivialCount_node (cs : Fin 12 → PhoneForward) (t : Option Str) (f : List Str)
    (s : Str) (len : Nat) :
    phfwdNonTrivialCount (node cs t f) (some s) len =
      if len = 0 then 0
      else if (alphabet (getSimplifiedSet s (fun _ => false))).length = 0 then 0
      else countNonTrivialRec (node cs t f) 0 len
        (alphabet (getSimplifiedSet s (fun _ => false))).length
        (getSimplifiedSet s (fun _ => false)) 0 := by
  simp only [phfwdNonTrivialCount]
  rw [setSize_eq, Nat.zero_add, ← length_alphabet]
  by_cases hl : len = 0
  · simp [hl]
  · by_cases hs : s = []
    · subst hs
      simp [hl, alphabet_eq_nil_of_nil]
    · simp [hl, hs]

/-- C24. For every base, every `len` and any two strings `set1`, `set2` that hold the same
recognized digit characters, in whatever order, with whatever repetitions and with whatever
other characters in between, `phfwdNonTrivialCount` returns the same number for both. -/
theorem phfwdNonTrivialCount_set_congr (pf : PhoneForward) (set1 set2 : Str) (len : Nat)
    (h : ∀ c, InRange c → (c ∈ set1 ↔ c ∈ set2)) :
    phfwdNonTrivialCount pf (some set1) len = phfwdNonTrivialCount pf (some set2) len := by
  cases pf with
  | null => rfl
  | node cs t f =>
    rw [phfwdNonTrivialCount_node, phfwdNonTrivialCount_node, getSimplifiedSet_congr set1 set2 h]

/-- C24 at work on the base with the rule `00 → 1`: the sets `"01"` and `"1x0a10"`. -/
theorem phfwdNonTrivialCount_set_congr_witness :
    (∀ c, InRange c → (c ∈ ofString "01" ↔ c ∈ ofString "1x0a10")) ∧
    phfwdNonTrivialCount (phfwdAdd phfwdNew (some (ofString "00")) (some (ofString "1"))).1
      (some (ofString "1x0a10")) 3 = 4 :=
  have h : ∀ c, InRange c → (c ∈ ofString "01" ↔ c ∈ ofString "1x0a10") := by
    intro c hc
    have h1 : ofString "01" = [48, 49] := by decide
    have h2 : ofString "1x0a10" = [49, 120, 48, 97, 49, 48] := by decide
    rw [h1, h2]
    unfold InRange at hc
    simp only [List.mem_cons, List.mem_singleton, List.mem_nil_iff, or_false]
    omega
  ⟨h, (phfwdNonTrivialCount_set_congr _ (ofString "01") (ofString "1x0a10") 3 h).symm.trans
    (by decide)⟩

/-! ## Forward and reverse lookups -/

theorem validNumber_append_drop (t x : Str) (k : Nat) (ht : ValidNumber t) (hx : ValidNumber x) :
    ValidNumber (t ++ x.drop k) := by
  refine ⟨?_, ?_⟩
  · intro h
    exact ht.1 (List.append_eq_nil.1 h).1
  · intro c hc
    rcases List.mem_append.1 hc with h | h
    · exact ht.2 c h
    · exact hx.2 c (List.mem_of_mem_drop h)

/-- C28. On a reachable base, for every valid number `x`: if `phfwdGet x` returns the list
holding `y`, then `x` is an element of `phfwdReverse y`. -/
theorem phfwdGet_phfwdReverse (pf : PhoneForward) (hr : Reachable pf) (x y : Str)
    (hx : ValidNumber x) (h : phfwdGet pf (some x) = [y]) : x ∈ phfwdReverse pf (some y) := by
  have hinv := inv_of_reachable pf hr
  rcases phfwdGet_cases pf x hx with h1 | ⟨u, t, hrule, hpre, h1⟩
  · rw [h1] at h
    simp only [List.cons.injEq, and_true] at h
    subst h
    exact (mem_phfwdReverse_iff pf hinv x hx x).2 (Or.inl rfl)
  · rw [h1] at h
    simp only [List.cons.injEq, and_true] at h
    subst h
    have ht := (hinv.toFrom u t hrule.2).1
    refine (mem_phfwdReverse_iff pf hinv _ (validNumber_append_drop t x _ ht hx) x).2
      (Or.inr ⟨u, t, x.drop u.length, hrule, rfl, ?_⟩)
    obtain ⟨s, rfl⟩ := hpre
    simp

/-- C28 at work on the base with the rule `12 → 5`: `phfwdGet "123"` gives `"53"`. -/
theorem phfwdGet_phfwdReverse_witness :
    Reachable (phfwdAdd phfwdNew (some (ofString "12")) (some (ofString "5"))).1 ∧
    phfwdGet (phfwdAdd phfwdNew (some (ofString "12")) (some (ofString "5"))).1
      (some (ofString "123")) = [ofString "53"] ∧
    ofString "123" ∈ phfwdReverse
      (phfwdAdd phfwdNew (some (ofString "12")) (some (ofString "5"))).1
      (some (ofString "53")) :=
  ⟨Reachable.add _ _ _ Reachable.new, by decide,
   phfwdGet_phfwdReverse (phfwdAdd phfwdNew (some (ofString "12")) (some (ofString "5"))).1
     (Reachable.add _ _ _ Reachable.new) (ofString "123") (ofString "53") (by decide)
     (by decide)⟩

/-- C26, as stated, fails: on the base with the rule `00 → 1` the number `"1"` is
non-trivial, `phfwdReverse "1"` holding `"00"`, although `"1"` has no non-empty initial
segment shorter than itself. -/
theorem nonTrivial_strict_counterexample :
    Reachable (phfwdAdd phfwdNew (some (ofString "00")) (some (ofString "1"))).1 ∧
    ValidNumber (ofString "1") ∧
    ¬ ((∃ m ∈ phfwdReverse (phfwdAdd phfwdNew (some (ofString "00")) (some (ofString "1"))).1
          (some (ofString "1")), m ≠ ofString "1") ↔
       ∃ u a, u ≠ [] ∧ u <+: ofString "1" ∧ u.length < (ofString "1").length ∧
         ActiveRule (phfwdAdd phfwdNew (some (ofString "00")) (some (ofString "1"))).1 a u) := by
  refine ⟨Reachable.add _ _ _ Reachable.new, by decide, ?_⟩
  intro hiff
  have hl : ∃ m ∈ phfwdReverse
      (phfwdAdd phfwdNew (some (ofString "00")) (some (ofString "1"))).1
      (some (ofString "1")), m ≠ ofString "1" := ⟨ofString "00", by decide, by decide⟩
  obtain ⟨u, a, hu, -, hlen, -⟩ := hiff.1 hl
  have h1 : (ofString "1").length = 1 := by decide
  rw [h1] at hlen
  exact hu (List.length_eq_zero.1 (by omega))

/-- C26, amended. On a reachable base, a valid number `w` is non-trivial (`phfwdReverse w`
holds an element other than `w`) if and only if some non-empty initial segment of `w`, `w`
itself included, is the target of some active rule. -/
theorem nonTrivial_iff_target (pf : PhoneForward) (hr : Reachable pf) (w : Str)
    (hw : ValidNumber w) :
    (∃ m ∈ phfwdReverse pf (some w), m ≠ w) ↔
      ∃ u a, u ≠ [] ∧ u <+: w ∧ ActiveRule pf a u := by
  have hinv := inv_of_reachable pf hr
  constructor
  · rintro ⟨m, hm, hne⟩
    rcases (mem_phfwdReverse_iff pf hinv w hw m).1 hm with rfl | ⟨a, b, s, hrule, hwb, -⟩
    · exact absurd rfl hne
    · exact ⟨b, a, (hinv.toFrom a b hrule.2).1.1, ⟨s, hwb.symm⟩, hrule⟩
  · rintro ⟨u, a, -, ⟨s, rfl⟩, hrule⟩
    refine ⟨a ++ s, (mem_phfwdReverse_iff pf hinv _ hw _).2 (Or.inr ⟨a, u, s, hrule, rfl, rfl⟩), ?_⟩
    intro heq
    exact (hinv.toFrom a u hrule.2).2.1 (List.append_cancel_right heq).symm

/-- C26, amended, at work on the base with the rule `00 → 1` and the number `"1"`. -/
theorem nonTrivial_iff_target_witness :
    Reachable (phfwdAdd phfwdNew (some (ofString "00")) (some (ofString "1"))).1 ∧
    ValidNumber (ofString "1") ∧
    ∃ u a, u ≠ [] ∧ u <+: ofString "1" ∧
      ActiveRule (phfwdAdd phfwdNew (some (ofString "00")) (some (ofString "1"))).1 a u :=
  ⟨Reachable.add _ _ _ Reachable.new, by decide,
   (nonTrivial_iff_target (phfwdAdd phfwdNew (some (ofString "00")) (some (ofString "1"))).1
     (Reachable.add _ _ _ Reachable.new) (ofString "1") (by decide)).1
     ⟨ofString "00", by decide, by decide⟩⟩

/-! ## Adding twice, and adding then removing -/

theorem count_eq_one_of_nodup (l : List Str) (a : Str) (hn : l.Nodup) (hm : a ∈ l) :
    l.count a = 1 := by
  induction l with
  | nil => cases hm
  | cons x rest ih =>
    rw [List.nodup_cons] at hn
    rw [List.count_cons]
    rcases List.mem_cons.1 hm with rfl | hmem
    · rw [List.count_eq_zero.2 hn.1]
      simp
    · have hne : ¬ x = a := by
        rintro rfl
        exact hn.1 hmem
      rw [ih hn.2 hmem]
      simp [hne]

/-- A second `phfwdAdd a b` right after a first one leaves the trie as it is. -/
theorem phfwdAdd_twice (pf : PhoneForward) (h : Inv pf) (a b : Str) (ha : ValidNumber a)
    (hb : ValidNumber b) (hab : a ≠ b) :
    (phfwdAdd (phfwdAdd pf (some a) (some b)).1 (some a) (some b)).1 =
      (phfwdAdd pf (some a) (some b)).1 := by
  have h1 := inv_phfwdAdd_valid pf a b ha hb hab h
  have h2 := inv_phfwdAdd_valid _ a b ha hb hab h1
  have s1 := phfwdAdd_spec pf a b ha hb hab h.root
  have s2 := phfwdAdd_spec (phfwdAdd pf (some a) (some b)).1 a b ha hb hab h1.root
  have hto : fwdToAt (phfwdAdd pf (some a) (some b)).1 a = some b := by
    rw [s1.1 a, if_pos rfl]
  have hfrom : ∃ X, fwdFromAt (phfwdAdd pf (some a) (some b)).1 b = a :: X := by
    rw [s1.2.1 b, if_pos rfl]
    exact ⟨_, rfl⟩
  refine eq_of_fields _ _ h2.root h1.root h2.noEmpty h1.noEmpty (fun q => ?_) (fun q => ?_)
  · show fwdToAt _ q = fwdToAt _ q
    rw [s2.1 q]
    by_cases hq : q = a
    · rw [if_pos hq, hq, hto]
    · rw [if_neg hq]
  · show fwdFromAt _ q = fwdFromAt _ q
    rw [s2.2.1 q, hto]
    by_cases hq : q = b
    · subst hq
      obtain ⟨X, hX⟩ := hfrom
      rw [if_pos rfl, if_pos rfl, hX]
      simp
    · have hne : ¬ (some b = some q) := fun he => hq (Option.some.inj he).symm
      rw [if_neg hq, if_neg hne]

/-- C23. On a reachable base, for valid numbers `a ≠ b`, a second `phfwdAdd a b` right after
a first one cannot be told from a single one: the base it leaves gives the same `phfwdGet`,
`phfwdReverse` and `phfwdNonTrivialCount` results for all arguments, and `a` occurs exactly
once in the inverse list at `b`. -/
theorem phfwdAdd_twice_same_queries (pf : PhoneForward) (hr : Reachable pf) (a b : Str)
    (ha : ValidNumber a) (hb : ValidNumber b) (hab : a ≠ b) :
    (∀ x, phfwdGet (phfwdAdd (phfwdAdd pf (some a) (some b)).1 (some a) (some b)).1 x =
      phfwdGet (phfwdAdd pf (some a) (some b)).1 x) ∧
    (∀ x, phfwdReverse (phfwdAdd (phfwdAdd pf (some a) (some b)).1 (some a) (some b)).1 x =
      phfwdReverse (phfwdAdd pf (some a) (some b)).1 x) ∧
    (∀ set len,
      phfwdNonTrivialCount (phfwdAdd (phfwdAdd pf (some a) (some b)).1 (some a) (some b)).1
        set len = phfwdNonTrivialCount (phfwdAdd pf (some a) (some b)).1 set len) ∧
    (fwdFromAt (phfwdAdd (phfwdAdd pf (some a) (some b)).1 (some a) (some b)).1 b).count a
      = 1 := by
  have h := inv_of_reachable pf hr
  have h1 := inv_phfwdAdd_valid pf a b ha hb hab h
  have s1 := phfwdAdd_spec pf a b ha hb hab h.root
  rw [phfwdAdd_twice pf h a b ha hb hab]
  refine ⟨fun _ => rfl, fun _ => rfl, fun _ _ => rfl, ?_⟩
  have hmem : a ∈ fwdFromAt (phfwdAdd pf (some a) (some b)).1 b := by
    rw [s1.2.1 b, if_pos rfl]
    exact List.mem_cons_self _ _
  exact count_eq_one_of_nodup _ a (h1.nodup b) hmem

/-- C23 at work on the base with the rule `00 → 1`, for `a = "12"` and `b = "5"`. -/
theorem phfwdAdd_twice_same_queries_witness :
    Reachable (phfwdAdd phfwdNew (some (ofString "00")) (some (ofString "1"))).1 ∧
    ValidNumber (ofString "12") ∧ ValidNumber (ofString "5") ∧ ofString "12" ≠ ofString "5" ∧
    (fwdFromAt (phfwdAdd (phfwdAdd
      (phfwdAdd phfwdNew (some (ofString "00")) (some (ofString "1"))).1
      (some (ofString "12")) (some (ofString "5"))).1
      (some (ofString "12")) (some (ofString "5"))).1 (ofString "5")).count (ofString "12")
      = 1 :=
  ⟨Reachable.add _ _ _ Reachable.new, by decide, by decide, by decide,
   (phfwdAdd_twice_same_queries
     (phfwdAdd phfwdNew (some (ofString "00")) (some (ofString "1"))).1
     (Reachable.add _ _ _ Reachable.new) (ofString "12") (ofString "5")
     (by decide) (by decide) (by decide)).2.2.2⟩

/-- Adding the rule `a → b` to a base that has no rule whose source begins with `a`, then
removing `a`, gives the base back. -/
theorem phfwdRemove_phfwdAdd (pf : PhoneForward) (h : Inv pf) (a b : Str) (ha : ValidNumber a)
    (hb : ValidNumber b) (hab : a ≠ b) (hno : ∀ s t, ActiveRule pf s t → ¬ a <+: s) :
    phfwdRemove (phfwdAdd pf (some a) (some b)).1 (some a) = pf := by
  have h1 := inv_phfwdAdd_valid pf a b ha hb hab h
  have s1 := phfwdAdd_spec pf a b ha hb hab h.root
  have obs := phfwdRemove_obs (phfwdAdd pf (some a) (some b)).1 a h1 ha
  have hnone : ∀ q, a <+: q → fwdToAt pf q = none := by
    intro q hq
    cases hto : fwdToAt pf q with
    | none => rfl
    | some t =>
      have hqne : q ≠ [] := by
        rintro rfl
        exact ha.1 (List.prefix_nil.1 hq)
      exact absurd hq (hno q t ⟨hqne, hto⟩)
  have hkeep : ∀ q, ∀ y ∈ fwdFromAt pf q, ¬ a <+: y := by
    intro q y hy
    exact hno y q ⟨(validNumber_of_mem_fwdFromAt pf h y q hy).1.1, h.fromTo y q hy⟩
  have hfilter : ∀ q, (fwdFromAt pf q).filter (fun y => decide (¬ a <+: y)) = fwdFromAt pf q := by
    intro q
    rw [List.filter_eq_self]
    intro y hy
    simpa using hkeep q y hy
  refine eq_of_fields _ _ obs.2.2.2 h.root obs.2.2.1 h.noEmpty (fun q => ?_) (fun q => ?_)
  · show fwdToAt _ q = fwdToAt pf q
    rw [obs.1 q]
    by_cases hq : a <+: q
    · rw [if_pos hq, hnone q hq]
    · have hqa : q ≠ a := by
        rintro rfl
        exact hq (List.prefix_refl _)
      rw [if_neg hq, s1.1 q, if_neg hqa]
  · show fwdFromAt _ q = fwdFromAt pf q
    have ha0 : ¬ (fwdToAt pf a = some q) := by
      rw [hnone a (List.prefix_refl _)]
      exact fun he => Option.noConfusion he
    rw [obs.2.1 q, s1.2.1 q, if_neg ha0]
    by_cases hq : q = b
    · rw [if_pos hq, List.filter_cons_of_neg (by simp), hfilter]
    · rw [if_neg hq, hfilter]

theorem not_activeRule_phfwdNew (s t : Str) : ¬ ActiveRule phfwdNew s t := by
  rintro ⟨-, h⟩
  have := (fields_sub_phfwdNew s).1
  unfold fwdToAt at h
  rw [this] at h
  exact Option.noConfusion h

/-- C29. On a reachable base, for valid numbers `a ≠ b` such that no active rule has a
source beginning with `a`: `phfwdAdd a b` followed by `phfwdRemove a` gives back the very
same trie, with the same nodes, the same targets and the same inverse lists in the same
order; on a new base in particular it gives back the empty root. -/
theorem phfwdAdd_phfwdRemove_restores (pf : PhoneForward) (hr : Reachable pf) (a b : Str)
    (ha : ValidNumber a) (hb : ValidNumber b) (hab : a ≠ b)
    (hno : ∀ s t, ActiveRule pf s t → ¬ a <+: s) :
    phfwdRemove (phfwdAdd pf (some a) (some b)).1 (some a) = pf ∧
    phfwdRemove (phfwdAdd phfwdNew (some a) (some b)).1 (some a) = phfwdNew :=
  ⟨phfwdRemove_phfwdAdd pf (inv_of_reachable pf hr) a b ha hb hab hno,
   phfwdRemove_phfwdAdd phfwdNew inv_phfwdNew a b ha hb hab
     (fun s t hst => absurd hst (not_activeRule_phfwdNew s t))⟩

/-- The only rule of the base made by `phfwdAdd a b` on a new base is `a → b`. -/
theorem activeRule_phfwdAdd_phfwdNew (a b : Str) (ha : ValidNumber a) (hb : ValidNumber b)
    (hab : a ≠ b) (s t : Str) (h : ActiveRule (phfwdAdd phfwdNew (some a) (some b)).1 s t) :
    s = a ∧ t = b := by
  have s1 := phfwdAdd_spec phfwdNew a b ha hb hab rfl
  have h2 := h.2
  rw [s1.1 s] at h2
  by_cases hs : s = a
  · rw [if_pos hs] at h2
    exact ⟨hs, (Option.some.inj h2).symm⟩
  · rw [if_neg hs] at h2
    exact absurd ⟨h.1, h2⟩ (not_activeRule_phfwdNew s t)

/-- C29 at work on the base with the rule `00 → 1`, for `a = "12"` and `b = "5"`. -/
theorem phfwdAdd_phfwdRemove_restores_witness :
    Reachable (phfwdAdd phfwdNew (some (ofString "00")) (some (ofString "1"))).1 ∧
    (∀ s t, ActiveRule (phfwdAdd phfwdNew (some (ofString "00")) (some (ofString "1"))).1 s t →
      ¬ ofString "12" <+: s) ∧
    phfwdRemove (phfwdAdd (phfwdAdd phfwdNew (some (ofString "00")) (some (ofString "1"))).1
      (some (ofString "12")) (some (ofString "5"))).1 (some (ofString "12")) =
      (phfwdAdd phfwdNew (some (ofString "00")) (some (ofString "1"))).1 :=
  have hno : ∀ s t,
      ActiveRule (phfwdAdd phfwdNew (some (ofString "00")) (some (ofString "1"))).1 s t →
      ¬ ofString "12" <+: s := by
    intro s t hst
    rw [(activeRule_phfwdAdd_phfwdNew (ofString "00") (ofString "1") (by decide) (by decide)
      (by decide) s t hst).1]
    decide
  ⟨Reachable.add _ _ _ Reachable.new, hno,
   (phfwdAdd_phfwdRemove_restores
     (phfwdAdd phfwdNew (some (ofString "00")) (some (ofString "1"))).1
     (Reachable.add _ _ _ Reachable.new) (ofString "12") (ofString "5")
     (by decide) (by decide) (by decide) hno).1⟩

/-! ## The count and the depth of the inverse lists -/

/-- Whether a string has a source depends only on the inverse lists of the nodes on its
path, which are no deeper than its length. -/
theorem hasSource_congr (pf1 pf2 : PhoneForward) (w : Str)
    (h : ∀ q, q.length ≤ w.length → fwdFromAt pf1 q = fwdFromAt pf2 q) :
    hasSource pf1 w = hasSource pf2 w := by
  rw [Bool.eq_iff_iff, hasSource_iff, hasSource_iff]
  have hlen : ∀ u s : Str, w = u ++ s → u.length ≤ w.length := by
    intro u s hw
    rw [hw, List.length_append]
    omega
  constructor
  · rintro ⟨u, s, hw, hne⟩
    refine ⟨u, s, hw, ?_⟩
    have := h u (hlen u s hw)
    unfold fwdFromAt at this
    rw [← this]
    exact hne
  · rintro ⟨u, s, hw, hne⟩
    refine ⟨u, s, hw, ?_⟩
    have := h u (hlen u s hw)
    unfold fwdFromAt at this
    rw [this]
    exact hne

/-- The count of two bases with the same inverse lists down to the depth `len`. -/
theorem phfwdNonTrivialCount_congr (pf1 pf2 : PhoneForward) (h1 : Inv pf1) (h2 : Inv pf2)
    (set : Option Str) (len : Nat)
    (h : ∀ q, q.length ≤ len → fwdFromAt pf1 q = fwdFromAt pf2 q) :
    phfwdNonTrivialCount pf1 set len = phfwdNonTrivialCount pf2 set len := by
  rw [phfwdNonTrivialCount_eq pf1 h1, phfwdNonTrivialCount_eq pf2 h2]
  congr 1
  apply List.countP_congr
  intro w hw
  have hl := ((mem_wordsOver _ _ _).1 hw).1
  rw [hasSource_congr pf1 pf2 w (fun q hq => h q (by omega))]

/-- C25. On reachable bases, for every `set` and every `len`: the entries of the inverse
lists of nodes deeper than `len` add nothing to the count, which is the same for two bases
with the same inverse lists down to the depth `len`; in particular, when the target of every
active rule is longer than `len`, `phfwdNonTrivialCount set len` is 0. -/
theorem phfwdNonTrivialCount_depth (pf pf2 : PhoneForward) (hr : Reachable pf)
    (hr2 : Reachable pf2) (set : Option Str) (len : Nat) :
    ((∀ q, q.length ≤ len → fwdFromAt pf2 q = fwdFromAt pf q) →
      phfwdNonTrivialCount pf2 set len = phfwdNonTrivialCount pf set len) ∧
    ((∀ a b, ActiveRule pf a b → len < b.length) → phfwdNonTrivialCount pf set len = 0) := by
  have hinv := inv_of_reachable pf hr
  refine ⟨phfwdNonTrivialCount_congr pf2 pf (inv_of_reachable pf2 hr2) hinv set len, ?_⟩
  intro hlong
  have hnew : ∀ q, q.length ≤ len → fwdFromAt pf q = fwdFromAt phfwdNew q := by
    intro q hq
    rw [show fwdFromAt phfwdNew q = [] from (fields_sub_phfwdNew q).2,
      List.eq_nil_iff_forall_not_mem]
    intro x hx
    have hrule : ActiveRule pf x q :=
      ⟨(validNumber_of_mem_fwdFromAt pf hinv x q hx).1.1, hinv.fromTo x q hx⟩
    have := hlong x q hrule
    omega
  rw [phfwdNonTrivialCount_congr pf phfwdNew hinv inv_phfwdNew set len hnew,
    phfwdNonTrivialCount_eq _ inv_phfwdNew]
  have : (wordsOver (alphabet (getSimplifiedSet (set.getD []) (fun _ => false))) len).countP
      (hasSource phfwdNew) = 0 := by
    rw [List.countP_eq_zero]
    intro w _
    simp [hasSource_phfwdNew]
  rw [this]
  rfl

/-- C25 at work, for `len = 2` and the set `"01"`: the rule `5 → 123`, added to the base
with the rule `00 → 1`, leaves the count at 2; and the base with the rule `00 → 123` alone
has the count 0. -/
theorem phfwdNonTrivialCount_depth_witness :
    (∀ q : Str, q.length ≤ 2 →
      fwdFromAt (phfwdAdd (phfwdAdd phfwdNew (some (ofString "00")) (some (ofString "1"))).1
        (some (ofString "5")) (some (ofString "123"))).1 q =
      fwdFromAt (phfwdAdd phfwdNew (some (ofString "00")) (some (ofString "1"))).1 q) ∧
    phfwdNonTrivialCount
      (phfwdAdd (phfwdAdd phfwdNew (some (ofString "00")) (some (ofString "1"))).1
        (some (ofString "5")) (some (ofString "123"))).1 (some (ofString "01")) 2 = 2 ∧
    (∀ a b, ActiveRule (phfwdAdd phfwdNew (some (ofString "00")) (some (ofString "123"))).1 a b →
      2 < b.length) ∧
    phfwdNonTrivialCount (phfwdAdd phfwdNew (some (ofString "00")) (some (ofString "123"))).1
      (some (ofString "01")) 2 = 0 :=
  have hagree : ∀ q : Str, q.length ≤ 2 →
      fwdFromAt (phfwdAdd (phfwdAdd phfwdNew (some (ofString "00")) (some (ofString "1"))).1
        (some (ofString "5")) (some (ofString "123"))).1 q =
      fwdFromAt (phfwdAdd phfwdNew (some (ofString "00")) (some (ofString "1"))).1 q := by
    intro q hq
    have s1 := (phfwdAdd_spec (phfwdAdd phfwdNew (some (ofString "00")) (some (ofString "1"))).1
      (ofString "5") (ofString "123") (by decide) (by decide) (by decide) (by decide)).2.1 q
    have hne : ¬ q = ofString "123" := by
      rintro rfl
      revert hq
      decide
    have hto : fwdToAt (phfwdAdd phfwdNew (some (ofString "00")) (some (ofString "1"))).1
        (ofString "5") = none := by decide
    rw [s1, if_neg hne, hto, if_neg (fun he => Option.noConfusion he)]
  have hlong : ∀ a b,
      ActiveRule (phfwdAdd phfwdNew (some (ofString "00")) (some (ofString "123"))).1 a b →
      2 < b.length := by
    intro a b hab
    rw [(activeRule_phfwdAdd_phfwdNew (ofString "00") (ofString "123") (by decide) (by decide)
      (by decide) a b hab).2]
    decide
  ⟨hagree,
   ((phfwdNonTrivialCount_depth
      (phfwdAdd phfwdNew (some (ofString "00")) (some (ofString "1"))).1
      (phfwdAdd (phfwdAdd phfwdNew (some (ofString "00")) (some (ofString "1"))).1
        (some (ofString "5")) (some (ofString "123"))).1
      (Reachable.add _ _ _ Reachable.new)
      (Reachable.add _ _ _ (Reachable.add _ _ _ Reachable.new))
      (some (ofString "01")) 2).1 hagree).trans (by decide),
   hlong,
   (phfwdNonTrivialCount_depth
      (phfwdAdd phfwdNew (some (ofString "00")) (some (ofString "123"))).1 phfwdNew
      (Reachable.add _ _ _ Reachable.new) Reachable.new (some (ofString "01")) 2).2 hlong⟩

/-! ## The power, the deletion of a beginning, and lookups that do not invert each other -/

/-- C35. For every `base` and `exponent`, those of type `size_t` in particular, the loop of
`myPow` ends within `exponent` iterations, and `myPow base exponent` is `base ^ exponent`
modulo `2 ^ SIZE_BITS`; `myPow base 0` is 1. -/
theorem myPow_spec (base exponent : Nat) :
    myPowLoop exponent 1 base exponent = some (base ^ exponent % 2 ^ SIZE_BITS) ∧
    myPow base exponent = base ^ exponent % 2 ^ SIZE_BITS ∧
    myPow base 0 = 1 := by
  refine ⟨?_, myPow_eq base exponent, rfl⟩
  obtain ⟨v, hv, hmod, hlt⟩ := myPowLoop_spec exponent 1 base exponent (le_refl _)
  rw [one_mul] at hmod
  rw [hv, ← hmod, Nat.mod_eq_of_lt (hlt one_lt_two_pow_SIZE_BITS)]

/-- C36. For every list `L` of strings and every string `p`, `deletePrefixFromList L p` is
the list of the elements of `L` that do not begin with `p`, in their order in `L`: every
element beginning with `p` goes, wherever it stands, and no other does. -/
theorem deletePrefixFromList_spec (L : List Str) (p : Str) :
    deletePrefixFromList L p = L.filter (fun x => decide (¬ p <+: x)) ∧
    (deletePrefixFromList L p).Sublist L ∧
    ∀ x, x ∈ deletePrefixFromList L p ↔ x ∈ L ∧ ¬ p <+: x := by
  rw [deletePrefixFromList_eq]
  refine ⟨rfl, List.filter_sublist L, fun x => ?_⟩
  simp [List.mem_filter]

/-- C33. `phfwdReverse` is not the inverse of `phfwdGet`: on the base made by
`phfwdAdd "1" "2"` and `phfwdAdd "12" "3"`, `"12"` is an element of `phfwdReverse "22"`
while `phfwdGet "12"` returns `"3"`; so there are a reachable base and valid numbers `m`, `n`
with `m` in `phfwdReverse n` and `phfwdGet m` other than `n`. -/
theorem phfwdReverse_not_inverse :
    (ofString "12" ∈ phfwdReverse
        (phfwdAdd (phfwdAdd phfwdNew (some (ofString "1")) (some (ofString "2"))).1
          (some (ofString "12")) (some (ofString "3"))).1 (some (ofString "22")) ∧
      phfwdGet (phfwdAdd (phfwdAdd phfwdNew (some (ofString "1")) (some (ofString "2"))).1
          (some (ofString "12")) (some (ofString "3"))).1 (some (ofString "12")) =
        [ofString "3"]) ∧
    ∃ pf m n, Reachable pf ∧ ValidNumber m ∧ ValidNumber n ∧
      m ∈ phfwdReverse pf (some n) ∧ phfwdGet pf (some m) ≠ [n] :=
  ⟨⟨by decide, by decide⟩,
   (phfwdAdd (phfwdAdd phfwdNew (some (ofString "1")) (some (ofString "2"))).1
      (some (ofString "12")) (some (ofString "3"))).1, ofString "12", ofString "22",
   Reachable.add _ _ _ (Reachable.add _ _ _ Reachable.new), by decide, by decide, by decide,
   by decide⟩

/-! ## Lookups depend on the targets alone -/

/-- The loop of `phfwdGet` gives the same result on two trees with the same targets along
the number. -/
theorem phfwdGetLoop_congr (rest : Str) :
    ∀ (i : Nat) (pf1 pf2 : PhoneForward) (bm : Option Str) (bl : Nat),
      (∀ u, u ≠ [] → u <+: rest → fwdToOf (sub pf1 u) = fwdToOf (sub pf2 u)) →
      phfwdGetLoop rest i pf1 bm bl = phfwdGetLoop rest i pf2 bm bl := by
  induction rest with
  | nil => intros; rfl
  | cons c r ih =>
    intro i pf1 pf2 bm bl h
    have hc : fwdToOf (getChild pf1 (charDigitToInt c)) =
        fwdToOf (getChild pf2 (charDigitToInt c)) := h [c] (by simp) ⟨r, by simp⟩
    have hsub : ∀ u, u ≠ [] → u <+: r →
        fwdToOf (sub (getChild pf1 (charDigitToInt c)) u) =
          fwdToOf (sub (getChild pf2 (charDigitToInt c)) u) := by
      intro u _ hpre
      have := h (c :: u) (by simp) (by
        obtain ⟨s, hs⟩ := hpre
        exact ⟨s, by simp [hs]⟩)
      rw [fwdToOf_sub_cons, fwdToOf_sub_cons] at this
      exact this
    have hnull : ∀ (n : PhoneForward) (j : Nat),
        (∀ u, u ≠ [] → u <+: r → fwdToOf (sub n u) = none) →
        phfwdGetLoop r j n bm bl = (bm, bl) := fun n j hn => phfwdGetLoop_none r j n bm bl hn
    simp only [phfwdGetLoop]
    cases h1 : getChild pf1 (charDigitToInt c) with
    | null =>
      rw [h1] at hc hsub
      cases h2 : getChild pf2 (charDigitToInt c) with
      | null => rfl
      | node cs2 t2 f2 =>
        rw [h2] at hc hsub
        simp only [fwdToOf] at hc
        subst hc
        simp only
        rw [hnull (node cs2 none f2) (i + 1) (fun u hu hp => by
          rw [← hsub u hu hp, sub_null]; rfl)]
    | node cs1 t1 f1 =>
      rw [h1] at hc hsub
      cases h2 : getChild pf2 (charDigitToInt c) with
      | null =>
        rw [h2] at hc hsub
        simp only [fwdToOf] at hc
        subst hc
        simp only
        rw [hnull (node cs1 none f1) (i + 1) (fun u hu hp => by
          rw [hsub u hu hp, sub_null]; rfl)]
      | node cs2 t2 f2 =>
        rw [h2] at hc hsub
        simp only [fwdToOf] at hc
        subst hc
        cases t1 with
        | none => exact ih (i + 1) _ _ bm bl hsub
        | some t => exact ih (i + 1) _ _ (some t) (i + 1) hsub

/-- The result of `phfwdGet` depends on the targets alone. -/
theorem phfwdGet_congr (pf1 pf2 : PhoneForward) (num : Option Str)
    (h : ∀ u, (∃ n, num = some n ∧ u <+: n) → u ≠ [] → fwdToAt pf1 u = fwdToAt pf2 u) :
    phfwdGet pf1 num = phfwdGet pf2 num := by
  cases num with
  | none => rfl
  | some n =>
    simp only [phfwdGet]
    rw [phfwdGetLoop_congr n 0 pf1 pf2 none 0 (fun u hu hp => h u ⟨n, rfl, hp⟩ hu)]

/-- C31. On a reachable base, for every successful `phfwdAdd a b` (valid numbers `a ≠ b`)
and every number `n` that does not begin with `a`, the valid ones in particular,
`phfwdGet n` returns after the call what it returned before. -/
theorem phfwdGet_phfwdAdd_frame (pf : PhoneForward) (hr : Reachable pf) (a b n : Str)
    (ha : ValidNumber a) (hb : ValidNumber b) (hab : a ≠ b) (hpre : ¬ a <+: n) :
    (phfwdAdd pf (some a) (some b)).2 = true ∧
    phfwdGet (phfwdAdd pf (some a) (some b)).1 (some n) = phfwdGet pf (some n) := by
  have hinv := inv_of_reachable pf hr
  have s1 := phfwdAdd_spec pf a b ha hb hab hinv.root
  refine ⟨?_, ?_⟩
  · rw [phfwdAdd_valid pf a b ha hb hab, phfwdAddHelper_snd]
  · apply phfwdGet_congr
    rintro u ⟨m, hm, hu⟩ -
    cases hm
    have hua : u ≠ a := by
      rintro rfl
      exact hpre hu
    rw [s1.1 u, if_neg hua]

/-- C31 at work: on the base with the rule `12 → 5`, adding `123 → 7` leaves
`phfwdGet "124"` at `"54"`. -/
theorem phfwdGet_phfwdAdd_frame_witness :
    Reachable (phfwdAdd phfwdNew (some (ofString "12")) (some (ofString "5"))).1 ∧
    ¬ ofString "123" <+: ofString "124" ∧
    phfwdGet (phfwdAdd (phfwdAdd phfwdNew (some (ofString "12")) (some (ofString "5"))).1
      (some (ofString "123")) (some (ofString "7"))).1 (some (ofString "124")) =
      [ofString "54"] :=
  ⟨Reachable.add _ _ _ Reachable.new, by decide,
   ((phfwdGet_phfwdAdd_frame
      (phfwdAdd phfwdNew (some (ofString "12")) (some (ofString "5"))).1
      (Reachable.add _ _ _ Reachable.new) (ofString "123") (ofString "7") (ofString "124")
      (by decide) (by decide) (by decide) (by decide)).2).trans (by decide)⟩

/-! ## Bases with the same targets -/

/-- In a base that satisfies the invariant the inverse lists are determined, as sets, by the
targets. -/
theorem mem_fwdFromAt_iff (pf : PhoneForward) (h : Inv pf) (x q : Str) :
    x ∈ fwdFromAt pf q ↔ fwdToAt pf x = some q :=
  ⟨h.fromTo x q, fun hx => (h.toFrom x q hx).2.2⟩

theorem perm_fwdFromAt_of_fwdToAt_eq (pf1 pf2 : PhoneForward) (h1 : Inv pf1) (h2 : Inv pf2)
    (h : ∀ q, fwdToAt pf1 q = fwdToAt pf2 q) (q : Str) :
    (fwdFromAt pf1 q).Perm (fwdFromAt pf2 q) := by
  rw [List.perm_ext_iff_of_nodup (h1.nodup q) (h2.nodup q)]
  intro x
  rw [mem_fwdFromAt_iff pf1 h1, mem_fwdFromAt_iff pf2 h2, h x]

theorem nullAt_false_of_fwdToAt_eq (pf1 pf2 : PhoneForward) (h1 : Inv pf1) (h2 : Inv pf2)
    (h : ∀ q, fwdToAt pf1 q = fwdToAt pf2 q) (q : Str) (hq : nullAt pf1 q = false) :
    nullAt pf2 q = false := by
  by_cases hnil : q = []
  · subst hnil
    exact h2.root
  · have hne : ∀ r, r ≠ [] → isNodeEmpty (sub (sub pf1 q) r) = false := by
      intro r _
      rw [← sub_append]
      exact h1.noEmpty (q ++ r) (by simp [hnil])
    obtain ⟨r, hr⟩ := exists_field_of_not_empty (sub pf1 q) hq (h1.noEmpty q hnil) hne
    rw [← sub_append] at hr
    have hnull : nullAt pf2 (q ++ r) = false := by
      rcases hr with hr | hr
      · cases hto : fwdToAt pf1 (q ++ r) with
        | none => exact absurd hto hr
        | some b =>
          rw [h] at hto
          exact nullAt_of_fwdToAt pf2 _ b hto
      · obtain ⟨x, hx⟩ := List.exists_mem_of_ne_nil _ hr
        have hx1 : x ∈ fwdFromAt pf1 (q ++ r) := hx
        rw [mem_fwdFromAt_iff pf1 h1, h, ← mem_fwdFromAt_iff pf2 h2] at hx1
        exact nullAt_of_mem_fwdFromAt pf2 x _ hx1
    exact isNull_sub_of_append pf2 q r hnull

/-- Two bases with the same targets have the same nodes. -/
theorem nullAt_eq_of_fwdToAt_eq (pf1 pf2 : PhoneForward) (h1 : Inv pf1) (h2 : Inv pf2)
    (h : ∀ q, fwdToAt pf1 q = fwdToAt pf2 q) (q : Str) : nullAt pf1 q = nullAt pf2 q := by
  cases h1q : nullAt pf1 q with
  | false => exact (nullAt_false_of_fwdToAt_eq pf1 pf2 h1 h2 h q h1q).symm
  | true =>
    cases h2q : nullAt pf2 q with
    | true => rfl
    | false =>
      have := nullAt_false_of_fwdToAt_eq pf2 pf1 h2 h1 (fun q => (h q).symm) q h2q
      rw [h1q] at this
      exact absurd this (by decide)

/-- Two lists in strictly increasing order with the same elements are equal. -/
theorem eq_of_pairwise_of_mem_iff (l1 l2 : List Str)
    (s1 : l1.Pairwise (fun x y => strcmp x y < 0))
    (s2 : l2.Pairwise (fun x y => strcmp x y < 0)) (h : ∀ m, m ∈ l1 ↔ m ∈ l2) : l1 = l2 := by
  haveI : IsAntisymm Str (fun x y => strcmp x y < 0) :=
    ⟨fun a b hab hba => absurd (strcmp_lt_trans hab hba) (strcmp_lt_irrefl a)⟩
  have n1 : l1.Nodup := s1.imp (fun {a b} hab heq => by
    subst heq; exact strcmp_lt_irrefl a hab)
  have n2 : l2.Nodup := s2.imp (fun {a b} hab heq => by
    subst heq; exact strcmp_lt_irrefl a hab)
  exact List.eq_of_perm_of_sorted ((List.perm_ext_iff_of_nodup n1 n2).2 h) s1 s2

theorem phfwdReverse_eq_of_fwdToAt_eq (pf1 pf2 : PhoneForward) (h1 : Inv pf1) (h2 : Inv pf2)
    (h : ∀ q, fwdToAt pf1 q = fwdToAt pf2 q) (x : Option Str) :
    phfwdReverse pf1 x = phfwdReverse pf2 x := by
  by_cases hx : IsNumber x
  · obtain ⟨n, rfl, hn⟩ := hx
    apply eq_of_pairwise_of_mem_iff
    · rw [phfwdReverse_valid pf1 n hn]
      exact pairwise_phfwdReverseLoop n pf1 [n] (List.pairwise_singleton _ _)
    · rw [phfwdReverse_valid pf2 n hn]
      exact pairwise_phfwdReverseLoop n pf2 [n] (List.pairwise_singleton _ _)
    · intro m
      rw [mem_phfwdReverse_iff pf1 h1 n hn, mem_phfwdReverse_iff pf2 h2 n hn]
      simp only [ActiveRule, h]
  · rw [phfwdReverse_of_not_number pf1 x hx, phfwdReverse_of_not_number pf2 x hx]

theorem hasSource_eq_of_fwdToAt_eq (pf1 pf2 : PhoneForward) (h1 : Inv pf1) (h2 : Inv pf2)
    (h : ∀ q, fwdToAt pf1 q = fwdToAt pf2 q) (w : Str) : hasSource pf1 w = hasSource pf2 w := by
  have key : ∀ (p1 p2 : PhoneForward), Inv p1 → Inv p2 →
      (∀ q, fwdToAt p1 q = fwdToAt p2 q) → hasSource p1 w = true → hasSource p2 w = true := by
    intro p1 p2 i1 i2 hh hs
    rw [hasSource_iff] at hs ⊢
    obtain ⟨u, s, hw, hne⟩ := hs
    refine ⟨u, s, hw, ?_⟩
    obtain ⟨x, hx⟩ := List.exists_mem_of_ne_nil _ hne
    have hx1 : x ∈ fwdFromAt p1 u := hx
    rw [mem_fwdFromAt_iff p1 i1, hh, ← mem_fwdFromAt_iff p2 i2] at hx1
    exact List.ne_nil_of_mem hx1
  rw [Bool.eq_iff_iff]
  exact ⟨key pf1 pf2 h1 h2 h, key pf2 pf1 h2 h1 (fun q => (h q).symm)⟩

/-- Two bases that satisfy the invariant and hold the same targets answer every query alike:
they have the same nodes, and their inverse lists hold the same entries. -/
theorem queries_eq_of_fwdToAt_eq (pf1 pf2 : PhoneForward) (h1 : Inv pf1) (h2 : Inv pf2)
    (h : ∀ q, fwdToAt pf1 q = fwdToAt pf2 q) :
    (∀ x, phfwdGet pf1 x = phfwdGet pf2 x) ∧
    (∀ x, phfwdReverse pf1 x = phfwdReverse pf2 x) ∧
    (∀ set len, phfwdNonTrivialCount pf1 set len = phfwdNonTrivialCount pf2 set len) := by
  refine ⟨fun x => phfwdGet_congr pf1 pf2 x (fun u _ _ => h u),
    phfwdReverse_eq_of_fwdToAt_eq pf1 pf2 h1 h2 h, fun set len => ?_⟩
  rw [phfwdNonTrivialCount_eq pf1 h1, phfwdNonTrivialCount_eq pf2 h2]
  congr 1
  apply List.countP_congr
  intro w _
  rw [hasSource_eq_of_fwdToAt_eq pf1 pf2 h1 h2 h w]

/-- The targets after two calls of `phfwdAdd` with different sources do not depend on the
order of the calls. -/
theorem fwdToAt_phfwdAdd_comm (pf : PhoneForward) (h : Inv pf) (a b c d : Str)
    (ha : ValidNumber a) (hb : ValidNumber b) (hc : ValidNumber c) (hd : ValidNumber d)
    (hac : a ≠ c) (hab : a ≠ b) (hcd : c ≠ d) (q : Str) :
    fwdToAt (phfwdAdd (phfwdAdd pf (some a) (some b)).1 (some c) (some d)).1 q =
      fwdToAt (phfwdAdd (phfwdAdd pf (some c) (some d)).1 (some a) (some b)).1 q := by
  have i1 := inv_phfwdAdd_valid pf a b ha hb hab h
  have i2 := inv_phfwdAdd_valid pf c d hc hd hcd h
  rw [(phfwdAdd_spec _ c d hc hd hcd i1.root).1 q, (phfwdAdd_spec pf a b ha hb hab h.root).1 q,
    (phfwdAdd_spec _ a b ha hb hab i2.root).1 q, (phfwdAdd_spec pf c d hc hd hcd h.root).1 q]
  by_cases hqa : q = a
  · have hqc : q ≠ c := fun hq => hac (hqa.symm.trans hq)
    rw [if_pos hqa, if_neg hqc, if_pos hqa]
  · rw [if_neg hqa, if_neg hqa]

/-- C32. On a reachable base, for valid numbers `a`, `b`, `c`, `d` with `a ≠ c`, `a ≠ b` and
`c ≠ d`: `phfwdAdd a b` then `phfwdAdd c d`, and `phfwdAdd c d` then `phfwdAdd a b`, leave
bases with the same `phfwdGet`, `phfwdReverse` and `phfwdNonTrivialCount` results for all
arguments; the two tries have the same nodes and the same targets, and each inverse list of
the one is a reordering of that of the other. -/
theorem phfwdAdd_comm (pf : PhoneForward) (hr : Reachable pf) (a b c d : Str)
    (ha : ValidNumber a) (hb : ValidNumber b) (hc : ValidNumber c) (hd : ValidNumber d)
    (hac : a ≠ c) (hab : a ≠ b) (hcd : c ≠ d) :
    (∀ x, phfwdGet (phfwdAdd (phfwdAdd pf (some a) (some b)).1 (some c) (some d)).1 x =
      phfwdGet (phfwdAdd (phfwdAdd pf (some c) (some d)).1 (some a) (some b)).1 x) ∧
    (∀ x, phfwdReverse (phfwdAdd (phfwdAdd pf (some a) (some b)).1 (some c) (some d)).1 x =
      phfwdReverse (phfwdAdd (phfwdAdd pf (some c) (some d)).1 (some a) (some b)).1 x) ∧
    (∀ set len,
      phfwdNonTrivialCount (phfwdAdd (phfwdAdd pf (some a) (some b)).1 (some c) (some d)).1
        set len =
      phfwdNonTrivialCount (phfwdAdd (phfwdAdd pf (some c) (some d)).1 (some a) (some b)).1
        set len) ∧
    (∀ q, nullAt (phfwdAdd (phfwdAdd pf (some a) (some b)).1 (some c) (some d)).1 q =
        nullAt (phfwdAdd (phfwdAdd pf (some c) (some d)).1 (some a) (some b)).1 q ∧
      fwdToAt (phfwdAdd (phfwdAdd pf (some a) (some b)).1 (some c) (some d)).1 q =
        fwdToAt (phfwdAdd (phfwdAdd pf (some c) (some d)).1 (some a) (some b)).1 q ∧
      (fwdFromAt (phfwdAdd (phfwdAdd pf (some a) (some b)).1 (some c) (some d)).1 q).Perm
        (fwdFromAt (phfwdAdd (phfwdAdd pf (some c) (some d)).1 (some a) (some b)).1 q)) := by
  have h := inv_of_reachable pf hr
  have i1 := inv_phfwdAdd_valid _ c d hc hd hcd (inv_phfwdAdd_valid pf a b ha hb hab h)
  have i2 := inv_phfwdAdd_valid _ a b ha hb hab (inv_phfwdAdd_valid pf c d hc hd hcd h)
  have hto := fwdToAt_phfwdAdd_comm pf h a b c d ha hb hc hd hac hab hcd
  obtain ⟨g, r, n⟩ := queries_eq_of_fwdToAt_eq _ _ i1 i2 hto
  exact ⟨g, r, n, fun q => ⟨nullAt_eq_of_fwdToAt_eq _ _ i1 i2 hto q, hto q,
    perm_fwdFromAt_of_fwdToAt_eq _ _ i1 i2 hto q⟩⟩

/-- C32 at work on a new base, for the rules `1 → 5` and `2 → 5`: both orders give
`phfwdReverse "5"` the same list, although the inverse list at `"5"` is `["2", "1"]` for
the one and `["1", "2"]` for the other. -/
theorem phfwdAdd_comm_witness :
    Reachable phfwdNew ∧
    fwdFromAt (phfwdAdd (phfwdAdd phfwdNew (some (ofString "1")) (some (ofString "5"))).1
      (some (ofString "2")) (some (ofString "5"))).1 (ofString "5") =
      [ofString "2", ofString "1"] ∧
    fwdFromAt (phfwdAdd (phfwdAdd phfwdNew (some (ofString "2")) (some (ofString "5"))).1
      (some (ofString "1")) (some (ofString "5"))).1 (ofString "5") =
      [ofString "1", ofString "2"] ∧
    phfwdReverse (phfwdAdd (phfwdAdd phfwdNew (some (ofString "1")) (some (ofString "5"))).1
      (some (ofString "2")) (some (ofString "5"))).1 (some (ofString "5")) =
    phfwdReverse (phfwdAdd (phfwdAdd phfwdNew (some (ofString "2")) (some (ofString "5"))).1
      (some (ofString "1")) (some (ofString "5"))).1 (some (ofString "5")) :=
  ⟨Reachable.new, by decide, by decide,
   (phfwdAdd_comm phfwdNew Reachable.new (ofString "1") (ofString "5") (ofString "2")
     (ofString "5") (by decide) (by decide) (by decide) (by decide) (by decide) (by decide)
     (by decide)).2.1 (some (ofString "5"))⟩

/-! ## Array indices stay inside the arrays -/

theorem inSlots_charDigitToInt (c : Nat) (h : InRange c) : InSlots (charDigitToInt c) := by
  unfold InRange at h
  unfold InSlots charDigitToInt
  omega

theorem phfwdAddHelperLoopSlots_spec (num1 : Str) (h : ∀ c ∈ num1, InRange c) :
    ∀ d ∈ phfwdAddHelperLoopSlots num1, InSlots d := by
  induction num1 with
  | nil => intro d hd; cases hd
  | cons c rest ih =>
    intro d hd
    rcases List.mem_cons.1 hd with rfl | hd
    · exact inSlots_charDigitToInt c (h c (List.mem_cons_self _ _))
    · exact ih (fun x hx => h x (List.mem_cons_of_mem _ hx)) d hd

theorem getD_mem (num : Str) (k : Nat) (h : k < num.length) : num.getD k 0 ∈ num := by
  rw [List.getD_eq_getElem?_getD, List.getElem?_eq_getElem h]
  exact List.getElem_mem h

theorem phfwdRemoveRecFromSlots_spec (pf : PhoneForward) (num : Str)
    (h : ∀ c ∈ num, InRange c) :
    ∀ k, k ≤ num.length → ∀ d ∈ phfwdRemoveRecFromSlots pf num k num.length, InSlots d := by
  induction pf with
  | null => intro k _ d hd; cases hd
  | node cs t f ih =>
    intro k hk d hd
    rw [phfwdRemoveRecFromSlots] at hd
    by_cases hkl : k = num.length
    · rw [if_pos hkl] at hd; cases hd
    · rw [if_neg hkl] at hd
      have hin : InSlots (charDigitToInt (num.getD k 0)) :=
        inSlots_charDigitToInt _ (h _ (getD_mem num k (by omega)))
      have hin2 : 0 ≤ charDigitToInt (num.getD k 0) ∧ charDigitToInt (num.getD k 0) < 12 := hin
      simp only [] at hd
      rw [dif_pos hin2] at hd
      rcases List.mem_cons.1 hd with rfl | hd
      · exact hin
      · exact ih _ (k + 1) (by omega) d hd

theorem phfwdGetLoopSlots_spec (n : Str) (h : ∀ c ∈ n, InRange c) :
    ∀ pf, ∀ d ∈ phfwdGetLoopSlots n pf, InSlots d := by
  induction n with
  | nil => intro pf d hd; cases hd
  | cons c rest ih =>
    intro pf d hd
    simp only [phfwdGetLoopSlots] at hd
    rcases List.mem_cons.1 hd with rfl | hd
    · exact inSlots_charDigitToInt c (h c (List.mem_cons_self _ _))
    · cases hc : getChild pf (charDigitToInt c) with
      | null => rw [hc] at hd; cases hd
      | node cs t f =>
        rw [hc] at hd
        exact ih (fun x hx => h x (List.mem_cons_of_mem _ hx)) _ d hd

theorem phfwdReverseLoopSlots_spec (n : Str) (h : ∀ c ∈ n, InRange c) :
    ∀ pf, ∀ d ∈ phfwdReverseLoopSlots n pf, InSlots d := by
  induction n with
  | nil => intro pf d hd; cases hd
  | cons c rest ih =>
    intro pf d hd
    simp only [phfwdReverseLoopSlots] at hd
    rcases List.mem_cons.1 hd with rfl | hd
    · exact inSlots_charDigitToInt c (h c (List.mem_cons_self _ _))
    · cases hc : getChild pf (charDigitToInt c) with
      | null => rw [hc] at hd; cases hd
      | node cs t f =>
        rw [hc] at hd
        exact ih (fun x hx => h x (List.mem_cons_of_mem _ hx)) _ d hd

theorem getSimplifiedSetLoopSlots_spec (set : Str) :
    ∀ n ss, ∀ d ∈ getSimplifiedSetLoopSlots set n ss, InSlots d := by
  induction set with
  | nil => intro n ss d hd; cases hd
  | cons c rest ih =>
    intro n ss d hd
    rw [getSimplifiedSetLoopSlots] at hd
    by_cases hn : n < NUMBER_OF_DIGITS
    · rw [if_pos hn] at hd
      by_cases hc : isDigit c = true
      · rw [dif_pos hc] at hd
        have hin : InSlots (charDigitToInt c) := by
          apply inSlots_charDigitToInt
          simpa [isDigit, InRange] using hc
        simp only [] at hd
        split at hd
        · rcases List.mem_cons.1 hd with rfl | hd
          · exact hin
          · exact ih _ _ d hd
        · rcases List.mem_cons.1 hd with rfl | hd
          · exact hin
          · exact ih _ _ d hd
      · rw [dif_neg hc] at hd
        exact ih _ _ d hd
    · rw [if_neg hn] at hd
      cases hd

theorem targetsValid_of_inv (pf : PhoneForward) (h : Inv pf) : TargetsValid pf :=
  fun q t hq => (h.toFrom q t hq).1.2

theorem targetsValid_of_subset (r r1 : PhoneForward) (h : TargetsValid r)
    (hsub : ∀ q, fwdToAt r1 q = none ∨ fwdToAt r1 q = fwdToAt r q) : TargetsValid r1 := by
  intro q t hq
  rcases hsub q with h0 | h0
  · rw [h0] at hq; cases hq
  · rw [h0] at hq; exact h q t hq

theorem removeForwardsLoopSlots_spec (callSlots : PhoneForward → Str → Option (List Int))
    (call : PhoneForward → Str → Option (PhoneForward × Bool)) (p π : Str) (bound : Nat)
    (is : List Nat) (his : ∀ i ∈ is, i < 12)
    (hcall : ∀ i ∈ is, ∀ r, (∀ q, nullAt r q = false → q.length < bound) →
      ∃ r1 b, call r (π ++ [i + 48]) = some (r1, b) ∧ RfsPost p (π ++ [i + 48]) r r1 b)
    (hslots : ∀ i ∈ is, ∀ r, (∀ q, nullAt r q = false → q.length < bound) → TargetsValid r →
      ∃ l, callSlots r (π ++ [i + 48]) = some l ∧ ∀ d ∈ l, InSlots d) :
    ∀ root, (∀ q, nullAt root q = false → q.length < bound) → TargetsValid root →
      ∃ l, removeForwardsLoopSlots callSlots call π is root = some l ∧
        ∀ d ∈ l, InSlots d := by
  induction is with
  | nil =>
    intro root _ _
    exact ⟨[], rfl, fun d hd => by cases hd⟩
  | cons i rest ih =>
    intro root hroot hvalid
    obtain ⟨l1, hl1, hok1⟩ := hslots i (List.mem_cons_self _ _) root hroot hvalid
    obtain ⟨r1, b, hc, P⟩ := hcall i (List.mem_cons_self _ _) root hroot
    have L1 := loopPost_single p π i root r1 b P
    have hbound : ∀ q, nullAt (if b = true then deleteChild r1 π i else r1) q = false →
        q.length < bound := by
      intro q hq
      apply hroot q
      cases hn : nullAt root q with
      | false => rfl
      | true =>
        have := L1.mono q hn
        rw [this] at hq
        cases hq
    have hvalid2 : TargetsValid (if b = true then deleteChild r1 π i else r1) := by
      apply targetsValid_of_subset root _ hvalid
      intro q
      by_cases hq : ∃ j ∈ [i], π ++ [j + 48] <+: q
      · exact Or.inl (L1.tgt1 q hq)
      · exact Or.inr (L1.tgt2 q hq)
    obtain ⟨l2, hl2, hok2⟩ := ih (fun j hj => his j (List.mem_cons_of_mem _ hj))
      (fun j hj => hcall j (List.mem_cons_of_mem _ hj))
      (fun j hj => hslots j (List.mem_cons_of_mem _ hj)) _ hbound hvalid2
    refine ⟨(i : Int) :: (l1 ++ l2), ?_, ?_⟩
    · simp only [removeForwardsLoopSlots, hl1, hc, hl2]
    · intro d hd
      rcases List.mem_cons.1 hd with rfl | hd
      · have := his i (List.mem_cons_self _ _)
        unfold InSlots
        omega
      · rcases List.mem_append.1 hd with hd | hd
        · exact hok1 d hd
        · exact hok2 d hd

/-- The indices of `phfwdRemoveRecFrom` along the target of a node, when it has one. -/
theorem rfsStartSlots_spec (root : PhoneForward) (t : Option Str)
    (h : ∀ tt, t = some tt → ∀ c ∈ tt, InRange c) :
    ∀ d ∈ (match t with
      | some tt => phfwdRemoveRecFromSlots root tt 0 (strlen tt)
      | none => []), InSlots d := by
  cases t with
  | none => intro d hd; cases hd
  | some tt =>
    exact phfwdRemoveRecFromSlots_spec root tt (h tt rfl) 0 (Nat.zero_le _)

theorem removeForwardsFromSubtreeSlots_null (fuel : Nat) (root : PhoneForward) (π p : Str)
    (h : sub root π = null) : removeForwardsFromSubtreeSlots fuel root π p = some [] := by
  cases fuel with
  | zero => rw [removeForwardsFromSubtreeSlots]; simp only [h]
  | succ n => rw [removeForwardsFromSubtreeSlots]; simp only [h]

/-- The call of `removeForwardsFromSubtree` indexes inside the arrays, and its list of indices
is complete, when the bound is at least the height of the subtree it is called on. -/
theorem removeForwardsFromSubtreeSlots_spec (p : Str) (fuel : Nat) :
    ∀ (root : PhoneForward) (π : Str),
      (∀ q, nullAt root q = false → q.length < fuel + π.length) → TargetsValid root →
      ∃ l, removeForwardsFromSubtreeSlots fuel root π p = some l ∧ ∀ d ∈ l, InSlots d := by
  induction fuel with
  | zero =>
    intro root π hfuel _
    cases hs : sub root π with
    | null =>
      exact ⟨[], removeForwardsFromSubtreeSlots_null 0 root π p hs, fun d hd => by cases hd⟩
    | node cs t f =>
      have := hfuel π (by unfold nullAt; rw [hs]; rfl)
      omega
  | succ fuel ih =>
    intro root π hfuel hvalid
    cases hs : sub root π with
    | null =>
      exact ⟨[], removeForwardsFromSubtreeSlots_null _ root π p hs, fun d hd => by cases hd⟩
    | node cs t f =>
      have ht : fwdToAt root π = t := by unfold fwdToAt; rw [hs]; rfl
      obtain ⟨a1, -, -, a4, -, -, -⟩ := rfsStart_spec root π p
      rw [ht] at a1 a4
      have hb1 : ∀ q, nullAt (rfsStart root t p) q = false → q.length < fuel + 1 + π.length := by
        intro q hq
        apply hfuel q
        cases hn : nullAt root q with
        | false => rfl
        | true => rw [a4 q hn] at hq; cases hq
      have hv1 : TargetsValid (rfsStart root t p) :=
        targetsValid_of_subset root _ hvalid (fun q => Or.inr (a1 q))
      obtain ⟨l2, hl2, hok2⟩ := removeForwardsLoopSlots_spec
        (fun r q => removeForwardsFromSubtreeSlots fuel r q p)
        (fun r q => removeForwardsFromSubtree fuel r q p) p π (fuel + 1 + π.length)
        (List.range 12) (fun i hi => List.mem_range.1 hi)
        (fun i _ r hr => removeForwardsFromSubtree_spec p fuel r (π ++ [i + 48]) (by
          intro q hq
          have := hr q hq
          simp only [List.length_append, List.length_singleton]
          omega))
        (fun i _ r hr hv => ih r (π ++ [i + 48]) (by
          intro q hq
          have := hr q hq
          simp only [List.length_append, List.length_singleton]
          omega) hv)
        (rfsStart root t p) hb1 hv1
      have hok1 := rfsStartSlots_spec root t (fun tt htt => hvalid π tt (by rw [ht, htt]))
      cases t with
      | none =>
        refine ⟨[] ++ l2, ?_, fun d hd => ?_⟩
        · rw [show rfsStart root none p = root from rfl] at hl2
          rw [removeForwardsFromSubtreeSlots]
          simp only [hs, hl2]
        · rcases List.mem_append.1 hd with hd | hd
          · cases hd
          · exact hok2 d hd
      | some tt =>
        refine ⟨phfwdRemoveRecFromSlots root tt 0 (strlen tt) ++ l2, ?_, fun d hd => ?_⟩
        · rw [show rfsStart root (some tt) p =
            (phfwdRemoveRecFrom root tt p 0 (strlen tt) PREFIX).1 from rfl] at hl2
          rw [removeForwardsFromSubtreeSlots]
          simp only [hs, hl2]
        · rcases List.mem_append.1 hd with hd | hd
          · exact hok1 d hd
          · exact hok2 d hd

theorem phfwdRemoveRecToSlots_null (fuel : Nat) (root : PhoneForward) (π p : Str) (d len : Nat)
    (h : sub root π = null) : phfwdRemoveRecToSlots fuel root π p d len = some [] := by
  cases fuel with
  | zero => rw [phfwdRemoveRecToSlots]; simp only [h]
  | succ n => rw [phfwdRemoveRecToSlots]; simp only [h]

theorem phfwdRemoveRecToSlots_end (fuel : Nat) (root : PhoneForward) (π p : Str) (len : Nat)
    (h : isNull (sub root π) = false) :
    phfwdRemoveRecToSlots fuel root π p len len =
      removeForwardsFromSubtreeSlots fuel root π p := by
  obtain ⟨cs, t, f, hs⟩ := (isNull_eq_false_iff _).1 h
  cases fuel with
  | zero => rw [phfwdRemoveRecToSlots]; simp only [hs, if_true]
  | succ n => rw [phfwdRemoveRecToSlots]; simp only [hs, if_true]

/-- The call of `phfwdRemoveRecTo` indexes inside the arrays, and its list of indices is
complete, when the bound is at least the height of the tree below the node. -/
theorem phfwdRemoveRecToSlots_spec (p : Str) (hp : ∀ c ∈ p, InRange c) (fuel : Nat) :
    ∀ (root : PhoneForward) (d : Nat), d ≤ p.length →
      (∀ q, nullAt root q = false → q.length < fuel + d) → TargetsValid root →
      ∃ l, phfwdRemoveRecToSlots fuel root (p.take d) p d p.length = some l ∧
        ∀ x ∈ l, InSlots x := by
  induction fuel with
  | zero =>
    intro root d hd hfuel _
    have hlen : (p.take d).length = d := by simp [hd]
    cases hn : nullAt root (p.take d) with
    | true =>
      exact ⟨[], phfwdRemoveRecToSlots_null _ root _ p d _ ((isNull_eq_true_iff _).1 hn),
        fun x hx => by cases hx⟩
    | false =>
      have := hfuel _ hn
      omega
  | succ fuel ih =>
    intro root d hd hfuel hvalid
    have hlen : (p.take d).length = d := by simp [hd]
    cases hn : nullAt root (p.take d) with
    | true =>
      exact ⟨[], phfwdRemoveRecToSlots_null _ root _ p d _ ((isNull_eq_true_iff _).1 hn),
        fun x hx => by cases hx⟩
    | false =>
      by_cases hdl : d = p.length
      · have key := removeForwardsFromSubtreeSlots_spec p (fuel + 1) root (p.take d)
          (fun q hq => by have := hfuel q hq; omega) hvalid
        have hend := phfwdRemoveRecToSlots_end (fuel + 1) root (p.take d) p p.length hn
        rw [← hdl] at hend
        rw [← hdl, hend]
        exact key
      · have hlt : d < p.length := by omega
        obtain ⟨l, hl, hok⟩ := ih root (d + 1) (by omega)
          (fun q hq => by have := hfuel q hq; omega) hvalid
        rw [← take_succ_getD p d hlt] at hl
        obtain ⟨cs, t, f, hs⟩ := (isNull_eq_false_iff _).1 hn
        refine ⟨charDigitToInt (p.getD d 0) :: l, ?_, fun x hx => ?_⟩
        · rw [phfwdRemoveRecToSlots]
          simp only [hs, hdl, if_false, hl]
        · rcases List.mem_cons.1 hx with rfl | hx
          · exact inSlots_charDigitToInt _ (hp _ (getD_mem p d hlt))
          · exact hok x hx

/-- The call of `phfwdRemove` indexes inside the arrays. -/
theorem phfwdRemoveSlots_spec (pf : PhoneForward) (h : TargetsValid pf) (num : Option Str) :
    ∃ l, phfwdRemoveSlots pf num = some l ∧ ∀ d ∈ l, InSlots d := by
  unfold phfwdRemoveSlots
  by_cases hv : checkIfNumber num = true
  · rw [if_pos hv]
    cases num with
    | none => exact ⟨[], rfl, fun d hd => by cases hd⟩
    | some n =>
      have hn := (checkIfNumber_iff n).1 hv
      have := phfwdRemoveRecToSlots_spec n hn.2 (height pf) pf 0 (Nat.zero_le _)
        (fun q hq => by
          have := length_lt_height pf q hq
          omega) h
      simpa [strlen] using this
  · rw [if_neg hv]
    exact ⟨[], rfl, fun d hd => by cases hd⟩

/-- The call of `phfwdAdd` indexes inside the arrays. -/
theorem phfwdAddSlots_spec (pf : PhoneForward) (h : TargetsValid pf) (src dst : Option Str) :
    ∀ d ∈ phfwdAddSlots pf src dst, InSlots d := by
  cases src with
  | none => intro d hd; cases hd
  | some a =>
    cases dst with
    | none => intro d hd; cases hd
    | some b =>
      intro d hd
      simp only [phfwdAddSlots] at hd
      by_cases hv : (!checkIfNumber (some a) || !checkIfNumber (some b)) = true
      · rw [if_pos hv] at hd; cases hd
      · rw [if_neg hv] at hd
        by_cases hs : strcmp a b = 0
        · rw [if_pos hs] at hd; cases hd
        · rw [if_neg hs] at hd
          simp only [Bool.or_eq_true, Bool.not_eq_true', not_or, Bool.not_eq_false] at hv
          have ha := (checkIfNumber_iff a).1 hv.1
          have hb := (checkIfNumber_iff b).1 hv.2
          rw [phfwdAddHelper_snd] at hd
          simp only [Bool.not_true, Bool.false_eq_true, if_false, phfwdAddHelperSlots, TO, FROM,
            if_true, List.append_nil] at hd
          rcases List.mem_append.1 hd with hd | hd
          · rcases List.mem_append.1 hd with hd | hd
            · exact phfwdAddHelperLoopSlots_spec a ha.2 d hd
            · rw [if_neg (by decide)] at hd
              unfold addForwardSlots at hd
              have hto : fwdToOf (sub (phfwdAddHelperWalk pf a) a) = fwdToAt pf a :=
                fwdToAt_phfwdAddHelperWalk pf a a
              rw [hto] at hd
              cases hold : fwdToAt pf a with
              | none => rw [hold] at hd; cases hd
              | some old =>
                rw [hold] at hd
                exact phfwdRemoveRecFromSlots_spec _ old (h a old hold) 0 (Nat.zero_le _) d hd
          · exact phfwdAddHelperLoopSlots_spec b hb.2 d hd

theorem charDigitToInt_injOn (c1 c2 : Nat) (_h1 : isDigit c1 = true) (_h2 : isDigit c2 = true)
    (h : charDigitToInt c1 = charDigitToInt c2) : c1 = c2 := by
  unfold charDigitToInt at h
  omega

/-- C34. For every string that `checkIfNumber` accepts, `charDigitToInt` maps each character
to an index in `0..11`, and it is injective on the twelve digit characters. So, on a
reachable base and for all arguments, every index `phfwdAdd`, `phfwdRemove`, `phfwdGet` and
`phfwdReverse` compute from a character to access a child slot, and every index
`getSimplifiedSet` uses on the bitmap, is inside the arrays of twelve elements (the
operations validate their arguments before their first access, and the other strings they
walk are targets stored in the base). -/
theorem slots_in_range (pf : PhoneForward) (hr : Reachable pf) :
    (∀ s, checkIfNumber s = true →
      ∃ n, s = some n ∧ ∀ c ∈ n, 0 ≤ charDigitToInt c ∧ charDigitToInt c < 12) ∧
    (∀ c1 c2, isDigit c1 = true → isDigit c2 = true →
      charDigitToInt c1 = charDigitToInt c2 → c1 = c2) ∧
    (∀ src dst, ∀ d ∈ phfwdAddSlots pf src dst, 0 ≤ d ∧ d < 12) ∧
    (∀ num, ∃ l, phfwdRemoveSlots pf num = some l ∧ ∀ d ∈ l, 0 ≤ d ∧ d < 12) ∧
    (∀ num, ∀ d ∈ phfwdGetSlots pf num, 0 ≤ d ∧ d < 12) ∧
    (∀ num, ∀ d ∈ phfwdReverseSlots pf num, 0 ≤ d ∧ d < 12) ∧
    (∀ set simplifiedSet, ∀ d ∈ getSimplifiedSetSlots set simplifiedSet, 0 ≤ d ∧ d < 12) := by
  have hv := targetsValid_of_inv pf (inv_of_reachable pf hr)
  refine ⟨?_, charDigitToInt_injOn, phfwdAddSlots_spec pf hv, phfwdRemoveSlots_spec pf hv,
    ?_, ?_, fun set ss => getSimplifiedSetLoopSlots_spec set 0 ss⟩
  · intro s hs
    cases s with
    | none => cases hs
    | some n =>
      exact ⟨n, rfl, fun c hc =>
        inSlots_charDigitToInt c (((checkIfNumber_iff n).1 hs).2 c hc)⟩
  · intro num d hd
    unfold phfwdGetSlots at hd
    by_cases hc : checkIfNumber num = false
    · rw [if_pos hc] at hd; cases hd
    · rw [if_neg hc] at hd
      cases num with
      | none => cases hd
      | some n =>
        have hn := (checkIfNumber_iff n).1 (by simpa using hc)
        exact phfwdGetLoopSlots_spec n hn.2 pf d hd
  · intro num d hd
    unfold phfwdReverseSlots at hd
    by_cases hc : checkIfNumber num = false
    · rw [if_pos hc] at hd; cases hd
    · rw [if_neg hc] at hd
      cases num with
      | none => cases hd
      | some n =>
        have hn := (checkIfNumber_iff n).1 (by simpa using hc)
        exact phfwdReverseLoopSlots_spec n hn.2 pf d hd

/-- C34 at work on the base with the rules `12 → 5;` and `13 → 7`: `phfwdAdd "12" ":9"`
walks `"12"`, the old target `"5;"` and `":9"`, and `phfwdGet "129"` walks `"129"`. -/
theorem slots_in_range_witness :
    Reachable (phfwdAdd (phfwdAdd phfwdNew (some (ofString "12")) (some (ofString "5;"))).1
      (some (ofString "13")) (some (ofString "7"))).1 ∧
    phfwdAddSlots (phfwdAdd (phfwdAdd phfwdNew (some (ofString "12")) (some (ofString "5;"))).1
      (some (ofString "13")) (some (ofString "7"))).1 (some (ofString "12"))
      (some (ofString ":9")) = [1, 2, 5, 11, 10, 9] ∧
    phfwdGetSlots (phfwdAdd (phfwdAdd phfwdNew (some (ofString "12")) (some (ofString "5;"))).1
      (some (ofString "13")) (some (ofString "7"))).1 (some (ofString "129")) = [1, 2, 9] ∧
    ∃ l, phfwdRemoveSlots
      (phfwdAdd (phfwdAdd phfwdNew (some (ofString "12")) (some (ofString "5;"))).1
        (some (ofString "13")) (some (ofString "7"))).1 (some (ofString "1")) = some l ∧
      ∀ d ∈ l, 0 ≤ d ∧ d < 12 :=
  ⟨Reachable.add _ _ _ (Reachable.add _ _ _ Reachable.new), by decide, by decide,
   (slots_in_range
     (phfwdAdd (phfwdAdd phfwdNew (some (ofString "12")) (some (ofString "5;"))).1
       (some (ofString "13")) (some (ofString "7"))).1
     (Reachable.add _ _ _ (Reachable.add _ _ _ Reachable.new))).2.2.2.1 (some (ofString "1"))⟩

/-! ## Allocation failures -/

theorem malloc_of_success (m : List Bool) (h : ∀ b ∈ m, b = true) :
    (malloc m).1 = true ∧ ∀ b ∈ (malloc m).2, b = true := by
  cases m with
  | nil => exact ⟨rfl, fun b hb => by cases hb⟩
  | cons x rest =>
    exact ⟨h x (List.mem_cons_self _ _), fun b hb => h b (List.mem_cons_of_mem _ hb)⟩

theorem phnumNewAlloc_of_success (m : List Bool) (h : ∀ b ∈ m, b = true) :
    (phnumNewAlloc m).1 = true ∧ ∀ b ∈ (phnumNewAlloc m).2, b = true := by
  obtain ⟨h1, h2⟩ := malloc_of_success m h
  unfold phnumNewAlloc
  cases hm : malloc m with
  | mk b m1 =>
    rw [hm] at h1 h2
    simp only at h1 h2
    subst h1
    exact malloc_of_success m1 h2

/-- When no call of `malloc` fails the loop of `phfwdAddHelper` comes to its end and does
what the loop without failures does. -/
theorem phfwdAddHelperWalkAlloc_of_success (num1 : Str) :
    ∀ (pf : PhoneForward) (m : List Bool), (∀ b ∈ m, b = true) →
      (phfwdAddHelperWalkAlloc pf num1 m).1 = phfwdAddHelperWalk pf num1 ∧
      (phfwdAddHelperWalkAlloc pf num1 m).2.1 = true ∧
      ∀ b ∈ (phfwdAddHelperWalkAlloc pf num1 m).2.2, b = true := by
  induction num1 with
  | nil => intro pf m h; exact ⟨rfl, rfl, h⟩
  | cons c rest ih =>
    intro pf m h
    simp only [phfwdAddHelperWalkAlloc, phfwdAddHelperWalk]
    cases hc : getChild pf (charDigitToInt c) with
    | null =>
      obtain ⟨h1, h2⟩ := malloc_of_success m h
      cases hm : malloc m with
      | mk b m1 =>
        rw [hm] at h1 h2
        simp only at h1 h2
        subst h1
        obtain ⟨a1, a2, a3⟩ := ih phfwdNew m1 h2
        simp only
        exact ⟨by rw [a1], a2, a3⟩
    | node cs t f =>
      obtain ⟨a1, a2, a3⟩ := ih (node cs t f) m h
      simp only
      exact ⟨by rw [a1], a2, a3⟩

/-- When no call of `malloc` fails `phfwdAddHelper` does what it does without failures. -/
theorem phfwdAddHelperAlloc_of_success (pf : PhoneForward) (num1 num2 : Str) (version : Int)
    (m : List Bool) (h : ∀ b ∈ m, b = true) :
    (phfwdAddHelperAlloc pf num1 num2 version m).1 = (phfwdAddHelper pf num1 num2 version).1 ∧
    (phfwdAddHelperAlloc pf num1 num2 version m).2.1 = (phfwdAddHelper pf num1 num2 version).2 ∧
    ∀ b ∈ (phfwdAddHelperAlloc pf num1 num2 version m).2.2, b = true := by
  obtain ⟨a1, a2, a3⟩ := phfwdAddHelperWalkAlloc_of_success num1 pf m h
  unfold phfwdAddHelperAlloc phfwdAddHelper
  simp only [a2, a1, Bool.true_eq_false, if_false]
  by_cases hv : version = 1
  · simp only [hv, if_true]
    obtain ⟨b1, b2⟩ := phnumNewAlloc_of_success _ a3
    unfold addToFromListAlloc addToFromList
    cases hp : phnumNewAlloc (phfwdAddHelperWalkAlloc pf num1 m).2.2 with
    | mk b m1 =>
      rw [hp] at b1 b2
      simp only at b1 b2
      subst b1
      exact ⟨rfl, rfl, b2⟩
  · simp only [hv, if_false]
    obtain ⟨b1, b2⟩ := malloc_of_success _ a3
    unfold addForwardAlloc addForward
    cases hp : malloc (phfwdAddHelperWalkAlloc pf num1 m).2.2 with
    | mk b m1 =>
      rw [hp] at b1 b2
      simp only at b1 b2
      subst b1
      exact ⟨rfl, rfl, b2⟩

/-- When no call of `malloc` fails `phfwdAdd` is the function studied above. -/
theorem phfwdAddAlloc_of_success (pf : PhoneForward) (src dst : Option Str) (m : List Bool)
    (h : ∀ b ∈ m, b = true) : phfwdAddAlloc pf src dst m = phfwdAdd pf src dst := by
  cases src with
  | none => rfl
  | some a =>
    cases dst with
    | none => rfl
    | some b =>
      simp only [phfwdAddAlloc, phfwdAdd]
      by_cases hv : (!checkIfNumber (some a) || !checkIfNumber (some b)) = true
      · rw [if_pos hv, if_pos hv]
      · rw [if_neg hv, if_neg hv]
        by_cases hs : strcmp a b = 0
        · rw [if_pos hs, if_pos hs]
        · rw [if_neg hs, if_neg hs]
          obtain ⟨a1, a2, a3⟩ := phfwdAddHelperAlloc_of_success pf a b TO m h
          obtain ⟨b1, b2, -⟩ := phfwdAddHelperAlloc_of_success
            (phfwdAddHelperAlloc pf a b TO m).1 b a FROM _ a3
          simp only [a2, phfwdAddHelper_snd, Bool.not_true, Bool.false_eq_true, if_false]
          rw [Prod.ext_iff]
          simp only
          rw [b1, b2, a1]
          exact ⟨rfl, rfl⟩

/-- The bases made without allocation failure are among those made with possible ones. -/
theorem reachableAlloc_of_reachable (pf : PhoneForward) (h : Reachable pf) :
    ReachableAlloc pf := by
  induction h with
  | new => exact ReachableAlloc.new
  | add pf num1 num2 _ ih =>
    have := ReachableAlloc.add pf num1 num2 [] ih
    rw [phfwdAddAlloc_of_success pf num1 num2 [] (fun b hb => by cases hb)] at this
    exact this
  | remove pf num _ ih => exact ReachableAlloc.remove pf num ih

/-- C12, as stated, fails when a call fails for lack of memory. On a new base, the call
`phfwdAdd "12" "3"` in which the first `malloc` succeeds and the second fails returns
`false` and leaves the node at `1`, made before the failure: it is no root and it has no
forward target, no inverse entry and no child. -/
theorem reachable_no_empty_node_counterexample :
    ReachableAlloc
      (phfwdAddAlloc phfwdNew (some (ofString "12")) (some (ofString "3")) [true, false]).1 ∧
    (phfwdAddAlloc phfwdNew (some (ofString "12")) (some (ofString "3")) [true, false]).2
      = false ∧
    ofString "1" ≠ [] ∧
    nullAt (phfwdAddAlloc phfwdNew (some (ofString "12")) (some (ofString "3"))
      [true, false]).1 (ofString "1") = false ∧
    isNodeEmpty (sub (phfwdAddAlloc phfwdNew (some (ofString "12")) (some (ofString "3"))
      [true, false]).1 (ofString "1")) = true ∧
    ¬ (fwdToAt (phfwdAddAlloc phfwdNew (some (ofString "12")) (some (ofString "3"))
          [true, false]).1 (ofString "1") ≠ none ∨
       fwdFromAt (phfwdAddAlloc phfwdNew (some (ofString "12")) (some (ofString "3"))
          [true, false]).1 (ofString "1") ≠ [] ∨
       ∃ c, InRange c ∧ nullAt (phfwdAddAlloc phfwdNew (some (ofString "12"))
          (some (ofString "3")) [true, false]).1 (ofString "1" ++ [c]) = false) := by
  have hempty : isNodeEmpty (sub (phfwdAddAlloc phfwdNew (some (ofString "12"))
      (some (ofString "3")) [true, false]).1 (ofString "1")) = true := by decide
  refine ⟨ReachableAlloc.add _ _ _ _ ReachableAlloc.new, by decide, by decide, by decide,
    hempty, ?_⟩
  obtain ⟨-, h1, h2, h3⟩ := (isNodeEmpty_iff _).1 hempty
  rintro (h | h | ⟨c, -, h⟩)
  · exact h h1
  · exact h h2
  · unfold nullAt at h
    rw [sub_snoc, h3 c] at h
    cases h

end Phfwd
